import Mathlib

/-!
Verification development for the FileOrganizer repository.

The Python sources are shallowly embedded: paths are lists of string
components, the filesystem is a finite association list from paths to
nodes, `datetime` values are civil dates at day granularity, and the
external collaborators (metadata extractors, the OS-level move outcome)
are supplied as an explicit environment.  Strings are manipulated through
their character lists so that every definition reduces in the kernel.
-/

namespace FileOrg

/-- Decimal digit to its ASCII character, as Python's str formatting renders
nonnegative integers digit by digit. -/
def digitChar (d : Nat) : Char :=
  match d with
  | 0 => '0' | 1 => '1' | 2 => '2' | 3 => '3' | 4 => '4'
  | 5 => '5' | 6 => '6' | 7 => '7' | 8 => '8' | _ => '9'

/-- ASCII character back to its digit value. -/
def digitVal (c : Char) : Nat :=
  match c with
  | '0' => 0 | '1' => 1 | '2' => 2 | '3' => 3 | '4' => 4
  | '5' => 5 | '6' => 6 | '7' => 7 | '8' => 8 | _ => 9

/-- Fuel-driven decimal rendering of a natural number (most significant digit
first); `fuel ≥ n` suffices. -/
def natCharsFuel : Nat → Nat → List Char
  | 0, n => [digitChar n]
  | fuel + 1, n =>
      if n < 10 then [digitChar n]
      else natCharsFuel fuel (n / 10) ++ [digitChar (n % 10)]

/-- Decimal character rendering of a natural number, as in Python's
f-string `f"{stem}_{counter}{suffix}"`. -/
def natChars (n : Nat) : List Char := natCharsFuel n n

/-- Decimal string rendering of a natural number. -/
def natStr (n : Nat) : String := ⟨natChars n⟩

/-- Evaluate a digit-character list back to the natural number it denotes. -/
def charsVal (cs : List Char) : Nat := cs.foldl (fun a c => 10 * a + digitVal c) 0

/-- Civil date at day granularity: the model of a Python `datetime` as far as
the organizer logic inspects one (`strftime("%Y")`, `strftime("%m")`, and
`timedelta.days` between values). -/
structure CivilDate where
  year : Nat
  month : Nat
  day : Nat
deriving DecidableEq, Repr

/-- Day number of a civil date (days since 0000-03-01, Gregorian), so that
Python's `(a - b).days` for midnight datetimes is the difference of day
numbers. -/
def CivilDate.dayNumber (d : CivilDate) : Nat :=
  let yr := if d.month ≤ 2 then d.year - 1 else d.year
  let mp := if d.month ≤ 2 then d.month + 9 else d.month - 3
  let era := yr / 400
  let yoe := yr % 400
  let doy := (153 * mp + 2) / 5 + d.day - 1
  let doe := yoe * 365 + yoe / 4 - yoe / 100 + doy
  era * 146097 + doe

/-- Python `(now - then).days` for day-granularity datetimes. -/
def daysBetween (later earlier : CivilDate) : Int :=
  (later.dayNumber : Int) - (earlier.dayNumber : Int)

/-- `strftime("%Y")`: decimal year (years ≥ 1000, where zero padding is
vacuous). -/
def yearStr (d : CivilDate) : String := natStr d.year

/-- `strftime("%m")`: two-digit zero-padded month. -/
def monthStr (d : CivilDate) : String :=
  if d.month < 10 then "0" ++ natStr d.month else natStr d.month

/-! ## Filesystem model

A path is its list of components below the root; a filesystem is an
association list from paths to nodes plus a set of symlinked paths and the
working directory.  The model has no symlink-chasing in resolution: `resolve`
is lexical, which coincides with Python `Path.resolve` whenever no symlink
lies on the paths involved (symlinked paths are still detected and rejected
by `is_symlink_safe`, as in the source). -/

/-- A filesystem node: a regular file (with size in bytes, an abstract
content token, and its modification date) or a directory. -/
inductive FsNode where
  | file (size : Nat) (content : Nat) (mtime : CivilDate)
  | dir
deriving DecidableEq, Repr

/-- Model filesystem. -/
structure Fs where
  cwd : List String
  symlinks : List (List String)
  entries : List (List String × FsNode)
deriving DecidableEq, Repr

def Fs.lookup (fs : Fs) (p : List String) : Option FsNode :=
  (fs.entries.find? (fun e => e.1 == p)).map (·.2)

/-- Python `Path.exists()`; the root always exists. -/
def Fs.pathExists (fs : Fs) (p : List String) : Bool :=
  p == [] || (fs.lookup p).isSome

/-- Python `Path.is_file()`. -/
def Fs.isFile (fs : Fs) (p : List String) : Bool :=
  match fs.lookup p with
  | some (.file _ _ _) => true
  | _ => false

/-- Python `Path.is_dir()`; the root is a directory. -/
def Fs.isDir (fs : Fs) (p : List String) : Bool :=
  p == [] || match fs.lookup p with
  | some .dir => true
  | _ => false

/-- Python `Path.is_symlink()`. -/
def Fs.isSymlink (fs : Fs) (p : List String) : Bool :=
  fs.symlinks.contains p

/-- `Path.parents`: every proper ancestor of the path, root included. -/
def ancestors (p : List String) : List (List String) :=
  (List.range p.length).map (fun i => p.take i)

/-- Python `path.mkdir(parents=True, exist_ok=True)` succeeds unless the path
or one of its ancestors exists as a regular file. -/
def Fs.mkdirOk (fs : Fs) (p : List String) : Bool :=
  (p :: ancestors p).all (fun q => ! fs.isFile q)

/-- Effect of `mkdir(parents=True, exist_ok=True)`: create the missing
directory entries along the path. -/
def Fs.mkdir (fs : Fs) (p : List String) : Fs :=
  { fs with entries :=
      fs.entries ++
        ((p :: ancestors p).filter
          (fun q => !(q == []) && !(fs.pathExists q))).map (fun q => (q, FsNode.dir)) }

/-- Effect of a successful `shutil.move`: the source entry is re-keyed to the
destination (overwriting any destination entry, as `shutil.move` onto an
existing file does). -/
def Fs.move (fs : Fs) (src dst : List String) : Fs :=
  match fs.lookup src with
  | some node =>
      { fs with entries :=
          (fs.entries.filter (fun e => !(e.1 == src) && !(e.1 == dst))) ++ [(dst, node)] }
  | none => fs

/-- The mtime a `stat` call reports for a path (files only). -/
def Fs.mtimeOf (fs : Fs) (p : List String) : Option CivilDate :=
  match fs.lookup p with
  | some (.file _ _ m) => some m
  | _ => none

def Fs.sizeOf (fs : Fs) (p : List String) : Nat :=
  match fs.lookup p with
  | some (.file s _ _) => s
  | _ => 0

/-! ## Path strings

`str(path)` and parsing back, as the validator receives strings. -/

/-- `str(path)` for an absolute path: "/" followed by the components joined
with "/". -/
def renderPath (p : List String) : String :=
  p.foldl (fun a c => a ++ "/" ++ c) ""

/-- Split a character list on the slash separator. -/
def splitSlash (cs : List Char) : List (List Char) :=
  cs.foldr
    (fun c acc =>
      match acc with
      | [] => if c = '/' then [[], []] else [[c]]
      | seg :: rest => if c = '/' then [] :: seg :: rest else (c :: seg) :: rest)
    [[]]

/-- Lexical normalization of raw path segments: empty segments and `.` are
dropped, `..` removes the previous component — the arithmetic Python
`Path.resolve` performs on a symlink-free path. -/
def normalizeSegs (segs : List String) : List String :=
  (segs.foldl
    (fun acc s =>
      if s = "" || s = "." then acc
      else if s = ".." then acc.dropLast
      else acc ++ [s]) [])

/-- Model of `Path(s).resolve()` on a symlink-free filesystem: absolute paths
are normalized lexically, relative ones are resolved against the working
directory. -/
def resolvePath (cwd : List String) (s : String) : List String :=
  let segs := (splitSlash s.data).map (fun cs => String.mk cs)
  match s.data with
  | '/' :: _ => normalizeSegs segs
  | _ => normalizeSegs (cwd ++ segs)

/-- Lower-case an ASCII character, the fragment of Python `str.lower` the
denylist comparison exercises. -/
def asciiLower (c : Char) : Char :=
  if 65 ≤ c.toNat && c.toNat ≤ 90 then Char.ofNat (c.toNat + 32) else c

def lowerStr (s : String) : String := ⟨s.data.map asciiLower⟩

/-- Python `str.startswith`. -/
def strStartsWith (s pre : String) : Bool :=
  pre.data.isPrefixOf s.data

/-- Python `'\0'` removal: `path_input.replace('\0', '')`. -/
def stripNulls (s : String) : String :=
  ⟨s.data.filter (fun c => !(c == Char.ofNat 0))⟩

/-- `str(path)` for an absolute resolved path; the root renders as "/". -/
def renderAbs (p : List String) : String :=
  if p = [] then "/" else renderPath p

/-! ## ValidationService (services/core/validation_service.py) -/

/-- The `dangerous_paths` denylist of `ValidationService.__init__`. -/
def dangerous_paths : List String :=
  [ "/system", "/usr/bin", "/usr/sbin", "/bin", "/sbin",
    "/etc", "/var/log", "/private/etc", "/private/var/log",
    "c:\\windows", "c:\\program files", "c:\\program files (x86)",
    "c:\\programdata", "c:\\system volume information",
    "/boot", "/dev", "/proc", "/sys", "/run" ]

/-- `ValidationService.max_path_length`. -/
def max_path_length : Nat := 4096

/-- `ValidationService.is_symlink_safe`: neither the path nor any parent is a
symlink. -/
def is_symlink_safe (fs : Fs) (p : List String) : Bool :=
  !(fs.isSymlink p) && (ancestors p).all (fun q => ! fs.isSymlink q)

/-- The upward walk of `is_safe_path`: step to the parent until the current
path exists or is its own parent (the root); fuel bounds the component
count. -/
def walkUpToExisting (fs : Fs) : Nat → List String → List String
  | 0, p => p
  | fuel + 1, p =>
      if !(fs.pathExists p) && !(p == []) then walkUpToExisting fs fuel p.dropLast
      else p

/-- `ValidationService.is_safe_path` on the rendered absolute path: not under
the lowercased denylist; existing files and directories are safe; a
not-yet-existing path is safe when its nearest existing ancestor is a
directory that the path descends from. -/
def is_safe_path (fs : Fs) (abs_path : String) : Bool :=
  let path_lower := lowerStr abs_path
  if dangerous_paths.any (fun danger => strStartsWith path_lower (lowerStr danger)) then
    false
  else
    let path_obj := resolvePath fs.cwd abs_path
    if fs.isFile path_obj then true
    else if fs.pathExists path_obj && fs.isDir path_obj then true
    else
      let current_path := walkUpToExisting fs path_obj.length path_obj
      if fs.pathExists current_path && fs.isDir current_path then
        -- `path_obj.relative_to(current_path)` succeeds iff current is a prefix
        decide (current_path <+: path_obj)
      else false

/-- `ValidationService.validate_and_sanitize_path`: empty input falls back to
the working directory; null bytes are stripped; the path is resolved; then
length, symlink and safe-location checks apply. -/
def validate_and_sanitize_path (fs : Fs) (path_input : Option String) : Option String :=
  match path_input with
  | none => some (renderAbs fs.cwd)
  | some s =>
      if s = "" then some (renderAbs fs.cwd)
      else
        let clean_path := stripNulls s
        let path := resolvePath fs.cwd clean_path
        let abs_path := renderAbs path
        if abs_path.length > max_path_length then none
        else if !(is_symlink_safe fs path) then none
        else if !(is_safe_path fs abs_path) then none
        else some abs_path

/-- The `dangerous_extensions` set of `validate_file_extension`. -/
def dangerous_extensions : List String :=
  [ "exe", "bat", "cmd", "com", "pif", "scr", "vbs", "js", "jar",
    "app", "deb", "pkg", "dmg", "rpm", "run", "msi", "dll", "so" ]

/-- ASCII alphanumeric test (the fragment of Python `str.isalnum` these
extensions exercise). -/
def charIsAlnum (c : Char) : Bool :=
  (48 ≤ c.toNat && c.toNat ≤ 57) || (97 ≤ c.toNat && c.toNat ≤ 122) ||
    (65 ≤ c.toNat && c.toNat ≤ 90)

/-- Python `str.isalnum`: nonempty and all alphanumeric. -/
def strIsAlnum (s : String) : Bool :=
  !(s.data.isEmpty) && s.data.all charIsAlnum

/-- Python `str.lstrip('.')`. -/
def lstripDots (s : String) : String :=
  ⟨s.data.dropWhile (fun c => c == '.')⟩

/-- `ValidationService.validate_file_extension`. -/
def validate_file_extension (file_extension : String) : Bool :=
  if file_extension = "" then false
  else
    let ext := lowerStr (lstripDots file_extension)
    if dangerous_extensions.contains ext then false
    else if ext.length > 10 then false
    else if !(strIsAlnum ext) then false
    else true

/-! ## Metadata dictionaries and the external environment -/

/-- A Python dict value as the metadata layer stores them. -/
inductive MetaVal where
  | str (s : String)
  | date (d : CivilDate)
  | boolV (b : Bool)
  | natV (n : Nat)
  | noneV
deriving DecidableEq, Repr

/-- Python truthiness of a metadata value. -/
def truthy : MetaVal → Bool
  | .noneV => false
  | .boolV b => b
  | .str s => !(s == "")
  | .natV n => !(n == 0)
  | .date _ => true

/-- A string-keyed Python dict, insertion ordered. -/
abbrev MetaDict := List (String × MetaVal)

/-- `d.get(k)` (`None` default). -/
def dictGet (d : MetaDict) (k : String) : MetaVal :=
  (((d.find? (fun e => e.1 == k))).map (·.2)).getD .noneV

/-- `d.get(k, default)`. -/
def dictGetD (d : MetaDict) (k : String) (v : MetaVal) : MetaVal :=
  (((d.find? (fun e => e.1 == k))).map (·.2)).getD v

/-- `d[k] = v`. -/
def dictSet (d : MetaDict) (k : String) (v : MetaVal) : MetaDict :=
  if d.any (fun e => e.1 == k) then
    d.map (fun e => if e.1 == k then (k, v) else e)
  else d ++ [(k, v)]

/-- The external collaborators of the engine: the clock, the format-specific
metadata extractors (their field contribution, their organization-date answer,
and whether comprehensive extraction raises), and the OS-level outcome of a
`shutil.move` call. -/
structure Env where
  now : CivilDate
  extractorFields : List String → MetaDict
  extractorDate : List String → Option CivilDate
  extractRaises : List String → Option String
  moveOk : List String → List String → Bool

/-- `Path.name`. -/
def pathName (p : List String) : String := p.getLast?.getD ""

/-- `PurePath.stem` and `PurePath.suffix`: split the name at its last dot,
except when that dot is the leading or the trailing character. -/
def splitStemSuffix (name : String) : String × String :=
  let cs := name.data
  let sufLen := (cs.reverse.takeWhile (fun c => !(c == '.'))).length
  if sufLen = cs.length then (name, "")
  else
    let i := cs.length - 1 - sufLen
    if i = 0 || sufLen = 0 then (name, "")
    else (⟨cs.take i⟩, ⟨cs.drop i⟩)

/-- `Path.suffix` of the path's name. -/
def pathSuffix (p : List String) : String := (splitStemSuffix (pathName p)).2

/-! ## file_operations/file_utils.py -/

/-- `get_file_modification_date`: `datetime.fromtimestamp(path.stat().st_mtime)`;
`stat` raises when the file is missing. -/
def get_file_modification_date (fs : Fs) (file_path : List String) : Except String CivilDate :=
  match fs.mtimeOf file_path with
  | some m => Except.ok m
  | none => Except.error "stat failed"

/-- The collision-suffix loop shared by `get_unique_file_path` and
`UnorganizeService._get_unique_destination_path`: starting from `counter`,
return the first numbered candidate that does not exist; fuel bounds the
search (any fuel beyond the number of existing entries suffices). -/
def uniqueLoop (mk : Nat → String) (fs : Fs) (folder : List String) :
    Nat → Nat → List String
  | 0, counter => folder ++ [mk counter]
  | fuel + 1, counter =>
      let destination_path := folder ++ [mk counter]
      if fs.pathExists destination_path then uniqueLoop mk fs folder fuel (counter + 1)
      else destination_path

/-- The `f"{stem}_{counter}{suffix}"` of `get_unique_file_path`. -/
def numberedName (stem suffix : String) (counter : Nat) : String :=
  stem ++ "_" ++ natStr counter ++ suffix

/-- `get_unique_file_path`: the plain `folder / filename` if free, else the
first `stem_counter.suffix` (counter = 1, 2, …) that does not exist. -/
def get_unique_file_path (fs : Fs) (destination_folder : List String) (filename : String) :
    List String :=
  let destination_path := destination_folder ++ [filename]
  if !(fs.pathExists destination_path) then destination_path
  else
    let stem := (splitStemSuffix filename).1
    let suffix := (splitStemSuffix filename).2
    uniqueLoop (numberedName stem suffix) fs destination_folder (fs.entries.length + 1) 1

/-- `ensure_directory_exists`: `mkdir(parents=True, exist_ok=True)` with
`OSError` mapped to `False`. -/
def ensure_directory_exists (fs : Fs) (directory_path : List String) : Bool × Fs :=
  if fs.mkdirOk directory_path then (true, fs.mkdir directory_path) else (false, fs)

/-! ## models/operation_result.py -/

/-- `FileOperationResult`. -/
structure FileOperationResult where
  source_file : String
  operation : String
  success : Bool
  destination_path : Option String := none
  error_message : Option String := none
  processing_time : ℚ := 0
  file_size : Nat := 0
  original_source_path : Option String := none
  organized_destination_path : Option String := none
deriving DecidableEq, Repr

/-- `OperationProgress` (the start timestamp and wall-clock metrics are
outside the model; processing times are kept as exact rationals). -/
structure OperationProgress where
  operation_id : String
  total_files : Nat
  processed_files : Nat := 0
  successful_files : Nat := 0
  failed_files : Nat := 0
  current_file : Option String := none
  results : List FileOperationResult := []
  avg_processing_time : ℚ := 0
  estimated_remaining : ℚ := 0
deriving DecidableEq, Repr

/-- A freshly constructed `OperationProgress(operation_id=…, total_files=…)`. -/
def mkProgress (operation_id : String) (total_files : Nat) : OperationProgress :=
  { operation_id := operation_id, total_files := total_files }

/-- `OperationProgress.add_result`. -/
def add_result (p : OperationProgress) (result : FileOperationResult) : OperationProgress :=
  let results := p.results ++ [result]
  let processed_files := p.processed_files + 1
  let successful_files :=
    if result.success then p.successful_files + 1 else p.successful_files
  let failed_files :=
    if result.success then p.failed_files else p.failed_files + 1
  if processed_files > 0 then
    let total_time : ℚ := (results.map (·.processing_time)).sum
    let avg_processing_time := total_time / (processed_files : ℚ)
    let remaining_files : ℚ := (p.total_files : ℚ) - (processed_files : ℚ)
    { p with results := results, processed_files := processed_files,
             successful_files := successful_files, failed_files := failed_files,
             avg_processing_time := avg_processing_time,
             estimated_remaining := remaining_files * avg_processing_time }
  else
    { p with results := results, processed_files := processed_files,
             successful_files := successful_files, failed_files := failed_files }

/-- `OperationProgress.completion_percentage`. -/
def completion_percentage (p : OperationProgress) : ℚ :=
  if p.total_files = 0 then 100 else ((p.processed_files : ℚ) / (p.total_files : ℚ)) * 100

/-- `OperationProgress.get_failed_operations`. -/
def get_failed_operations (p : OperationProgress) : List FileOperationResult :=
  p.results.filter (fun r => !r.success)

/-! ## services/metadata/metadata_service.py -/

def image_extensions : List String :=
  [".jpg", ".jpeg", ".png", ".tiff", ".tif", ".cr2", ".nef", ".arw", ".dng", ".bmp", ".gif"]

def audio_extensions : List String :=
  [".mp3", ".flac", ".m4a", ".aac", ".ogg", ".wav", ".wma"]

def video_extensions : List String :=
  [".mp4", ".avi", ".mkv", ".mov", ".wmv", ".flv", ".webm", ".m4v"]

def document_extensions : List String :=
  [".docx", ".xlsx", ".pptx", ".pdf", ".txt", ".md", ".rtf"]

/-- `MetadataService.get_file_type`. -/
def get_file_type (file_path : List String) : String :=
  let suffix := lowerStr (pathSuffix file_path)
  if image_extensions.contains suffix then "image"
  else if audio_extensions.contains suffix then "audio"
  else if video_extensions.contains suffix then "video"
  else if document_extensions.contains suffix then "document"
  else "other"

/-- `MetadataService.is_media_file`. -/
def is_media_file (file_path : List String) : Bool :=
  let t := get_file_type file_path
  t == "image" || t == "audio" || t == "video"

/-- `MetadataService.extract_metadata`: empty for a missing file, otherwise
the (privacy-filtered) extractor fields updated with the stat-derived fields.
The single stored mtime models both `st_ctime` and `st_mtime`. -/
def extract_metadata (env : Env) (fs : Fs) (file_path : List String) : MetaDict :=
  if !(fs.pathExists file_path) then []
  else
    let metadata := env.extractorFields file_path
    match fs.mtimeOf file_path with
    | none => metadata
    | some m =>
        let metadata := dictSet metadata "file_size" (.natV (fs.sizeOf file_path))
        let metadata := dictSet metadata "created_date" (.date m)
        let metadata := dictSet metadata "modified_date" (.date m)
        let metadata := dictSet metadata "file_type" (.str (get_file_type file_path))
        let metadata := dictSet metadata "file_name" (.str (pathName file_path))
        dictSet metadata "file_extension" (.str (lowerStr (pathSuffix file_path)))

/-- `MetadataService.get_creation_date`: first truthy of the candidate date
fields of the extracted metadata. -/
def get_creation_date (env : Env) (fs : Fs) (file_path : List String) : Option CivilDate :=
  let metadata := extract_metadata env fs file_path
  let pick := ["creation_date", "date_taken", "created_date", "modified_date"].find?
    (fun k => metadata.any (fun e => e.1 == k) && truthy (dictGet metadata k))
  match pick with
  | some k => match dictGet metadata k with
              | .date d => some d
              | _ => none
  | none => none

/-- `MetadataService.extract_comprehensive_metadata`; the environment decides
whether the call raises (e.g. a failing configuration provider inside privacy
filtering). -/
def extract_comprehensive_metadata (env : Env) (fs : Fs) (file_path : List String) :
    Except String MetaDict :=
  match env.extractRaises file_path with
  | some msg => Except.error msg
  | none =>
      let metadata := extract_metadata env fs file_path
      let metadata :=
        match get_creation_date env fs file_path with
        | some d =>
            let metadata := dictSet metadata "organization_date" (.date d)
            let metadata := dictSet metadata "year" (.natV d.year)
            dictSet metadata "month" (.natV d.month)
        | none => metadata
      let metadata := dictSet metadata "is_media" (.boolV (is_media_file file_path))
      Except.ok (dictSet metadata "file_category" (.str (get_file_type file_path)))

/-- `MetadataService.get_organization_info`. -/
def get_organization_info (env : Env) (fs : Fs) (file_path : List String) :
    Except String MetaDict :=
  match extract_comprehensive_metadata env fs file_path with
  | .error e => .error e
  | .ok metadata =>
      let organization_info : MetaDict :=
        [ ("file_type", dictGetD metadata "file_category" (.str "other")),
          ("creation_date", dictGet metadata "organization_date"),
          ("is_media", dictGetD metadata "is_media" (.boolV false)),
          ("file_size", dictGetD metadata "file_size" (.natV 0)) ]
      if truthy (dictGet organization_info "creation_date") then
        match dictGet organization_info "creation_date" with
        | .date d =>
            .ok (dictSet (dictSet organization_info "year" (.natV d.year))
                  "month" (.natV d.month))
        | _ => .ok organization_info
      else .ok organization_info

/-- `MetadataService.get_best_organization_date`: the extractor's date if it
yields one (exceptions there fall through), else the file's stat date, else
the current time. -/
def get_best_organization_date (env : Env) (fs : Fs) (file_path : List String) : CivilDate :=
  match env.extractorDate file_path with
  | some d => d
  | none =>
      match fs.mtimeOf file_path with
      | some m => m
      | none => env.now

/-! ## file_operations/file_types.py -/

def categoryImages : List String :=
  [".jpg", ".jpeg", ".png", ".gif", ".bmp", ".tiff", ".tif",
   ".svg", ".webp", ".ico", ".raw", ".cr2", ".nef", ".orf", ".dng"]

def categoryDocuments : List String :=
  [".pdf", ".doc", ".docx", ".txt", ".rtf", ".odt", ".xls",
   ".xlsx", ".ppt", ".pptx", ".csv", ".md", ".tex"]

def categoryVideos : List String :=
  [".mp4", ".avi", ".mkv", ".mov", ".wmv", ".flv", ".webm",
   ".m4v", ".mpg", ".mpeg", ".3gp", ".ogv"]

def categoryAudio : List String :=
  [".mp3", ".wav", ".flac", ".aac", ".ogg", ".wma", ".m4a",
   ".opus", ".aiff", ".au"]

def categoryArchives : List String :=
  [".zip", ".rar", ".7z", ".tar", ".gz", ".bz2", ".xz",
   ".tar.gz", ".tar.bz2", ".tar.xz"]

def categoryCode : List String :=
  [".py", ".js", ".html", ".css", ".cpp", ".c", ".java",
   ".php", ".rb", ".go", ".rs", ".swift", ".kt", ".ts"]

def categoryExecutables : List String :=
  [".exe", ".msi", ".deb", ".rpm", ".dmg", ".pkg", ".app",
   ".apk", ".ipa"]

/-- `FILE_TYPE_CATEGORIES`, in insertion order. -/
def FILE_TYPE_CATEGORIES : List (String × List String) :=
  [ ("Images", categoryImages), ("Documents", categoryDocuments),
    ("Videos", categoryVideos), ("Audio", categoryAudio),
    ("Archives", categoryArchives), ("Code", categoryCode),
    ("Executables", categoryExecutables) ]

/-- `MEDIA_EXTENSIONS` (a set union; order is irrelevant to membership). -/
def MEDIA_EXTENSIONS : List String := categoryImages ++ categoryVideos ++ categoryAudio

/-- `DOCUMENT_EXTENSIONS`. -/
def DOCUMENT_EXTENSIONS : List String := categoryDocuments

/-- Category lookup over `FILE_TYPE_CATEGORIES`. -/
def categoryLookup (file_extension : String) : Option String :=
  (FILE_TYPE_CATEGORIES.find? (fun ce => ce.2.contains file_extension)).map (·.1)

/-- Python `sub in s` for strings. -/
def strContains (s sub : String) : Bool :=
  (List.range (s.data.length + 1)).any (fun i => sub.data.isPrefixOf (s.data.drop i))

/-! ## Events

The notifications and filesystem calls a run emits, in order.  A `validateEv`
records a `validate_and_sanitize_path` call on a path string and whether it
passed; `mkdirEv` and `moveEv` record the mutating filesystem calls.  -/

inductive Event where
  | validateEv (path_str : String) (ok : Bool)
  | mkdirEv (p : List String)
  | moveEv (src dst : List String)
  | publishEv (topic : String) (file_name : String)
deriving DecidableEq, Repr

/-! ## Organizers (organizers/) -/

/-- `BaseOrganizer._extract_metadata_safely`: on extraction failure publish
`metadata_extraction_failed` and fall back to a basic dict (whose mtime read
itself raises when the file is gone). -/
def extract_metadata_safely (env : Env) (fs : Fs) (file_path : List String) :
    Except String MetaDict × List Event :=
  match extract_comprehensive_metadata env fs file_path with
  | .ok metadata => (.ok metadata, [])
  | .error e =>
      let evs := [Event.publishEv "metadata_extraction_failed" (pathName file_path)]
      match fs.mtimeOf file_path with
      | some m =>
          (.ok [("type", .str "unknown"), ("creation_date", .noneV),
                ("modification_date", .date m)], evs)
      | none => (.error ("stat failed after " ++ e), evs)

/-- `DateOrganizer.get_destination_path`: year/month folder from the
organization info's `date` entry (a key `get_organization_info` never
produces), falling back to the file's modification date. -/
def date_get_destination_path (env : Env) (fs : Fs)
    (file_path destination_root : List String) :
    Except String (List String) × List Event :=
  match get_organization_info env fs file_path with
  | .error e => (.error e, [])
  | .ok organization_info =>
      let dateOpt : Option CivilDate :=
        match dictGet organization_info "date" with
        | .date d => some d
        | _ => none
      let dateRes : Except String CivilDate :=
        match dateOpt with
        | some d => .ok d
        | none => get_file_modification_date fs file_path
      match dateRes with
      | .error e => (.error e, [])
      | .ok organization_date =>
          let destination_folder :=
            destination_root ++ [yearStr organization_date, monthStr organization_date]
          (.ok (get_unique_file_path fs destination_folder (pathName file_path)), [])

/-- `TypeOrganizer._get_file_category`. -/
def type_get_file_category (file_extension : String) (metadata : MetaDict) : String :=
  match categoryLookup file_extension with
  | some category => category
  | none =>
      let file_type :=
        lowerStr (match dictGetD metadata "type" (.str "") with
                  | .str s => s
                  | _ => "")
      if strContains file_type "image" then "Images"
      else if strContains file_type "video" then "Videos"
      else if strContains file_type "audio" then "Audio"
      else if strContains file_type "document" || strContains file_type "text" then "Documents"
      else "Other"

/-- `TypeOrganizer.get_destination_path`. -/
def type_get_destination_path (fs : Fs)
    (file_path destination_root : List String) (metadata : MetaDict) :
    Except String (List String) × List Event :=
  let file_extension := lowerStr (pathSuffix file_path)
  let category := type_get_file_category file_extension metadata
  let destination_folder := destination_root ++ [category]
  (.ok (get_unique_file_path fs destination_folder (pathName file_path)), [])

/-- `SmartOrganizer._has_rich_metadata`. -/
def smart_has_rich_metadata (organization_info : MetaDict) : Bool :=
  ["camera", "has_location", "artist", "album", "author", "creator"].any
    (fun f => truthy (dictGet organization_info f))

/-- `SmartOrganizer._select_strategy`; `organization_date` is the (always
truthy) result of `get_best_organization_date`, so the recency test always
runs on it. -/
def smart_select_strategy (env : Env)
    (file_extension : String) (organization_info : MetaDict)
    (organization_date : CivilDate) : String :=
  let days_old := daysBetween env.now organization_date
  let is_recent := days_old ≤ (30 : Int)
  if is_recent then "date_primary"
  else if MEDIA_EXTENSIONS.contains file_extension &&
          smart_has_rich_metadata organization_info then "date_type"
  else if DOCUMENT_EXTENSIONS.contains file_extension then "date_type"
  else "date_type"

/-- `SmartOrganizer._get_file_category`. -/
def smart_get_file_category (file_extension : String) : String :=
  (categoryLookup file_extension).getD "Other"

/-- `SmartOrganizer._validate_destination_path`: path validation of the
destination folder, raising on rejection. -/
def smart_validate_destination (fs : Fs) (destination_path : List String) :
    Except String (List String) × List Event :=
  let r := validate_and_sanitize_path fs (some (renderAbs destination_path))
  ( if r.isSome then .ok destination_path
    else .error ("Invalid destination path: " ++ renderAbs destination_path),
    [Event.validateEv (renderAbs destination_path) r.isSome] )

/-- `SmartOrganizer._organize_by_date_primary`. -/
def smart_organize_by_date_primary (fs : Fs)
    (file_path destination_root : List String) (organization_date : CivilDate) :
    Except String (List String) × List Event :=
  let destination_folder :=
    destination_root ++ [yearStr organization_date, monthStr organization_date]
  match smart_validate_destination fs destination_folder with
  | (.ok validated_path, evs) =>
      (.ok (get_unique_file_path fs validated_path (pathName file_path)), evs)
  | (.error e, evs) => (.error e, evs)

/-- `SmartOrganizer._organize_by_type_then_date`. -/
def smart_organize_by_type_then_date (fs : Fs)
    (file_path destination_root : List String) (organization_date : CivilDate) :
    Except String (List String) × List Event :=
  let file_category := smart_get_file_category (lowerStr (pathSuffix file_path))
  let destination_folder :=
    destination_root ++ [file_category, yearStr organization_date, monthStr organization_date]
  match smart_validate_destination fs destination_folder with
  | (.ok validated_path, evs) =>
      (.ok (get_unique_file_path fs validated_path (pathName file_path)), evs)
  | (.error e, evs) => (.error e, evs)

/-- `SmartOrganizer._organize_by_date_then_type`. -/
def smart_organize_by_date_then_type (fs : Fs)
    (file_path destination_root : List String) (organization_date : CivilDate) :
    Except String (List String) × List Event :=
  let file_category := smart_get_file_category (lowerStr (pathSuffix file_path))
  let destination_folder :=
    destination_root ++ [yearStr organization_date, monthStr organization_date, file_category]
  match smart_validate_destination fs destination_folder with
  | (.ok validated_path, evs) =>
      (.ok (get_unique_file_path fs validated_path (pathName file_path)), evs)
  | (.error e, evs) => (.error e, evs)

/-- `SmartOrganizer._organize_by_type_primary`. -/
def smart_organize_by_type_primary (fs : Fs)
    (file_path destination_root : List String) :
    Except String (List String) × List Event :=
  let file_category := smart_get_file_category (lowerStr (pathSuffix file_path))
  let destination_folder := destination_root ++ [file_category]
  match smart_validate_destination fs destination_folder with
  | (.ok validated_path, evs) =>
      (.ok (get_unique_file_path fs validated_path (pathName file_path)), evs)
  | (.error e, evs) => (.error e, evs)

/-- `SmartOrganizer.get_destination_path`: extension validation first
(raising before anything else is computed), then strategy selection and the
chosen placement. -/
def smart_get_destination_path (env : Env) (fs : Fs)
    (file_path destination_root : List String) :
    Except String (List String) × List Event :=
  let file_extension := lowerStr (pathSuffix file_path)
  if !(validate_file_extension file_extension) then
    (.error ("Invalid or dangerous file extension: " ++ file_extension), [])
  else
    let organization_date := get_best_organization_date env fs file_path
    match get_organization_info env fs file_path with
    | .error e => (.error e, [])
    | .ok organization_info =>
        let strategy :=
          smart_select_strategy env file_extension organization_info organization_date
        if strategy = "date_primary" then
          smart_organize_by_date_primary fs file_path destination_root organization_date
        else if strategy = "type_date" then
          smart_organize_by_type_then_date fs file_path destination_root organization_date
        else if strategy = "date_type" then
          smart_organize_by_date_then_type fs file_path destination_root organization_date
        else
          smart_organize_by_type_primary fs file_path destination_root

/-! ## file_operations/file_service.py -/

/-- `FileService.move_file`: sanitize both path strings (returning `False`
when either is rejected), ensure the destination's parent directory, then
perform the move; an OS-level failure of `shutil.move` (environment oracle,
or a vanished source) yields `False` after the directories were already
created. -/
def move_file (env : Env) (fs : Fs) (source_path destination_path : String) :
    Bool × Fs × List Event :=
  let safe_source := validate_and_sanitize_path fs (some source_path)
  let safe_destination := validate_and_sanitize_path fs (some destination_path)
  let evs := [Event.validateEv source_path safe_source.isSome,
              Event.validateEv destination_path safe_destination.isSome]
  match safe_source, safe_destination with
  | some ss, some sd =>
      let dstP := resolvePath fs.cwd sd
      let destination_dir := dstP.dropLast
      match ensure_directory_exists fs destination_dir with
      | (false, fs1) => (false, fs1, evs ++ [Event.mkdirEv destination_dir])
      | (true, fs1) =>
          let srcP := resolvePath fs.cwd ss
          if fs1.isFile srcP && env.moveOk srcP dstP then
            (true, fs1.move srcP dstP,
             evs ++ [Event.mkdirEv destination_dir, Event.moveEv srcP dstP])
          else (false, fs1, evs ++ [Event.mkdirEv destination_dir])
  | _, _ => (false, fs, evs)

/-! ## services/core/organization_service.py -/

/-- The strategy chosen by `_create_organizer` (unknown names fall back to
smart before this point). -/
inductive Strategy where
  | dateS
  | typeS
  | smartS
deriving DecidableEq, Repr

/-- `organizer.get_destination_path`, dispatched over the created
organizer. -/
def get_destination_path (env : Env) (strategy : Strategy) (fs : Fs)
    (file_path destination_root : List String) (metadata : MetaDict) :
    Except String (List String) × List Event :=
  match strategy with
  | .dateS => date_get_destination_path env fs file_path destination_root
  | .typeS => type_get_destination_path fs file_path destination_root metadata
  | .smartS => smart_get_destination_path env fs file_path destination_root

/-- `Path.iterdir`: the immediate children of a directory, in entry order. -/
def Fs.iterdir (fs : Fs) (p : List String) : List (List String × FsNode) :=
  fs.entries.filter (fun e => e.1.dropLast == p && !(e.1 == p))

/-- `OrganizationService.scan_directory`: the immediate children that are
regular files. -/
def scan_directory (fs : Fs) (source_path : List String) : List (List String) :=
  ((fs.iterdir source_path).filter
    (fun e => match e.2 with | .file _ _ _ => true | _ => false)).map (·.1)

/-- The per-file loop state of `organize_files_by_strategy`: the progress
tracker, the filesystem, and the trail of emitted events. -/
structure StepState where
  progress : OperationProgress
  fs : Fs
  events : List Event
deriving Repr

/-- One iteration of the per-file loop of `organize_files_by_strategy`
(lines 70–114): resolve a destination, create its parent directory, move;
any failure inside is caught at the per-file boundary and recorded as a
failed result with its message, and the loop continues. -/
def processOneFile (env : Env) (strategy : Strategy) (destination_dir : List String)
    (st : StepState) (file_path : List String) : StepState :=
  let st := { st with progress := { st.progress with current_file := some (pathName file_path) } }
  let fail := fun (e : String) (fs : Fs) (evs : List Event) =>
    let result : FileOperationResult :=
      { source_file := pathName file_path, operation := "organize",
        success := false, error_message := some e }
    { progress := add_result st.progress result, fs := fs,
      events := st.events ++ evs ++ [Event.publishEv "file_error" (pathName file_path)] }
  match extract_comprehensive_metadata env st.fs file_path with
  | .error e => fail e st.fs []
  | .ok metadata =>
      match get_destination_path env strategy st.fs file_path destination_dir metadata with
      | (.error e, evs) => fail e st.fs evs
      | (.ok destination_path, evs) =>
          let evs := evs ++ [Event.mkdirEv destination_path.dropLast]
          match ensure_directory_exists st.fs destination_path.dropLast with
          | (false, fs1) => fail "Failed to create directory" fs1 evs
          | (true, fs1) =>
              let (success, fs2, mevs) :=
                move_file env fs1 (renderAbs file_path) (renderAbs destination_path)
              if !success then fail "Failed to move file" fs2 (evs ++ mevs)
              else
                let file_size := if fs2.pathExists file_path then fs2.sizeOf file_path else 0
                let result : FileOperationResult :=
                  { source_file := pathName file_path, operation := "organize",
                    success := true, destination_path := some (pathName destination_path),
                    file_size := file_size,
                    original_source_path := some (renderAbs file_path),
                    organized_destination_path := some (renderAbs destination_path) }
                { progress := add_result st.progress result, fs := fs2,
                  events := st.events ++ evs ++ mevs ++
                    [Event.publishEv "organization_progress" (pathName file_path),
                     Event.publishEv "file_processed" (pathName file_path)] }

/-- `OrganizationService.organize_files_by_strategy`: scan the source
directory (a scan failure aborts the whole batch with an
`organization_failed` notification and no per-file processing), then run the
per-file pipeline over every discovered file and publish completion. -/
def organize_files_by_strategy (env : Env) (fs : Fs)
    (source_dir destination_dir : List String) (strategy : Strategy) :
    Option OperationProgress × Fs × List Event :=
  if !(fs.isDir source_dir) then
    (none, fs, [Event.publishEv "organization_failed" ""])
  else
    let files_to_organize := scan_directory fs source_dir
    let progress := mkProgress "organize" files_to_organize.length
    let st0 : StepState :=
      ⟨progress, fs, [Event.publishEv "organization_progress" ""]⟩
    let stF := files_to_organize.foldl (processOneFile env strategy destination_dir) st0
    (some stF.progress, stF.fs,
     stF.events ++ [Event.publishEv "organization_completed" ""])

/-! ## services/core/unorganize_service.py -/

/-- `UnorganizeService._scan_directory_recursive` (fuel-bounded recursion over
the tree; permission errors are outside the model). -/
def scanRec (fs : Fs) : Nat → List String → List (List String)
  | 0, _ => []
  | fuel + 1, path =>
      (fs.iterdir path).foldl
        (fun acc item =>
          match item.2 with
          | .file _ _ _ => acc ++ [item.1]
          | .dir => acc ++ scanRec fs fuel item.1)
        []

/-- Fuel that always suffices: one more than the longest entry path. -/
def Fs.depthBound (fs : Fs) : Nat :=
  fs.entries.foldl (fun a e => max a e.1.length) 0 + 1

/-- `UnorganizeService._scan_directory_recursive`. -/
def scan_directory_recursive (fs : Fs) (source_path : List String) : List (List String) :=
  scanRec fs fs.depthBound source_path

/-- The `f"{stem}_unorg_{counter}{suffix}"` of
`UnorganizeService._get_unique_destination_path`. -/
def unorgNumberedName (stem suffix : String) (counter : Nat) : String :=
  stem ++ "_unorg_" ++ natStr counter ++ suffix

/-- `UnorganizeService._get_unique_destination_path`. -/
def get_unique_destination_path (fs : Fs) (target_directory : List String)
    (filename : String) : List String :=
  let destination := target_directory ++ [filename]
  if !(fs.pathExists destination) then destination
  else
    let stem := (splitStemSuffix filename).1
    let suffix := (splitStemSuffix filename).2
    uniqueLoop (unorgNumberedName stem suffix) fs target_directory (fs.entries.length + 1) 1

/-- `UnorganizeService._process_file`. -/
def unorgProcessFile (env : Env) (target_directory : List String)
    (st : StepState) (file_path : List String) : StepState :=
  let st := { st with progress := { st.progress with current_file := some (pathName file_path) } }
  let destination_path := get_unique_destination_path st.fs target_directory (pathName file_path)
  let (success, fs2, mevs) :=
    move_file env st.fs (renderAbs file_path) (renderAbs destination_path)
  let file_size := if fs2.pathExists file_path then fs2.sizeOf file_path else 0
  let result : FileOperationResult :=
    { source_file := pathName file_path, operation := "unorganize",
      success := success, destination_path := some (pathName destination_path),
      file_size := file_size,
      error_message := if success then none else some "Failed to move file" }
  { progress := add_result st.progress result, fs := fs2,
    events := st.events ++ mevs ++
      [Event.publishEv "unorganize_progress" (pathName file_path)] }

/-- `UnorganizeService.unorganize_directory`. -/
def unorganize_directory (env : Env) (fs : Fs)
    (source_dir target_dir : List String) :
    Bool × Option OperationProgress × Fs × List Event :=
  if !(fs.pathExists source_dir) then
    (false, none, fs, [Event.publishEv "unorganize_failed" ""])
  else
    match ensure_directory_exists fs target_dir with
    | (false, fs1) => (false, none, fs1, [Event.publishEv "unorganize_failed" ""])
    | (true, fs1) =>
        let all_files := scan_directory_recursive fs1 source_dir
        if all_files.isEmpty then
          (true, none, fs1, [Event.publishEv "unorganize_completed" ""])
        else
          let progress := mkProgress "unorganize" all_files.length
          let st0 : StepState := ⟨progress, fs1, [Event.publishEv "unorganize_started" ""]⟩
          let stF := all_files.foldl (unorgProcessFile env target_dir) st0
          (true, some stF.progress, stF.fs,
           stF.events ++ [Event.publishEv "unorganize_completed" ""])

/-- The ProgressTracker counter invariant. -/
def progressInv (p : OperationProgress) : Prop :=
  p.processed_files = p.successful_files + p.failed_files

/-- The stronger run invariant tying the counters to the recorded results. -/
def runInv (p : OperationProgress) : Prop :=
  p.processed_files = p.results.length ∧
  p.failed_files = (p.results.filter (fun r => r.success = false)).length ∧
  p.successful_files = (p.results.filter (fun r => r.success = true)).length ∧
  ∀ r ∈ p.results, r.success = false → r.error_message.isSome

/-! ## Well-formedness checks and derived queries -/

/-- A path component a real directory listing can produce: nonempty, no
slash, no null byte, and not one of the special entries `.` / `..`. -/
def cleanCompB (s : String) : Bool :=
  !(s == "") && !(s == ".") && !(s == "..") &&
    s.data.all (fun c => !(c == '/') && !(c == Char.ofNat 0))

/-- All entry keys consist of clean components. -/
def Fs.cleanNamesB (fs : Fs) : Bool :=
  fs.entries.all (fun e => e.1.all cleanCompB)

/-- Every proper nonempty ancestor of an entry is (looked up as) a
directory. -/
def Fs.ancestorClosedB (fs : Fs) : Bool :=
  fs.entries.all (fun e =>
    (List.range e.1.length).all (fun n =>
      n == 0 || (fs.lookup (e.1.take n) == some FsNode.dir)))

/-- Entry keys are pairwise distinct (a decidable proposition). -/
def Fs.nodupKeys (fs : Fs) : Prop :=
  (fs.entries.map (·.1)).Nodup

instance (fs : Fs) : Decidable fs.nodupKeys := by
  unfold Fs.nodupKeys
  infer_instance

/-- The file entries lying strictly below a root. -/
def Fs.filesUnder (fs : Fs) (root : List String) : List (List String × FsNode) :=
  fs.entries.filter (fun e =>
    (match e.2 with | .file _ _ _ => true | _ => false) &&
      root.isPrefixOf e.1 && !(e.1 == root))

/-- Total byte count of a list of entries. -/
def totalSize (es : List (List String × FsNode)) : Nat :=
  (es.map (fun e => match e.2 with | .file s _ _ => s | .dir => 0)).sum

/-! ## The collision-resolution process (for the repeated-request scenario)

`N` files that would all resolve to the same `folder/name`: each request is
`get_unique_file_path`, followed by that file's move into the returned
path. -/

/-- `name`, or `stem_counter.suffix` for positive counters: the family of
candidates the collision loop walks. -/
def nameOfCounter (filename : String) (k : Nat) : String :=
  if k = 0 then filename
  else numberedName (splitStemSuffix filename).1 (splitStemSuffix filename).2 k

/-- Whether the candidate with the given counter is free. -/
def freeAt (fs : Fs) (folder : List String) (filename : String) (k : Nat) : Bool :=
  !(fs.pathExists (folder ++ [nameOfCounter filename k]))

/-- First free counter at or after `k`, fuel-bounded. -/
def leastFreeFrom (fs : Fs) (folder : List String) (filename : String) :
    Nat → Nat → Nat
  | 0, k => k
  | fuel + 1, k =>
      if freeAt fs folder filename k then k
      else leastFreeFrom fs folder filename fuel (k + 1)

/-- The counter `get_unique_file_path` ends up using (0 meaning the plain
name). -/
def leastFreeCounter (fs : Fs) (folder : List String) (filename : String) : Nat :=
  leastFreeFrom fs folder filename (fs.entries.length + 2) 0

/-- Record the effect of a move into the resolved path: the destination
comes to exist. -/
def Fs.insertFile (fs : Fs) (p : List String) : Fs :=
  { fs with entries := fs.entries ++ [(p, FsNode.file 0 0 ⟨2000, 1, 1⟩)] }

/-- One resolution step of the repeated-request scenario: the returned path,
its counter, and whether it existed on disk at the moment of resolution. -/
structure ResolveStep where
  path : List String
  counter : Nat
  existedAtResolution : Bool
deriving DecidableEq, Repr

/-- `n` rounds of resolve-then-move against the same `folder/name`. -/
def collisionRun (folder : List String) (filename : String) :
    Nat → Fs → List ResolveStep
  | 0, _ => []
  | n + 1, fs =>
      let p := get_unique_file_path fs folder filename
      { path := p, counter := leastFreeCounter fs folder filename,
        existedAtResolution := fs.pathExists p } ::
        collisionRun folder filename n (fs.insertFile p)

/-- Trace property: every directory-creation call in the event trail was
preceded by a successful sanitization of (the rendered form of) the path it
mutates. -/
def mkdirValidated (evs : List Event) : Prop :=
  ∀ i p, evs.get? i = some (Event.mkdirEv p) →
    ∃ j, j < i ∧ evs.get? j = some (Event.validateEv (renderAbs p) true)

/-! ## Concrete scenarios -/

/-- A benign filesystem: `/data/src` holds `a.jpg` (recent), `b.pdf`
(90 days old at the scenario clock) and `c.exe`; `/data/dst` is an empty
destination tree. -/
def scenFs : Fs :=
  ⟨["w"], [],
    [(["data"], .dir), (["data", "src"], .dir), (["data", "dst"], .dir),
     (["data", "src", "a.jpg"], .file 10 1 ⟨2025, 10, 5⟩),
     (["data", "src", "b.pdf"], .file 20 2 ⟨2025, 7, 14⟩),
     (["data", "src", "c.exe"], .file 30 3 ⟨2025, 1, 1⟩)]⟩

/-- The scenario environment: clock 2025-10-12, extractor dates for the two
media/document files, no extraction failures, moves succeed at OS level. -/
def scenEnv : Env :=
  { now := ⟨2025, 10, 12⟩,
    extractorFields := fun _ => [],
    extractorDate := fun p =>
      if p == ["data", "src", "a.jpg"] then some ⟨2025, 10, 5⟩
      else if p == ["data", "src", "b.pdf"] then some ⟨2025, 7, 14⟩
      else none,
    extractRaises := fun _ => none,
    moveOk := fun _ _ => true }

/-- A clock sitting just past a month boundary, with `a.jpg`'s organization
date 6 days earlier but in the previous month. -/
def boundaryEnv : Env :=
  { scenEnv with
    now := ⟨2025, 11, 3⟩,
    extractorDate := fun p =>
      if p == ["data", "src", "a.jpg"] then some ⟨2025, 10, 28⟩
      else if p == ["data", "src", "b.pdf"] then some ⟨2025, 8, 5⟩ else none }

/-- An environment whose metadata extraction raises for `b.pdf`. -/
def raisingEnv : Env :=
  { scenEnv with
    extractRaises := fun p =>
      if p == ["data", "src", "b.pdf"] then some "metadata extractor crashed" else none }

/-- A source holding only the dangerous-extension file, for the round-trip
counterexample. -/
def exeOnlyFs : Fs :=
  ⟨["w"], [],
    [(["data"], .dir), (["data", "src"], .dir), (["data", "dst"], .dir),
     (["data", "flat"], .dir),
     (["data", "src", "c.exe"], .file 30 3 ⟨2025, 1, 1⟩)]⟩

/-! ## Supporting lemmas -/

theorem charsVal_append (xs ys : List Char) :
    charsVal (xs ++ ys) = ys.foldl (fun a c => 10 * a + digitVal c) (charsVal xs) := by
  simp [charsVal, List.foldl_append]

theorem digitVal_digitChar {d : Nat} (h : d < 10) : digitVal (digitChar d) = d := by
  interval_cases d <;> rfl

theorem charsVal_natCharsFuel {fuel n : Nat} (h : n ≤ fuel) :
    charsVal (natCharsFuel fuel n) = n := by
  induction fuel generalizing n with
  | zero =>
      interval_cases n
      rfl
  | succ f ih =>
      by_cases hn : n < 10
      · simp [natCharsFuel, hn, charsVal, digitVal_digitChar hn]
      · have hdiv : n / 10 ≤ f := by
          have h1 : n / 10 < n := Nat.div_lt_self (by omega) (by omega)
          omega
        have hmod : n % 10 < 10 := Nat.mod_lt _ (by omega)
        simp only [natCharsFuel, hn, if_false]
        rw [charsVal_append, ih hdiv]
        simp [charsVal, digitVal_digitChar hmod]
        omega

theorem charsVal_natChars (n : Nat) : charsVal (natChars n) = n :=
  charsVal_natCharsFuel (Nat.le_refl n)

theorem natChars_injective : Function.Injective natChars := by
  intro a b h
  have := charsVal_natChars a
  rw [h, charsVal_natChars] at this
  omega

theorem natStr_injective : Function.Injective natStr := by
  intro a b h
  exact natChars_injective (congrArg String.data h)

theorem add_result_fields (p : OperationProgress) (r : FileOperationResult) :
    (add_result p r).processed_files = p.processed_files + 1 ∧
    (add_result p r).successful_files =
      (if r.success then p.successful_files + 1 else p.successful_files) ∧
    (add_result p r).failed_files =
      (if r.success then p.failed_files else p.failed_files + 1) ∧
    (add_result p r).results = p.results ++ [r] ∧
    (add_result p r).total_files = p.total_files := by
  simp [add_result]

theorem progressInv_add_result {p : OperationProgress} (r : FileOperationResult)
    (h : progressInv p) : progressInv (add_result p r) := by
  obtain ⟨h1, h2, h3, -, -⟩ := add_result_fields p r
  unfold progressInv at h ⊢
  rw [h1, h2, h3]
  by_cases hr : r.success <;> simp [hr] <;> omega

theorem progressInv_foldl {p : OperationProgress} (h : progressInv p)
    (rs : List FileOperationResult) : progressInv (rs.foldl add_result p) := by
  induction rs generalizing p with
  | nil => exact h
  | cons r rs ih => exact ih (progressInv_add_result r h)

theorem progressInv_mkProgress (oid : String) (total : Nat) :
    progressInv (mkProgress oid total) := by
  simp [progressInv, mkProgress]

theorem runInv_add_result {p : OperationProgress} {r : FileOperationResult}
    (h : runInv p) (hmsg : r.success = false → r.error_message.isSome) :
    runInv (add_result p r) := by
  obtain ⟨h1, h2, h3, h4⟩ := h
  obtain ⟨g1, g2, g3, g4, -⟩ := add_result_fields p r
  refine ⟨?_, ?_, ?_, ?_⟩
  · rw [g1, g4, h1, List.length_append, List.length_singleton]
  · rw [g3, g4, h2, List.filter_append]
    by_cases hr : r.success <;> simp [hr]
  · rw [g2, g4, h3, List.filter_append]
    by_cases hr : r.success <;> simp [hr]
  · intro s hs hfail
    rw [g4] at hs
    rcases List.mem_append.mp hs with hs | hs
    · exact h4 s hs hfail
    · rcases List.mem_singleton.mp hs with rfl
      exact hmsg hfail

theorem runInv_mkProgress (oid : String) (total : Nat) :
    runInv (mkProgress oid total) := by
  refine ⟨rfl, rfl, rfl, ?_⟩
  intro r hr
  simp [mkProgress] at hr

theorem stripNulls_idem (s : String) : stripNulls (stripNulls s) = stripNulls s := by
  simp [stripNulls, List.filter_filter]

theorem no_dotdot_foldl (segs : List String) (acc : List String) (h : ".." ∉ acc) :
    ".." ∉ (segs.foldl
      (fun acc s =>
        if s = "" || s = "." then acc
        else if s = ".." then acc.dropLast
        else acc ++ [s]) acc) := by
  induction segs generalizing acc with
  | nil => exact h
  | cons x xs ih =>
      simp only [List.foldl_cons]
      by_cases hx1 : x = ""
      · simpa [hx1] using ih acc h
      · by_cases hx2 : x = "."
        · simpa [hx1, hx2] using ih acc h
        · by_cases hx3 : x = ".."
          · have hd : ".." ∉ acc.dropLast := fun hm =>
              h ((List.dropLast_sublist acc).subset hm)
            simpa [hx1, hx2, hx3] using ih acc.dropLast hd
          · have hd : ".." ∉ acc ++ [x] := by
              intro hm
              rcases List.mem_append.mp hm with hm | hm
              · exact h hm
              · exact hx3 (List.mem_singleton.mp hm).symm
            simpa [hx1, hx2, hx3] using ih (acc ++ [x]) hd

theorem normalizeSegs_no_dotdot (segs : List String) : ".." ∉ normalizeSegs segs :=
  no_dotdot_foldl segs [] (by simp)

theorem resolvePath_no_dotdot (cwd : List String) (s : String) :
    ".." ∉ resolvePath cwd s := by
  unfold resolvePath
  match h : s.data with
  | '/' :: _ => exact normalizeSegs_no_dotdot _
  | [] => exact normalizeSegs_no_dotdot _
  | c :: cs =>
      simp only
      split <;> exact normalizeSegs_no_dotdot _

theorem validate_none_of_not_safe {fs : Fs} {s : String} (hs : ¬s = "")
    (h : is_safe_path fs (renderAbs (resolvePath fs.cwd (stripNulls s))) = false) :
    validate_and_sanitize_path fs (some s) = none := by
  simp only [validate_and_sanitize_path, if_neg hs]
  split_ifs with h1 h2 h3
  · rfl
  · rfl
  · rfl
  · exfalso
    rw [h] at h3
    simp at h3

theorem is_safe_path_false_of_danger {fs : Fs} {abs_path : String}
    (h : dangerous_paths.any (fun danger =>
      strStartsWith (lowerStr abs_path) (lowerStr danger)) = true) :
    is_safe_path fs abs_path = false := by
  simp only [is_safe_path]
  rw [if_pos h]

/-! ## Claim theorems -/

/-- C4: a fresh `OperationProgress` starts with all three counters at zero;
every `add_result` call increments `processed_files` by exactly one and
exactly one of `successful_files` / `failed_files`; and after every prefix of
any sequence of `add_result` calls the equation
`processed_files = successful_files + failed_files` holds. -/
theorem C4_progress_counters :
    (∀ oid total, (mkProgress oid total).processed_files = 0 ∧
        (mkProgress oid total).successful_files = 0 ∧
        (mkProgress oid total).failed_files = 0) ∧
    (∀ p r, (add_result p r).processed_files = p.processed_files + 1 ∧
        (r.success = true → (add_result p r).successful_files = p.successful_files + 1 ∧
            (add_result p r).failed_files = p.failed_files) ∧
        (r.success = false → (add_result p r).failed_files = p.failed_files + 1 ∧
            (add_result p r).successful_files = p.successful_files)) ∧
    (∀ oid total (rs : List FileOperationResult) (k : Nat),
        progressInv ((rs.take k).foldl add_result (mkProgress oid total))) := by
  refine ⟨fun oid total => ⟨rfl, rfl, rfl⟩, fun p r => ?_,
    fun oid total rs k => progressInv_foldl (progressInv_mkProgress _ _) _⟩
  obtain ⟨h1, h2, h3, -, -⟩ := add_result_fields p r
  refine ⟨h1, fun hs => ?_, fun hs => ?_⟩ <;> rw [h2, h3] <;> simp [hs]

/-- C4 witness: the theorem applied to two concrete `add_result` calls. -/
theorem C4_progress_counters_witness :
    (add_result (mkProgress "op" 2)
        { source_file := "a.txt", operation := "organize", success := true }).successful_files =
      (mkProgress "op" 2).successful_files + 1 ∧
    (add_result (mkProgress "op" 2)
        { source_file := "b.txt", operation := "organize", success := false }).failed_files =
      (mkProgress "op" 2).failed_files + 1 :=
  ⟨((C4_progress_counters.2.1 (mkProgress "op" 2) _).2.1 rfl).1,
   ((C4_progress_counters.2.1 (mkProgress "op" 2) _).2.2 rfl).1⟩

/-- C3 counterexample: an input whose raw segments contain `..` is resolved
(and accepted), and an input with an embedded null byte has the byte
stripped (and is accepted) — neither is rejected with `None` as the claim
requires. -/
theorem C3_counterexample :
    ((".." ∈ (splitSlash "/data/src/x/../b.pdf".data).map (fun cs => String.mk cs)) ∧
      validate_and_sanitize_path scenFs (some "/data/src/x/../b.pdf") =
        some "/data/src/b.pdf") ∧
    ((Char.ofNat 0 ∈ "/data/src/b.p\x00df".data) ∧
      validate_and_sanitize_path scenFs (some "/data/src/b.p\x00df") =
        some "/data/src/b.pdf") := by
  decide

/-- C3 amended: `validate_and_sanitize_path` rejects (with `None`) every
input that, after null-byte stripping and `..` resolution, lands under the
system-directory denylist; inputs containing null bytes are validated as if
the bytes were absent (stripping, not rejection); and any accepted result is
the rendered resolved path, which contains no `..` segment (resolution, not
rejection). -/
theorem C3_sanitize_amended :
    (∀ fs : Fs, ∀ s : String, s ≠ "" →
        dangerous_paths.any (fun danger =>
          strStartsWith (lowerStr (renderAbs (resolvePath fs.cwd (stripNulls s))))
            (lowerStr danger)) = true →
        validate_and_sanitize_path fs (some s) = none) ∧
    (∀ fs : Fs, ∀ s : String, s ≠ "" → stripNulls s ≠ "" →
        validate_and_sanitize_path fs (some s) =
          validate_and_sanitize_path fs (some (stripNulls s))) ∧
    (∀ fs : Fs, ∀ s r : String, s ≠ "" →
        validate_and_sanitize_path fs (some s) = some r →
        r = renderAbs (resolvePath fs.cwd (stripNulls s)) ∧
        ".." ∉ resolvePath fs.cwd (stripNulls s)) := by
  refine ⟨?_, ?_, ?_⟩
  · intro fs s hs hdanger
    exact validate_none_of_not_safe hs (is_safe_path_false_of_danger hdanger)
  · intro fs s hs hss
    simp only [validate_and_sanitize_path, if_neg hs, if_neg hss, stripNulls_idem]
  · intro fs s r hs h
    simp only [validate_and_sanitize_path, if_neg hs] at h
    split_ifs at h with h1 h2 h3
    exact ⟨(Option.some.injEq _ _ ▸ h).symm, resolvePath_no_dotdot _ _⟩

/-- C3 amended witness: the three parts at concrete inputs. -/
theorem C3_sanitize_amended_witness :
    validate_and_sanitize_path scenFs (some "/etc/passwd") = none ∧
    validate_and_sanitize_path scenFs (some "/data/sr\x00c/b.pdf") =
      validate_and_sanitize_path scenFs (some "/data/src/b.pdf") ∧
    ("/data/src/b.pdf" = renderAbs (resolvePath scenFs.cwd (stripNulls "/data/src/x/../b.pdf")) ∧
      ".." ∉ resolvePath scenFs.cwd (stripNulls "/data/src/x/../b.pdf")) :=
  ⟨C3_sanitize_amended.1 scenFs "/etc/passwd" (by decide) (by decide),
   C3_sanitize_amended.2.1 scenFs "/data/sr\x00c/b.pdf" (by decide) (by decide),
   C3_sanitize_amended.2.2 scenFs "/data/src/x/../b.pdf" "/data/src/b.pdf"
     (by decide) (by decide)⟩

/-- C1 counterexample: for the dangerous-extension file `c.exe` (whose
extension `validate_file_extension` rejects), both `DateOrganizer` and
`TypeOrganizer` return a destination path from `get_destination_path`
without raising any security error. -/
theorem C1_counterexample :
    validate_file_extension (lowerStr (pathSuffix ["data", "src", "c.exe"])) = false ∧
    (date_get_destination_path scenEnv scenFs ["data", "src", "c.exe"] ["data", "dst"]).1 =
      .ok ["data", "dst", "2025", "01", "c.exe"] ∧
    (type_get_destination_path scenFs ["data", "src", "c.exe"] ["data", "dst"] []).1 =
      .ok ["data", "dst", "Executables", "c.exe"] :=
  ⟨by decide, rfl, rfl⟩

/-- C1 amended: only `SmartOrganizer.get_destination_path` validates the file
extension; for every file whose extension the validator rejects it raises the
security error first, before any destination computation, path validation or
filesystem access (the returned event trail is empty).  `DateOrganizer` and
`TypeOrganizer` perform no extension validation (the counterexample). -/
theorem C1_smart_rejects_dangerous_extension (env : Env) (fs : Fs)
    (file_path destination_root : List String)
    (h : validate_file_extension (lowerStr (pathSuffix file_path)) = false) :
    smart_get_destination_path env fs file_path destination_root =
      (.error ("Invalid or dangerous file extension: " ++ lowerStr (pathSuffix file_path)),
       []) := by
  simp [smart_get_destination_path, h]

/-- C1 witness: the smart resolver rejecting `c.exe`. -/
theorem C1_smart_rejects_dangerous_extension_witness :
    smart_get_destination_path scenEnv scenFs ["data", "src", "c.exe"] ["data", "dst"] =
      (.error ("Invalid or dangerous file extension: " ++
        lowerStr (pathSuffix ["data", "src", "c.exe"])), []) :=
  C1_smart_rejects_dangerous_extension scenEnv scenFs _ _ (by decide)

/-- C5 counterexample: under the Smart strategy a file whose organization
date is 6 days old (well within 10 days) but in the previous month resolves
to the folder of its organization date, not to
`<root>/<current-year>/<current-month>` as the claim states. -/
theorem C5_counterexample :
    daysBetween boundaryEnv.now ⟨2025, 10, 28⟩ = 6 ∧
    (smart_get_destination_path boundaryEnv scenFs
        ["data", "src", "a.jpg"] ["data", "dst"]).1 =
      .ok ["data", "dst", "2025", "10", "a.jpg"] ∧
    ["data", "dst", "2025", "10", "a.jpg"] ≠
      ["data", "dst", yearStr boundaryEnv.now, monthStr boundaryEnv.now, "a.jpg"] :=
  ⟨by decide, rfl, by decide⟩

/-- C5 amended: in the three-file Smart scenario, `a.jpg` (organization date
7 days old) resolves date-primary to the year/month folder of its own
organization date (which coincides with the current year/month exactly when
that date falls in the current month); `b.pdf` (90 days old) resolves
date-then-type to `<root>/<b-year>/<b-month>/Documents/b.pdf`; and `c.exe`
is rejected at extension validation, recorded as a failed result with the
security error message, and never moved (it remains at its source). -/
theorem C5_smart_scenario :
    daysBetween scenEnv.now ⟨2025, 10, 5⟩ = 7 ∧
    (smart_get_destination_path scenEnv scenFs
        ["data", "src", "a.jpg"] ["data", "dst"]).1 =
      .ok ["data", "dst", yearStr ⟨2025, 10, 5⟩, monthStr ⟨2025, 10, 5⟩, "a.jpg"] ∧
    daysBetween scenEnv.now ⟨2025, 7, 14⟩ = 90 ∧
    (smart_get_destination_path scenEnv scenFs
        ["data", "src", "b.pdf"] ["data", "dst"]).1 =
      .ok ["data", "dst", yearStr ⟨2025, 7, 14⟩, monthStr ⟨2025, 7, 14⟩, "Documents", "b.pdf"] ∧
    (smart_get_destination_path scenEnv scenFs
        ["data", "src", "c.exe"] ["data", "dst"]) =
      (.error "Invalid or dangerous file extension: .exe", []) ∧
    ((organize_files_by_strategy scenEnv scenFs
        ["data", "src"] ["data", "dst"] .smartS).1.map
      (fun p => p.results.any (fun r => r.source_file == "c.exe" && !r.success &&
        r.error_message == some "Invalid or dangerous file extension: .exe"))) = some true ∧
    ((organize_files_by_strategy scenEnv scenFs
        ["data", "src"] ["data", "dst"] .smartS).2.2.all
      (fun e => match e with
        | .moveEv s _ => !(s == ["data", "src", "c.exe"])
        | _ => true)) = true ∧
    (organize_files_by_strategy scenEnv scenFs
        ["data", "src"] ["data", "dst"] .smartS).2.1.isFile ["data", "src", "c.exe"] = true :=
  ⟨by decide, rfl, by decide, rfl, rfl, by decide, by decide, by decide⟩

/-- C8 counterexample: in the batch pipeline of
`OrganizationService.organize_files_by_strategy`, a file whose metadata
extraction raises is recorded as a failed `OperationResult` carrying the
extractor's message — the metadata failure does fail the file there. -/
theorem C8_counterexample :
    raisingEnv.extractRaises ["data", "src", "b.pdf"] = some "metadata extractor crashed" ∧
    ((organize_files_by_strategy raisingEnv scenFs
        ["data", "src"] ["data", "dst"] .smartS).1.map
      (fun p => p.results.any (fun r => r.source_file == "b.pdf" && !r.success &&
        r.error_message == some "metadata extractor crashed"))) = some true :=
  ⟨rfl, by decide⟩

/-- C8 amended: the fallback behavior lives in
`BaseOrganizer._extract_metadata_safely`, which on extraction failure
publishes a `metadata_extraction_failed` notification and substitutes the
basic dict `{type: unknown, creation_date: None, modification_date: mtime}`
(three keys, not only the modification time); but in the
`OrganizationService` batch pipeline the extractor is called directly inside
the per-file try block, so a raising extractor is caught at the per-file
boundary and recorded as a failed `OperationResult` with its message, the
filesystem untouched for that file. -/
theorem C8_metadata_failure_paths (env : Env) (fs : Fs) (file_path : List String)
    (e : String) (m : CivilDate) (strategy : Strategy)
    (destination_dir : List String) (st : StepState)
    (hraise : env.extractRaises file_path = some e)
    (hmt : fs.mtimeOf file_path = some m) :
    extract_metadata_safely env fs file_path =
      (.ok [("type", .str "unknown"), ("creation_date", .noneV),
            ("modification_date", .date m)],
       [Event.publishEv "metadata_extraction_failed" (pathName file_path)]) ∧
    (env.extractRaises file_path = some e →
      processOneFile env strategy destination_dir st file_path =
        { progress := add_result
            { st.progress with current_file := some (pathName file_path) }
            { source_file := pathName file_path, operation := "organize",
              success := false, error_message := some e },
          fs := st.fs,
          events := st.events ++ [Event.publishEv "file_error" (pathName file_path)] }) := by
  constructor
  · simp [extract_metadata_safely, extract_comprehensive_metadata, hraise, hmt]
  · intro h
    simp [processOneFile, extract_comprehensive_metadata, h]

/-- C8 witness: both parts at the concrete raising environment. -/
theorem C8_metadata_failure_paths_witness :
    extract_metadata_safely raisingEnv scenFs ["data", "src", "b.pdf"] =
      (.ok [("type", .str "unknown"), ("creation_date", .noneV),
            ("modification_date", .date ⟨2025, 7, 14⟩)],
       [Event.publishEv "metadata_extraction_failed" "b.pdf"]) ∧
    processOneFile raisingEnv .smartS ["data", "dst"]
        ⟨mkProgress "organize" 3, scenFs, []⟩ ["data", "src", "b.pdf"] =
      { progress := add_result
          { mkProgress "organize" 3 with current_file := some "b.pdf" }
          { source_file := "b.pdf", operation := "organize",
            success := false, error_message := some "metadata extractor crashed" },
        fs := scenFs,
        events := [Event.publishEv "file_error" "b.pdf"] } := by
  have h := C8_metadata_failure_paths raisingEnv scenFs ["data", "src", "b.pdf"]
    "metadata extractor crashed" ⟨2025, 7, 14⟩ .smartS ["data", "dst"]
    ⟨mkProgress "organize" 3, scenFs, []⟩ rfl rfl
  exact ⟨h.1, h.2 rfl⟩

theorem numberedName_inj (stem suffix : String) {k1 k2 : Nat}
    (h : numberedName stem suffix k1 = numberedName stem suffix k2) : k1 = k2 := by
  have hd := congrArg String.data h
  simp only [numberedName, String.data_append, List.append_assoc] at hd
  have h1 := List.append_cancel_left hd
  have h2 := List.append_cancel_left h1
  have h3 := List.append_cancel_right h2
  exact natChars_injective h3

theorem nameOfCounter_pos (filename : String) {k : Nat} (hk : k ≠ 0) :
    nameOfCounter filename k =
      numberedName (splitStemSuffix filename).1 (splitStemSuffix filename).2 k := by
  simp [nameOfCounter, hk]

theorem Fs.lookup_isSome_iff (fs : Fs) (p : List String) :
    (fs.lookup p).isSome = true ↔ ∃ e ∈ fs.entries, e.1 = p := by
  simp only [Fs.lookup, Option.isSome_map']
  rw [List.find?_isSome]
  constructor
  · rintro ⟨e, he, hp⟩
    exact ⟨e, he, by simpa using hp⟩
  · rintro ⟨e, he, hp⟩
    exact ⟨e, he, by simpa using hp⟩

theorem mem_keys_of_pathExists {fs : Fs} {p : List String} (hne : p ≠ [])
    (h : fs.pathExists p = true) : p ∈ fs.entries.map (·.1) := by
  have hb : (p == ([] : List String)) = false := by
    simpa using hne
  simp only [Fs.pathExists, hb, Bool.false_or] at h
  rw [Fs.lookup_isSome_iff] at h
  obtain ⟨e, he, hpe⟩ := h
  exact hpe ▸ List.mem_map_of_mem _ he

theorem pathExists_insertFile_mono {fs : Fs} {q : List String} (p : List String)
    (h : fs.pathExists q = true) : (fs.insertFile p).pathExists q = true := by
  by_cases hq : q = []
  · simp [Fs.pathExists, hq]
  · have hb : (q == ([] : List String)) = false := by simpa using hq
    simp only [Fs.pathExists, hb, Bool.false_or] at h ⊢
    rw [Fs.lookup_isSome_iff] at h ⊢
    obtain ⟨e, he, hpe⟩ := h
    exact ⟨e, by simp [Fs.insertFile, he], hpe⟩

theorem pathExists_insertFile_self (fs : Fs) (p : List String) :
    (fs.insertFile p).pathExists p = true := by
  by_cases hp : p = []
  · simp [Fs.pathExists, hp]
  · have hb : (p == ([] : List String)) = false := by simpa using hp
    simp only [Fs.pathExists, hb, Bool.false_or]
    rw [Fs.lookup_isSome_iff]
    exact ⟨(p, FsNode.file 0 0 ⟨2000, 1, 1⟩), by simp [Fs.insertFile], rfl⟩

theorem freeAt_of_insertFile {fs : Fs} {folder : List String} {filename : String}
    {p : List String} {k : Nat}
    (h : freeAt (fs.insertFile p) folder filename k = true) :
    freeAt fs folder filename k = true := by
  simp only [freeAt, Bool.not_eq_true'] at h ⊢
  by_contra hc
  have : fs.pathExists (folder ++ [nameOfCounter filename k]) = true := by
    cases hx : fs.pathExists (folder ++ [nameOfCounter filename k])
    · exact absurd hx hc
    · rfl
  rw [pathExists_insertFile_mono p this] at h
  cases h

theorem exists_free_le (fs : Fs) (folder : List String) (filename : String) :
    ∃ k, k ≤ fs.entries.length + 1 ∧ freeAt fs folder filename k = true := by
  by_contra hc
  push_neg at hc
  have hocc : ∀ j, j < fs.entries.length + 1 →
      fs.pathExists (folder ++ [nameOfCounter filename (j + 1)]) = true := by
    intro j hj
    have h := hc (j + 1) (by omega)
    simp only [freeAt, Bool.not_eq_true] at h
    simpa using h
  set f : Nat → List String := fun j => folder ++ [nameOfCounter filename (j + 1)] with hf
  have hinj : Function.Injective f := by
    intro j1 j2 h
    have h1 := List.append_cancel_left h
    have h2 : nameOfCounter filename (j1 + 1) = nameOfCounter filename (j2 + 1) := by
      simpa using h1
    rw [nameOfCounter_pos filename (Nat.succ_ne_zero j1),
        nameOfCounter_pos filename (Nat.succ_ne_zero j2)] at h2
    have := numberedName_inj _ _ h2
    omega
  have hsub : (Finset.range (fs.entries.length + 1)).image f ⊆
      (fs.entries.map (·.1)).toFinset := by
    intro x hx
    rw [Finset.mem_image] at hx
    obtain ⟨j, hj, rfl⟩ := hx
    rw [Finset.mem_range] at hj
    rw [List.mem_toFinset]
    exact mem_keys_of_pathExists (by simp [hf]) (hocc j hj)
  have hcard := Finset.card_le_card hsub
  rw [Finset.card_image_of_injective _ hinj, Finset.card_range] at hcard
  have := List.toFinset_card_le (fs.entries.map (·.1))
  rw [List.length_map] at this
  omega

theorem leastFreeFrom_spec (fs : Fs) (folder : List String) (filename : String) :
    ∀ fuel k, (∃ j, k ≤ j ∧ j ≤ k + fuel ∧ freeAt fs folder filename j = true) →
      freeAt fs folder filename (leastFreeFrom fs folder filename fuel k) = true ∧
      k ≤ leastFreeFrom fs folder filename fuel k ∧
      ∀ j, k ≤ j → j < leastFreeFrom fs folder filename fuel k →
        freeAt fs folder filename j = false := by
  intro fuel
  induction fuel with
  | zero =>
      rintro k ⟨j, hj1, hj2, hj3⟩
      have hjk : j = k := by omega
      subst hjk
      exact ⟨hj3, Nat.le_refl _, fun i h1 h2 => by simp [leastFreeFrom] at h2; omega⟩
  | succ f ih =>
      rintro k ⟨j, hj1, hj2, hj3⟩
      by_cases hk : freeAt fs folder filename k = true
      · refine ⟨by simp [leastFreeFrom, hk], by simp [leastFreeFrom, hk], ?_⟩
        intro i h1 h2
        simp [leastFreeFrom, hk] at h2
        omega
      · have hkf : freeAt fs folder filename k = false := by
          cases hx : freeAt fs folder filename k
          · rfl
          · exact absurd hx hk
        have hj1' : k + 1 ≤ j := by
          rcases Nat.eq_or_lt_of_le hj1 with h | h
          · exact absurd (h ▸ hj3) hk
          · omega
        have hrec := ih (k + 1) ⟨j, hj1', by omega, hj3⟩
        have hred : leastFreeFrom fs folder filename (f + 1) k =
            leastFreeFrom fs folder filename f (k + 1) := by
          simp [leastFreeFrom, hkf]
        rw [hred]
        refine ⟨hrec.1, by omega, ?_⟩
        intro i h1 h2
        rcases Nat.eq_or_lt_of_le h1 with h | h
        · exact h ▸ hkf
        · exact hrec.2.2 i (by omega) h2

theorem leastFreeCounter_spec (fs : Fs) (folder : List String) (filename : String) :
    freeAt fs folder filename (leastFreeCounter fs folder filename) = true ∧
    ∀ j, j < leastFreeCounter fs folder filename →
      freeAt fs folder filename j = false := by
  obtain ⟨k, hk1, hk2⟩ := exists_free_le fs folder filename
  have h := leastFreeFrom_spec fs folder filename (fs.entries.length + 2) 0
    ⟨k, Nat.zero_le _, by omega, hk2⟩
  exact ⟨h.1, fun j hj => h.2.2 j (Nat.zero_le _) hj⟩

theorem leastFreeCounter_le_free {fs : Fs} {folder : List String} {filename : String}
    {k : Nat} (hk : freeAt fs folder filename k = true) :
    leastFreeCounter fs folder filename ≤ k := by
  by_contra h
  push_neg at h
  have := (leastFreeCounter_spec fs folder filename).2 k h
  rw [hk] at this
  cases this

theorem leastFreeCounter_le_bound (fs : Fs) (folder : List String) (filename : String) :
    leastFreeCounter fs folder filename ≤ fs.entries.length + 1 := by
  obtain ⟨k, hk1, hk2⟩ := exists_free_le fs folder filename
  exact Nat.le_trans (leastFreeCounter_le_free hk2) hk1

theorem uniqueLoop_eq (mk : Nat → String) (fs : Fs) (folder : List String) :
    ∀ fuel k m, k ≤ m → m ≤ k + fuel →
      (∀ j, k ≤ j → j < m → fs.pathExists (folder ++ [mk j]) = true) →
      fs.pathExists (folder ++ [mk m]) = false →
      uniqueLoop mk fs folder fuel k = folder ++ [mk m] := by
  intro fuel
  induction fuel with
  | zero =>
      intro k m h1 h2 hocc hfree
      have : m = k := by omega
      subst this
      rfl
  | succ f ih =>
      intro k m h1 h2 hocc hfree
      by_cases hk : fs.pathExists (folder ++ [mk k]) = true
      · have hkm : k < m := by
          rcases Nat.eq_or_lt_of_le h1 with h | h
          · rw [h] at hk; rw [hfree] at hk; cases hk
          · exact h
        have : uniqueLoop mk fs folder (f + 1) k = uniqueLoop mk fs folder f (k + 1) := by
          simp [uniqueLoop, hk]
        rw [this]
        exact ih (k + 1) m hkm (by omega) (fun j hj1 hj2 => hocc j (by omega) hj2) hfree
      · have hkm : m = k := by
          rcases Nat.eq_or_lt_of_le h1 with h | h
          · omega
          · exact absurd (hocc k (Nat.le_refl _) h) hk
        subst hkm
        have hkf : fs.pathExists (folder ++ [mk m]) = false := hfree
        simp [uniqueLoop, hkf]

theorem get_unique_eq_nameOfCounter (fs : Fs) (folder : List String) (filename : String) :
    get_unique_file_path fs folder filename =
      folder ++ [nameOfCounter filename (leastFreeCounter fs folder filename)] := by
  obtain ⟨hfree, hmin⟩ := leastFreeCounter_spec fs folder filename
  by_cases hb : fs.pathExists (folder ++ [filename]) = true
  · have h0 : freeAt fs folder filename 0 = false := by
      simp [freeAt, nameOfCounter, hb]
    have hpos : leastFreeCounter fs folder filename ≠ 0 := by
      intro h
      rw [h] at hfree
      rw [hfree] at h0
      cases h0
    have hloop : get_unique_file_path fs folder filename =
        uniqueLoop (numberedName (splitStemSuffix filename).1 (splitStemSuffix filename).2)
          fs folder (fs.entries.length + 1) 1 := by
      simp [get_unique_file_path, hb]
    rw [hloop, nameOfCounter_pos filename hpos]
    apply uniqueLoop_eq
    · omega
    · have := leastFreeCounter_le_bound fs folder filename
      omega
    · intro j hj1 hj2
      have := hmin j hj2
      rw [← nameOfCounter_pos filename (by omega : j ≠ 0)]
      simp only [freeAt, Bool.not_eq_true'] at this
      simpa using this
    · rw [← nameOfCounter_pos filename hpos]
      simpa [freeAt] using hfree
  · have hbf : fs.pathExists (folder ++ [filename]) = false := by
      cases hx : fs.pathExists (folder ++ [filename])
      · rfl
      · exact absurd hx hb
    have h0 : freeAt fs folder filename 0 = true := by
      simp [freeAt, nameOfCounter, hbf]
    have hz : leastFreeCounter fs folder filename = 0 :=
      Nat.le_antisymm (leastFreeCounter_le_free h0) (Nat.zero_le _)
    rw [hz]
    simp [get_unique_file_path, hbf, nameOfCounter]

theorem get_unique_not_exists (fs : Fs) (folder : List String) (filename : String) :
    fs.pathExists (get_unique_file_path fs folder filename) = false := by
  rw [get_unique_eq_nameOfCounter]
  have := (leastFreeCounter_spec fs folder filename).1
  simpa [freeAt] using this

theorem lfc_lt_insert (fs : Fs) (folder : List String) (filename : String) :
    leastFreeCounter fs folder filename <
      leastFreeCounter
        (fs.insertFile (folder ++ [nameOfCounter filename (leastFreeCounter fs folder filename)]))
        folder filename := by
  set p := folder ++ [nameOfCounter filename (leastFreeCounter fs folder filename)] with hp
  have hmono : leastFreeCounter fs folder filename ≤
      leastFreeCounter (fs.insertFile p) folder filename :=
    leastFreeCounter_le_free
      (freeAt_of_insertFile ((leastFreeCounter_spec (fs.insertFile p) folder filename).1))
  rcases Nat.eq_or_lt_of_le hmono with h | h
  · exfalso
    have hfree := (leastFreeCounter_spec (fs.insertFile p) folder filename).1
    rw [← h] at hfree
    have hex := pathExists_insertFile_self fs p
    simp only [freeAt, hp, Bool.not_eq_true'] at hfree
    rw [hfree] at hex
    cases hex
  · exact h

theorem collisionRun_avoids (folder : List String) (filename : String) :
    ∀ n (fs : Fs) (q : List String), fs.pathExists q = true →
      q ∉ (collisionRun folder filename n fs).map (·.path) := by
  intro n
  induction n with
  | zero => intro fs q hq; simp [collisionRun]
  | succ m ih =>
      intro fs q hq
      rw [collisionRun]
      simp only [List.map_cons, List.mem_cons]
      rintro (h | h)
      · rw [h] at hq
        rw [get_unique_not_exists fs folder filename] at hq
        cases hq
      · exact ih _ q (pathExists_insertFile_mono _ hq) h

/-- C6: against a fixed `folder/name`, `n` rounds of resolve-then-move return
`n` pairwise-distinct paths, with strictly increasing numeric suffix counters
(counter 0 being the unsuffixed name), none of which existed on disk at the
moment of its resolution; and in general every path
`get_unique_file_path` returns does not exist at the moment of resolution. -/
theorem C6_collision_resolution (fs : Fs) (folder : List String) (filename : String)
    (n : Nat) :
    (collisionRun folder filename n fs).length = n ∧
    ((collisionRun folder filename n fs).map (·.path)).Nodup ∧
    List.Chain' (· < ·) ((collisionRun folder filename n fs).map (·.counter)) ∧
    (∀ s ∈ collisionRun folder filename n fs, s.existedAtResolution = false) ∧
    (∀ (fs2 : Fs) (folder2 : List String) (name2 : String),
      fs2.pathExists (get_unique_file_path fs2 folder2 name2) = false) := by
  refine ⟨?_, ?_, ?_, ?_, fun fs2 folder2 name2 => get_unique_not_exists fs2 folder2 name2⟩
  · induction n generalizing fs with
    | zero => rfl
    | succ m ih => rw [collisionRun]; simp [ih]
  · induction n generalizing fs with
    | zero => simp [collisionRun]
    | succ m ih =>
        rw [collisionRun]
        simp only [List.map_cons, List.nodup_cons]
        refine ⟨?_, ih _⟩
        exact collisionRun_avoids folder filename m _ _
          (pathExists_insertFile_self fs _)
  · induction n generalizing fs with
    | zero => simp [collisionRun]
    | succ m ih =>
        rw [collisionRun]
        simp only [List.map_cons]
        rw [List.chain'_cons']
        refine ⟨?_, ih _⟩
        intro b hb
        cases m with
        | zero => simp [collisionRun] at hb
        | succ m2 =>
            rw [collisionRun] at hb
            simp only [List.map_cons, List.head?_cons, Option.mem_def,
              Option.some.injEq] at hb
            rw [← hb, get_unique_eq_nameOfCounter]
            exact lfc_lt_insert fs folder filename
  · induction n generalizing fs with
    | zero => intro s hs; simp [collisionRun] at hs
    | succ m ih =>
        intro s hs
        rw [collisionRun] at hs
        rcases List.mem_cons.mp hs with h | h
        · rw [h]
          exact get_unique_not_exists fs folder filename
        · exact ih _ s h

/-- C6 witness: three rounds against an empty destination folder return the
plain name and then suffixes 1 and 2, each nonexistent at resolution. -/
theorem C6_collision_resolution_witness :
    ((collisionRun ["data", "dst"] "a.jpg" 3 scenFs).length = 3) ∧
    ((collisionRun ["data", "dst"] "a.jpg" 3 scenFs).map (·.path) =
      [["data", "dst", "a.jpg"], ["data", "dst", "a_1.jpg"], ["data", "dst", "a_2.jpg"]]) ∧
    ({ path := ["data", "dst", "a.jpg"], counter := 0,
       existedAtResolution := false } : ResolveStep).existedAtResolution = false :=
  ⟨(C6_collision_resolution scenFs ["data", "dst"] "a.jpg" 3).1,
   by decide,
   (C6_collision_resolution scenFs ["data", "dst"] "a.jpg" 3).2.2.2.1 _ (by decide)⟩

theorem runInv_set_current {p : OperationProgress} (c : Option String)
    (h : runInv p) : runInv { p with current_file := c } := h

theorem processOneFile_progress (env : Env) (strategy : Strategy)
    (destination_dir : List String) (st : StepState) (file_path : List String) :
    ∃ r : FileOperationResult,
      (processOneFile env strategy destination_dir st file_path).progress =
        add_result { st.progress with current_file := some (pathName file_path) } r ∧
      r.source_file = pathName file_path ∧
      (r.success = false → r.error_message.isSome) := by
  rcases hmeta : extract_comprehensive_metadata env st.fs file_path with e | metadata
  · refine ⟨{ source_file := pathName file_path, operation := "organize",
              success := false, error_message := some e }, ?_, rfl, fun _ => rfl⟩
    simp [processOneFile, hmeta]
  · rcases hdest : get_destination_path env strategy st.fs file_path destination_dir
        metadata with ⟨e | dpath, evs⟩
    · refine ⟨{ source_file := pathName file_path, operation := "organize",
                success := false, error_message := some e }, ?_, rfl, fun _ => rfl⟩
      simp [processOneFile, hmeta, hdest]
    · rcases hens : ensure_directory_exists st.fs dpath.dropLast with ⟨b, fs1⟩
      cases b
      · refine ⟨{ source_file := pathName file_path, operation := "organize",
                  success := false,
                  error_message := some "Failed to create directory" },
          ?_, rfl, fun _ => rfl⟩
        simp [processOneFile, hmeta, hdest, hens]
      · rcases hmv : move_file env fs1 (renderAbs file_path) (renderAbs dpath)
          with ⟨success, fs2, mevs⟩
        cases success
        · refine ⟨{ source_file := pathName file_path, operation := "organize",
                    success := false,
                    error_message := some "Failed to move file" },
            ?_, rfl, fun _ => rfl⟩
          simp [processOneFile, hmeta, hdest, hens, hmv]
        · refine ⟨{ source_file := pathName file_path, operation := "organize",
                    success := true, destination_path := some (pathName dpath),
                    file_size :=
                      if fs2.pathExists file_path = true then fs2.sizeOf file_path else 0,
                    original_source_path := some (renderAbs file_path),
                    organized_destination_path := some (renderAbs dpath) },
            ?_, rfl, by simp⟩
          simp [processOneFile, hmeta, hdest, hens, hmv]

theorem organize_fold_runInv (env : Env) (strategy : Strategy)
    (destination_dir : List String) :
    ∀ (files : List (List String)) (st : StepState), runInv st.progress →
      runInv ((files.foldl (processOneFile env strategy destination_dir) st).progress) := by
  intro files
  induction files with
  | nil => exact fun st h => h
  | cons f rest ih =>
      intro st h
      simp only [List.foldl_cons]
      apply ih
      obtain ⟨r, hr, -, hmsg⟩ := processOneFile_progress env strategy destination_dir st f
      rw [hr]
      exact runInv_add_result (runInv_set_current _ h) hmsg

theorem organize_fold_results_length (env : Env) (strategy : Strategy)
    (destination_dir : List String) :
    ∀ (files : List (List String)) (st : StepState),
      ((files.foldl (processOneFile env strategy destination_dir) st).progress).results.length =
        st.progress.results.length + files.length := by
  intro files
  induction files with
  | nil => intro st; rfl
  | cons f rest ih =>
      intro st
      simp only [List.foldl_cons]
      rw [ih]
      obtain ⟨r, hr, -, -⟩ := processOneFile_progress env strategy destination_dir st f
      rw [hr]
      obtain ⟨-, -, -, h4, -⟩ := add_result_fields
        { st.progress with current_file := some (pathName f) } r
      rw [h4]
      simp
      omega

theorem filter_success_split (l : List FileOperationResult) :
    (l.filter (fun r => r.success = true)).length +
      (l.filter (fun r => r.success = false)).length = l.length := by
  induction l with
  | nil => rfl
  | cons r t ih =>
      rw [List.filter_cons, List.filter_cons]
      cases hr : r.success
      · rw [if_neg (by simp [hr]), if_pos (by simp [hr])]
        simp only [List.length_cons]
        omega
      · rw [if_pos (by simp [hr]), if_neg (by simp [hr])]
        simp only [List.length_cons]
        omega

/-- C7: whenever a strategy batch run completes with exactly one failed
per-file result (the IO-failed file) and the rest successful, the batch has
processed every scanned file (no abort): the result list covers the whole
scan, `failed_files = 1`, `successful_files = N - 1`, and the failed file's
result carries its error message. -/
theorem C7_batch_partial_failure (env : Env) (fs : Fs)
    (source_dir destination_dir : List String) (strategy : Strategy)
    (prog : OperationProgress)
    (hrun : (organize_files_by_strategy env fs source_dir destination_dir strategy).1 =
      some prog)
    (hone : (prog.results.filter (fun r => r.success = false)).length = 1) :
    prog.results.length = (scan_directory fs source_dir).length ∧
    prog.processed_files = (scan_directory fs source_dir).length ∧
    prog.failed_files = 1 ∧
    prog.successful_files = (scan_directory fs source_dir).length - 1 ∧
    (∀ r ∈ prog.results, r.success = false → r.error_message.isSome) := by
  unfold organize_files_by_strategy at hrun
  by_cases hdir : fs.isDir source_dir = true
  · rw [hdir] at hrun
    simp only [Bool.not_true, Bool.false_eq_true, if_false, Option.some.injEq] at hrun
    subst hrun
    have hlen := organize_fold_results_length env strategy destination_dir
      (scan_directory fs source_dir)
      ⟨mkProgress "organize" (scan_directory fs source_dir).length, fs,
        [Event.publishEv "organization_progress" ""]⟩
    simp only [mkProgress] at hlen
    have hinv := organize_fold_runInv env strategy destination_dir
      (scan_directory fs source_dir)
      ⟨mkProgress "organize" (scan_directory fs source_dir).length, fs,
        [Event.publishEv "organization_progress" ""]⟩
      (runInv_mkProgress _ _)
    obtain ⟨h1, h2, h3, h4⟩ := hinv
    have hsplit := filter_success_split
      ((scan_directory fs source_dir).foldl
        (processOneFile env strategy destination_dir)
        ⟨mkProgress "organize" (scan_directory fs source_dir).length, fs,
          [Event.publishEv "organization_progress" ""]⟩).progress.results
    refine ⟨?_, ?_, ?_, ?_, h4⟩
    · simpa using hlen
    · rw [h1]; simpa using hlen
    · rw [h2]; exact hone
    · rw [h3]
      have hN : ((scan_directory fs source_dir).foldl
          (processOneFile env strategy destination_dir)
          ⟨mkProgress "organize" (scan_directory fs source_dir).length, fs,
            [Event.publishEv "organization_progress" ""]⟩).progress.results.length =
          (scan_directory fs source_dir).length := by simpa using hlen
      omega
  · have hdir2 : fs.isDir source_dir = false := by
      cases hx : fs.isDir source_dir
      · rfl
      · exact absurd hx hdir
    rw [hdir2] at hrun
    simp at hrun

/-- C7 witness: the smart batch over the three-file scenario, where exactly
`c.exe` fails, completes with `failed = 1` and `successful = 2 = N - 1`. -/
theorem C7_batch_partial_failure_witness :
    ((organize_files_by_strategy scenEnv scenFs ["data", "src"] ["data", "dst"]
        .smartS).1.getD (mkProgress "" 0)).failed_files = 1 ∧
    ((organize_files_by_strategy scenEnv scenFs ["data", "src"] ["data", "dst"]
        .smartS).1.getD (mkProgress "" 0)).successful_files =
      (scan_directory scenFs ["data", "src"]).length - 1 :=
  have h := C7_batch_partial_failure scenEnv scenFs ["data", "src"] ["data", "dst"]
    .smartS
    ((organize_files_by_strategy scenEnv scenFs ["data", "src"] ["data", "dst"]
        .smartS).1.getD (mkProgress "" 0))
    (by rfl) (by decide)
  ⟨h.2.2.1, h.2.2.2.1⟩

theorem cleanCompB_spec {s : String} (h : cleanCompB s = true) :
    s ≠ "" ∧ s ≠ "." ∧ s ≠ ".." ∧ ∀ c ∈ s.data, c ≠ '/' ∧ c ≠ Char.ofNat 0 := by
  simp only [cleanCompB, Bool.and_eq_true, Bool.not_eq_true', beq_eq_false_iff_ne,
    List.all_eq_true] at h
  obtain ⟨⟨⟨h1, h2⟩, h3⟩, h4⟩ := h
  refine ⟨h1, h2, h3, fun c hc => ?_⟩
  have := h4 c hc
  simp only [Bool.and_eq_true, Bool.not_eq_true', beq_eq_false_iff_ne] at this
  exact this

theorem splitSlash_cons (c : Char) (cs : List Char) (seg : List Char)
    (rest : List (List Char)) (h : splitSlash cs = seg :: rest) :
    splitSlash (c :: cs) = if c = '/' then [] :: seg :: rest else (c :: seg) :: rest := by
  simp only [splitSlash, List.foldr_cons] at h ⊢
  rw [h]

theorem splitSlash_ne_nil (cs : List Char) : splitSlash cs ≠ [] := by
  induction cs with
  | nil => simp [splitSlash]
  | cons c cs ih =>
      cases h : splitSlash cs with
      | nil => exact absurd h ih
      | cons seg rest =>
          rw [splitSlash_cons c cs seg rest h]
          split <;> simp

theorem splitSlash_no_slash {cs : List Char} (h : ∀ c ∈ cs, ¬(c = '/')) :
    splitSlash cs = [cs] := by
  induction cs with
  | nil => rfl
  | cons c cs ih =>
      have hrest := ih (fun x hx => h x (List.mem_cons_of_mem _ hx))
      rw [splitSlash_cons c cs cs [] hrest]
      rw [if_neg (h c (List.mem_cons_self _ _))]

theorem splitSlash_append_slash (xs cs : List Char) (h : ∀ c ∈ cs, ¬(c = '/')) :
    splitSlash (xs ++ '/' :: cs) = splitSlash xs ++ [cs] := by
  induction xs with
  | nil =>
      rw [List.nil_append]
      rw [splitSlash_cons '/' cs cs [] (splitSlash_no_slash h)]
      rw [if_pos rfl]
      rfl
  | cons x xs ih =>
      cases hx : splitSlash xs with
      | nil => exact absurd hx (splitSlash_ne_nil xs)
      | cons seg rest =>
          have hx2 : splitSlash (xs ++ '/' :: cs) = (seg :: rest) ++ [cs] := by
            rw [ih, hx]
          rw [List.cons_append]
          rw [splitSlash_cons x (xs ++ '/' :: cs) seg (rest ++ [cs]) (by simpa using hx2)]
          rw [splitSlash_cons x xs seg rest hx]
          by_cases hc : x = '/'
          · rw [if_pos hc, if_pos hc]
            rfl
          · rw [if_neg hc, if_neg hc]
            rfl

theorem renderPath_append_singleton (q : List String) (x : String) :
    renderPath (q ++ [x]) = renderPath q ++ "/" ++ x := by
  simp [renderPath, List.foldl_append]

theorem splitSlash_renderPath (p : List String)
    (hclean : ∀ s ∈ p, ∀ c ∈ s.data, ¬(c = '/')) :
    splitSlash ((renderPath p).data) = [] :: p.map String.data := by
  induction p using List.reverseRecOn with
  | nil => rfl
  | append_singleton q x ih =>
      rw [renderPath_append_singleton]
      have hx : ∀ c ∈ x.data, ¬(c = '/') :=
        hclean x (List.mem_append_right _ (List.mem_singleton.mpr rfl))
      have hq : ∀ s ∈ q, ∀ c ∈ s.data, ¬(c = '/') :=
        fun s hs => hclean s (List.mem_append_left _ hs)
      rw [String.data_append, String.data_append]
      have : ("/" : String).data = ['/'] := rfl
      rw [this, List.append_assoc]
      rw [show (['/'] ++ x.data : List Char) = '/' :: x.data from rfl]
      rw [splitSlash_append_slash _ _ hx, ih hq]
      simp

theorem renderPath_head_slash (p : List String) (hp : p ≠ []) :
    ∃ t, (renderPath p).data = '/' :: t := by
  induction p using List.reverseRecOn with
  | nil => exact absurd rfl hp
  | append_singleton q x ih =>
      rw [renderPath_append_singleton, String.data_append, String.data_append]
      by_cases hq : q = []
      · subst hq
        exact ⟨x.data, rfl⟩
      · obtain ⟨t, ht⟩ := ih hq
        rw [ht]
        exact ⟨t ++ ['/'] ++ x.data, by simp⟩

theorem renderAbs_ne_empty {p : List String} (hp : p ≠ []) : renderAbs p ≠ "" := by
  obtain ⟨t, ht⟩ := renderPath_head_slash p hp
  simp only [renderAbs, if_neg hp]
  intro hcontra
  rw [hcontra] at ht
  cases ht

theorem normalizeSegs_clean_aux (p : List String) :
    ∀ acc : List String, (∀ s ∈ p, cleanCompB s = true) →
      (p.foldl (fun acc s =>
        if s = "" || s = "." then acc
        else if s = ".." then acc.dropLast
        else acc ++ [s]) acc) = acc ++ p := by
  induction p with
  | nil => intro acc _; simp
  | cons x xs ih =>
      intro acc h
      have hx := cleanCompB_spec (h x (List.mem_cons_self _ _))
      simp only [List.foldl_cons]
      rw [if_neg (by simp [hx.1, hx.2.1]), if_neg hx.2.2.1]
      rw [ih (acc ++ [x]) (fun s hs => h s (List.mem_cons_of_mem _ hs))]
      simp

theorem normalizeSegs_clean (p : List String) (h : ∀ s ∈ p, cleanCompB s = true) :
    normalizeSegs p = p := by
  unfold normalizeSegs
  rw [normalizeSegs_clean_aux p [] h]
  simp

theorem resolvePath_renderAbs (cwd : List String) {p : List String} (hp : p ≠ [])
    (hclean : ∀ s ∈ p, cleanCompB s = true) :
    resolvePath cwd (renderAbs p) = p := by
  have hslash : ∀ s ∈ p, ∀ c ∈ s.data, ¬(c = '/') :=
    fun s hs c hc => ((cleanCompB_spec (hclean s hs)).2.2.2 c hc).1
  have hra : renderAbs p = renderPath p := by simp [renderAbs, hp]
  rw [hra]
  obtain ⟨t, ht⟩ := renderPath_head_slash p hp
  have hsplit := splitSlash_renderPath p hslash
  unfold resolvePath
  rw [ht] at hsplit ⊢
  show normalizeSegs ((splitSlash ('/' :: t)).map (fun cs => String.mk cs)) = p
  rw [hsplit]
  simp only [List.map_cons, List.map_map]
  have hid : (String.mk ∘ String.data) = id := funext fun s => rfl
  rw [hid, List.map_id]
  have hred : normalizeSegs (String.mk [] :: p) = normalizeSegs p := rfl
  rw [hred]
  exact normalizeSegs_clean p hclean

theorem renderPath_no_null {p : List String} (hclean : ∀ s ∈ p, cleanCompB s = true) :
    ∀ c ∈ (renderPath p).data, ¬(c = Char.ofNat 0) := by
  induction p using List.reverseRecOn with
  | nil => intro c hc; simp [renderPath] at hc
  | append_singleton q x ih =>
      intro c hc
      rw [renderPath_append_singleton, String.data_append, String.data_append] at hc
      rcases List.mem_append.mp hc with hc2 | hc2
      · rcases List.mem_append.mp hc2 with hc3 | hc3
        · exact ih (fun s hs => hclean s (List.mem_append_left _ hs)) c hc3
        · have : c = '/' := by simpa using hc3
          subst this
          decide
      · exact ((cleanCompB_spec
          (hclean x (List.mem_append_right _ (List.mem_singleton.mpr rfl)))).2.2.2 c hc2).2

theorem stripNulls_renderAbs {p : List String} (hp : p ≠ [])
    (hclean : ∀ s ∈ p, cleanCompB s = true) :
    stripNulls (renderAbs p) = renderAbs p := by
  have hfil : (renderAbs p).data.filter (fun c => !(c == Char.ofNat 0)) =
      (renderAbs p).data := by
    apply List.filter_eq_self.mpr
    intro c hc
    have : ¬(c = Char.ofNat 0) := by
      have hra : renderAbs p = renderPath p := by simp [renderAbs, hp]
      rw [hra] at hc
      exact renderPath_no_null hclean c hc
    simpa using this
  simp only [stripNulls, hfil]

theorem validate_some_shape {fs : Fs} {s r : String} (hs : ¬s = "")
    (h : validate_and_sanitize_path fs (some s) = some r) :
    r = renderAbs (resolvePath fs.cwd (stripNulls s)) := by
  simp only [validate_and_sanitize_path, if_neg hs] at h
  split_ifs at h with h1 h2 h3
  exact (Option.some.injEq _ _ ▸ h).symm

theorem validate_renderAbs_some {fs : Fs} {p : List String} {r : String} (hp : p ≠ [])
    (hclean : ∀ s ∈ p, cleanCompB s = true)
    (h : validate_and_sanitize_path fs (some (renderAbs p)) = some r) :
    r = renderAbs p := by
  have := validate_some_shape (renderAbs_ne_empty hp) h
  rw [stripNulls_renderAbs hp hclean, resolvePath_renderAbs fs.cwd hp hclean] at this
  exact this

theorem digitChar_mem (d : Nat) :
    digitChar d ∈ ['0', '1', '2', '3', '4', '5', '6', '7', '8', '9'] := by
  unfold digitChar
  split <;> simp

theorem natCharsFuel_digits (fuel n : Nat) :
    ∀ c ∈ natCharsFuel fuel n, c ∈ ['0', '1', '2', '3', '4', '5', '6', '7', '8', '9'] := by
  induction fuel generalizing n with
  | zero =>
      intro c hc
      simp only [natCharsFuel, List.mem_singleton] at hc
      exact hc ▸ digitChar_mem n
  | succ f ih =>
      intro c hc
      by_cases hn : n < 10
      · simp only [natCharsFuel, if_pos hn, List.mem_singleton] at hc
        exact hc ▸ digitChar_mem n
      · simp only [natCharsFuel, if_neg hn, List.mem_append, List.mem_singleton] at hc
        rcases hc with hc | hc
        · exact ih _ c hc
        · exact hc ▸ digitChar_mem _

theorem natChars_ne_nil (n : Nat) : natChars n ≠ [] := by
  unfold natChars
  cases n with
  | zero => simp [natCharsFuel]
  | succ m =>
      show natCharsFuel (m + 1) (m + 1) ≠ []
      by_cases hn : m + 1 < 10 <;> simp [natCharsFuel, hn]

theorem digitsStr_clean {cs : List Char} (hne : cs ≠ [])
    (hdig : ∀ c ∈ cs, c ∈ ['0', '1', '2', '3', '4', '5', '6', '7', '8', '9']) :
    cleanCompB (⟨cs⟩ : String) = true := by
  have hchar : ∀ c ∈ cs, (!(c == '/') && !(c == Char.ofNat 0)) = true := by
    intro c hc
    have hm : c = '0' ∨ c = '1' ∨ c = '2' ∨ c = '3' ∨ c = '4' ∨ c = '5' ∨ c = '6' ∨
        c = '7' ∨ c = '8' ∨ c = '9' := by simpa using hdig c hc
    rcases hm with rfl | rfl | rfl | rfl | rfl | rfl | rfl | rfl | rfl | rfl <;> decide
  have h1 : ((⟨cs⟩ : String) == "") = false := by
    apply beq_eq_false_iff_ne.mpr
    intro h
    exact hne (by simpa using congrArg String.data h)
  have h2 : ((⟨cs⟩ : String) == ".") = false := by
    apply beq_eq_false_iff_ne.mpr
    intro h
    have hd : cs = ['.'] := by simpa using congrArg String.data h
    have := hdig '.' (by rw [hd]; exact List.mem_singleton.mpr rfl)
    exact absurd this (by decide)
  have h3 : ((⟨cs⟩ : String) == "..") = false := by
    apply beq_eq_false_iff_ne.mpr
    intro h
    have hd : cs = ['.', '.'] := by simpa using congrArg String.data h
    have := hdig '.' (by rw [hd]; exact List.mem_cons_self _ _)
    exact absurd this (by decide)
  simp only [cleanCompB, h1, h2, h3, Bool.not_false, Bool.true_and, List.all_eq_true]
  exact hchar

theorem natStr_clean (n : Nat) : cleanCompB (natStr n) = true :=
  digitsStr_clean (natChars_ne_nil n) (natCharsFuel_digits n n)

theorem monthStr_clean (d : CivilDate) : cleanCompB (monthStr d) = true := by
  unfold monthStr
  split
  · have hd : ("0" ++ natStr d.month).data = '0' :: natChars d.month := by
      simp [String.data_append, natStr]
    have := @digitsStr_clean (("0" ++ natStr d.month).data)
      (by rw [hd]; simp)
      (by
        rw [hd]
        intro c hc
        rcases List.mem_cons.mp hc with rfl | hc
        · simp
        · exact natCharsFuel_digits _ _ c hc)
    simpa using this
  · exact natStr_clean d.month

theorem categoryLookup_mem {e c : String} (h : categoryLookup e = some c) :
    c ∈ ["Images", "Documents", "Videos", "Audio", "Archives", "Code", "Executables"] := by
  unfold categoryLookup at h
  rcases Option.map_eq_some'.mp h with ⟨ce, hce, rfl⟩
  have hmem := List.mem_of_find?_eq_some hce
  have hfst : ce.1 ∈ FILE_TYPE_CATEGORIES.map (·.1) := List.mem_map_of_mem _ hmem
  have : FILE_TYPE_CATEGORIES.map (·.1) =
      ["Images", "Documents", "Videos", "Audio", "Archives", "Code", "Executables"] := rfl
  rwa [this] at hfst

theorem smart_get_file_category_clean (e : String) :
    cleanCompB (smart_get_file_category e) = true := by
  unfold smart_get_file_category
  cases h : categoryLookup e with
  | none => decide
  | some c =>
      have hmem := categoryLookup_mem h
      have hall : ∀ x ∈ ["Images", "Documents", "Videos", "Audio", "Archives",
          "Code", "Executables"], cleanCompB x = true := by decide
      simpa using hall c hmem

theorem cleanCompB_of_underscore {s : String} (h1 : '_' ∈ s.data)
    (h2 : ∀ c ∈ s.data, c ≠ '/' ∧ c ≠ Char.ofNat 0) : cleanCompB s = true := by
  have hne : s ≠ "" := by
    intro h
    rw [h] at h1
    cases h1
  have hd1 : s ≠ "." := by
    intro h
    rw [h] at h1
    exact absurd h1 (by decide)
  have hd2 : s ≠ ".." := by
    intro h
    rw [h] at h1
    exact absurd h1 (by decide)
  simp only [cleanCompB, Bool.and_eq_true, Bool.not_eq_true', beq_eq_false_iff_ne,
    List.all_eq_true]
  exact ⟨⟨⟨hne, hd1⟩, hd2⟩, fun c hc => by
    have := h2 c hc
    simp [this.1, this.2]⟩

theorem splitStemSuffix_cases (filename : String) :
    splitStemSuffix filename = (filename, "") ∨
    ∃ i, splitStemSuffix filename =
      (⟨filename.data.take i⟩, ⟨filename.data.drop i⟩) := by
  unfold splitStemSuffix
  dsimp only
  split_ifs
  · exact Or.inl rfl
  · exact Or.inl rfl
  · exact Or.inr ⟨_, rfl⟩

theorem splitStemSuffix_chars (filename : String) :
    (∀ c ∈ (splitStemSuffix filename).1.data, c ∈ filename.data) ∧
    (∀ c ∈ (splitStemSuffix filename).2.data, c ∈ filename.data) := by
  rcases splitStemSuffix_cases filename with h | ⟨i, h⟩ <;> rw [h]
  · exact ⟨fun c hc => hc, fun c hc => by simp at hc⟩
  · constructor
    · intro c hc
      exact List.mem_of_mem_take hc
    · intro c hc
      exact List.mem_of_mem_drop hc

theorem nameOfCounter_clean {filename : String} (hclean : cleanCompB filename = true)
    (k : Nat) : cleanCompB (nameOfCounter filename k) = true := by
  rcases Nat.eq_zero_or_pos k with rfl | hk
  · simpa [nameOfCounter] using hclean
  · rw [nameOfCounter_pos filename (by omega)]
    have hchars := cleanCompB_spec hclean
    have hdata : (numberedName (splitStemSuffix filename).1
        (splitStemSuffix filename).2 k).data =
        (splitStemSuffix filename).1.data ++
          '_' :: (natChars k ++ (splitStemSuffix filename).2.data) := by
      simp [numberedName, String.data_append, natStr]
    apply cleanCompB_of_underscore
    · rw [hdata]
      exact List.mem_append_right _ (List.mem_cons_self _ _)
    · intro c hc
      rw [hdata] at hc
      rcases List.mem_append.mp hc with hc | hc
      · exact hchars.2.2.2 c ((splitStemSuffix_chars filename).1 c hc)
      · rcases List.mem_cons.mp hc with rfl | hc
        · exact ⟨by decide, by decide⟩
        · rcases List.mem_append.mp hc with hc | hc
          · have hm : c = '0' ∨ c = '1' ∨ c = '2' ∨ c = '3' ∨ c = '4' ∨ c = '5' ∨
                c = '6' ∨ c = '7' ∨ c = '8' ∨ c = '9' := by
              simpa using natCharsFuel_digits k k c hc
            rcases hm with rfl | rfl | rfl | rfl | rfl | rfl | rfl | rfl | rfl | rfl <;>
              exact ⟨by decide, by decide⟩
          · exact hchars.2.2.2 c ((splitStemSuffix_chars filename).2 c hc)

theorem ensure_true_shape {fs : Fs} {p : List String} {fs1 : Fs}
    (h : ensure_directory_exists fs p = (true, fs1)) :
    fs.mkdirOk p = true ∧ fs1 = fs.mkdir p := by
  unfold ensure_directory_exists at h
  split_ifs at h with hok
  · simp only [Prod.mk.injEq] at h
    exact ⟨hok, h.2.symm⟩
  · simp at h

theorem move_file_true_shape {env : Env} {fs : Fs} {s d : String} {fs2 : Fs}
    {evs : List Event} (h : move_file env fs s d = (true, fs2, evs)) :
    ∃ ss sd, validate_and_sanitize_path fs (some s) = some ss ∧
      validate_and_sanitize_path fs (some d) = some sd ∧
      evs = [Event.validateEv s true, Event.validateEv d true,
             Event.mkdirEv ((resolvePath fs.cwd sd).dropLast),
             Event.moveEv (resolvePath fs.cwd ss) (resolvePath fs.cwd sd)] ∧
      fs.mkdirOk ((resolvePath fs.cwd sd).dropLast) = true ∧
      fs2 = (fs.mkdir ((resolvePath fs.cwd sd).dropLast)).move
        (resolvePath fs.cwd ss) (resolvePath fs.cwd sd) ∧
      (fs.mkdir ((resolvePath fs.cwd sd).dropLast)).isFile (resolvePath fs.cwd ss) = true := by
  rcases hv1 : validate_and_sanitize_path fs (some s) with _ | ss
  · simp [move_file, hv1] at h
  rcases hv2 : validate_and_sanitize_path fs (some d) with _ | sd
  · simp [move_file, hv1, hv2] at h
  rcases hens : ensure_directory_exists fs ((resolvePath fs.cwd sd).dropLast) with ⟨b, fs1⟩
  cases b
  · simp [move_file, hv1, hv2, hens] at h
  · obtain ⟨hok, rfl⟩ := ensure_true_shape hens
    by_cases hmv : ((fs.mkdir ((resolvePath fs.cwd sd).dropLast)).isFile
        (resolvePath fs.cwd ss) && env.moveOk (resolvePath fs.cwd ss)
          (resolvePath fs.cwd sd)) = true
    · have hval : move_file env fs s d =
          (true,
           (fs.mkdir ((resolvePath fs.cwd sd).dropLast)).move
             (resolvePath fs.cwd ss) (resolvePath fs.cwd sd),
           [Event.validateEv s true, Event.validateEv d true,
            Event.mkdirEv ((resolvePath fs.cwd sd).dropLast),
            Event.moveEv (resolvePath fs.cwd ss) (resolvePath fs.cwd sd)]) := by
        simp [move_file, hv1, hv2, hens, hmv]
      rw [h] at hval
      simp only [Prod.mk.injEq, true_and] at hval
      exact ⟨ss, sd, rfl, rfl, hval.2, hok, hval.1, ((Bool.and_eq_true _ _).mp hmv).1⟩
    · simp [move_file, hv1, hv2, hens, hmv] at h

theorem move_file_mkdir_shape {env : Env} {fs : Fs} {s d : String} {b : Bool} {fs2 : Fs}
    {evs : List Event} (h : move_file env fs s d = (b, fs2, evs))
    (i : Nat) (p : List String) (hev : evs.get? i = some (Event.mkdirEv p)) :
    ∃ sd, validate_and_sanitize_path fs (some d) = some sd ∧
      p = (resolvePath fs.cwd sd).dropLast ∧
      ∃ j, j < i ∧ evs.get? j = some (Event.validateEv d true) := by
  rcases hv1 : validate_and_sanitize_path fs (some s) with _ | ss
  · have hevs : evs = [Event.validateEv s false,
        Event.validateEv d (validate_and_sanitize_path fs (some d)).isSome] := by
      have hval := h
      rcases hv2 : validate_and_sanitize_path fs (some d) with _ | sd <;>
        · simp only [move_file, hv1, hv2] at hval
          simp only [Prod.mk.injEq] at hval
          simp [← hval.2.2, hv2]
    rw [hevs] at hev
    rcases i with _ | _ | i <;> simp at hev
  · rcases hv2 : validate_and_sanitize_path fs (some d) with _ | sd
    · have hval := h
      simp only [move_file, hv1, hv2] at hval
      simp only [Prod.mk.injEq] at hval
      rw [← hval.2.2] at hev
      rcases i with _ | _ | i <;> simp at hev
    · refine ⟨sd, rfl, ?_, 1, ?_, ?_⟩
      · -- every mkdir event in the trail has path (resolvePath cwd sd).dropLast
        rcases hens : ensure_directory_exists fs ((resolvePath fs.cwd sd).dropLast)
          with ⟨eb, fs1⟩
        cases eb
        · have hval := h
          simp only [move_file, hv1, hv2, hens] at hval
          simp only [Prod.mk.injEq] at hval
          rw [← hval.2.2] at hev
          rcases i with _ | _ | _ | i <;> simp at hev
          exact hev.symm
        · by_cases hmv : (fs1.isFile (resolvePath fs.cwd ss) &&
              env.moveOk (resolvePath fs.cwd ss) (resolvePath fs.cwd sd)) = true
          · have hval := h
            simp only [move_file, hv1, hv2, hens, hmv, if_true] at hval
            simp only [Prod.mk.injEq] at hval
            rw [← hval.2.2] at hev
            rcases i with _ | _ | _ | _ | i <;> simp at hev
            exact hev.symm
          · have hval := h
            simp only [move_file, hv1, hv2, hens, hmv, Bool.false_eq_true, if_false] at hval
            simp only [Prod.mk.injEq] at hval
            rw [← hval.2.2] at hev
            rcases i with _ | _ | _ | i <;> simp at hev
            exact hev.symm
      · -- the mkdir event sits at index ≥ 2 in every branch
        rcases hens : ensure_directory_exists fs ((resolvePath fs.cwd sd).dropLast)
          with ⟨eb, fs1⟩
        cases eb
        · have hval := h
          simp only [move_file, hv1, hv2, hens] at hval
          simp only [Prod.mk.injEq] at hval
          rw [← hval.2.2] at hev
          rcases i with _ | _ | _ | i <;> simp at hev
          omega
        · by_cases hmv : (fs1.isFile (resolvePath fs.cwd ss) &&
              env.moveOk (resolvePath fs.cwd ss) (resolvePath fs.cwd sd)) = true
          · have hval := h
            simp only [move_file, hv1, hv2, hens, hmv, if_true] at hval
            simp only [Prod.mk.injEq] at hval
            rw [← hval.2.2] at hev
            rcases i with _ | _ | _ | _ | i <;> simp at hev
            omega
          · have hval := h
            simp only [move_file, hv1, hv2, hens, hmv, Bool.false_eq_true, if_false] at hval
            simp only [Prod.mk.injEq] at hval
            rw [← hval.2.2] at hev
            rcases i with _ | _ | _ | i <;> simp at hev
            omega
      · -- index 1 is the successful validation of the destination string
        rcases hens : ensure_directory_exists fs ((resolvePath fs.cwd sd).dropLast)
          with ⟨eb, fs1⟩
        cases eb
        · have hval := h
          simp only [move_file, hv1, hv2, hens] at hval
          simp only [Prod.mk.injEq] at hval
          rw [← hval.2.2]
          simp [hv2]
        · by_cases hmv : (fs1.isFile (resolvePath fs.cwd ss) &&
              env.moveOk (resolvePath fs.cwd ss) (resolvePath fs.cwd sd)) = true
          · have hval := h
            simp only [move_file, hv1, hv2, hens, hmv, if_true] at hval
            simp only [Prod.mk.injEq] at hval
            rw [← hval.2.2]
            simp [hv2]
          · have hval := h
            simp only [move_file, hv1, hv2, hens, hmv, Bool.false_eq_true, if_false] at hval
            simp only [Prod.mk.injEq] at hval
            rw [← hval.2.2]
            simp [hv2]

theorem smart_validate_cases (fs : Fs) (dp : List String) :
    (validate_and_sanitize_path fs (some (renderAbs dp)) ≠ none ∧
     smart_validate_destination fs dp = (.ok dp, [Event.validateEv (renderAbs dp) true])) ∨
    (validate_and_sanitize_path fs (some (renderAbs dp)) = none ∧
     smart_validate_destination fs dp =
       (.error ("Invalid destination path: " ++ renderAbs dp),
        [Event.validateEv (renderAbs dp) false])) := by
  rcases hv : validate_and_sanitize_path fs (some (renderAbs dp)) with _ | r
  · right
    refine ⟨rfl, ?_⟩
    simp [smart_validate_destination, hv]
  · left
    refine ⟨by simp, ?_⟩
    simp [smart_validate_destination, hv]

theorem placement_events {fs : Fs} {name : String} {folder : List String}
    {res : Except String (List String)} {evs : List Event}
    (h : (match smart_validate_destination fs folder with
          | (.ok validated_path, evs) =>
              ((Except.ok (get_unique_file_path fs validated_path name) :
                Except String (List String)), evs)
          | (.error e, evs) => (.error e, evs)) = (res, evs)) :
    ∀ ev ∈ evs, ∃ s b, ev = Event.validateEv s b := by
  rcases smart_validate_cases fs folder with ⟨-, hsv⟩ | ⟨-, hsv⟩ <;>
    · rw [hsv] at h
      obtain ⟨-, h2⟩ := Prod.mk.injEq _ _ _ _ ▸ h
      intro ev hev
      rw [← h2] at hev
      rcases List.mem_singleton.mp hev with rfl
      exact ⟨_, _, rfl⟩

theorem placement_shape {fs : Fs} {file d : List String} {evs : List Event}
    {folder : List String}
    (h : (match smart_validate_destination fs folder with
          | (.ok validated_path, evs) =>
              ((Except.ok (get_unique_file_path fs validated_path (pathName file)) :
                Except String (List String)), evs)
          | (.error e, evs) => (.error e, evs)) = (.ok d, evs)) :
    evs = [Event.validateEv (renderAbs folder) true] ∧
    validate_and_sanitize_path fs (some (renderAbs folder)) ≠ none ∧
    d = folder ++ [nameOfCounter (pathName file)
      (leastFreeCounter fs folder (pathName file))] := by
  rcases smart_validate_cases fs folder with ⟨hne, hsv⟩ | ⟨hnone, hsv⟩
  · rw [hsv] at h
    simp only [Prod.mk.injEq, Except.ok.injEq] at h
    refine ⟨h.2.symm, hne, ?_⟩
    rw [← h.1]
    exact get_unique_eq_nameOfCounter fs folder (pathName file)
  · rw [hsv] at h
    simp at h

theorem smart_ok_shape {env : Env} {fs : Fs} {file root d : List String}
    {evs : List Event}
    (h : smart_get_destination_path env fs file root = (.ok d, evs)) :
    ∃ folder k, evs = [Event.validateEv (renderAbs folder) true] ∧
      validate_and_sanitize_path fs (some (renderAbs folder)) ≠ none ∧
      d = folder ++ [nameOfCounter (pathName file) k] ∧
      ∃ extra, folder = root ++ extra ∧ (∀ s ∈ extra, cleanCompB s = true) := by
  unfold smart_get_destination_path at h
  by_cases hext : validate_file_extension (lowerStr (pathSuffix file)) = true
  · simp only [hext, Bool.not_true, Bool.false_eq_true, if_false] at h
    rcases hinfo : get_organization_info env fs file with e | info <;>
      simp only [hinfo] at h
    · simp at h
    · by_cases hrec : daysBetween env.now (get_best_organization_date env fs file) ≤ (30 : Int)
      · have hstrat : smart_select_strategy env (lowerStr (pathSuffix file)) info
            (get_best_organization_date env fs file) = "date_primary" := by
          simp [smart_select_strategy, hrec]
        rw [hstrat] at h
        simp only [if_pos rfl] at h
        unfold smart_organize_by_date_primary at h
        obtain ⟨h1, h2, h3⟩ := placement_shape h
        refine ⟨_, _, h1, h2, h3, [yearStr (get_best_organization_date env fs file),
          monthStr (get_best_organization_date env fs file)], rfl, ?_⟩
        intro s hs
        rcases List.mem_cons.mp hs with rfl | hs
        · exact natStr_clean _
        · rcases List.mem_singleton.mp hs with rfl
          exact monthStr_clean _
      · have hstrat : smart_select_strategy env (lowerStr (pathSuffix file)) info
            (get_best_organization_date env fs file) = "date_type" := by
          unfold smart_select_strategy
          rw [if_neg hrec]
          split_ifs <;> rfl
        rw [hstrat] at h
        rw [if_neg (show ¬("date_type" = "date_primary") by decide),
            if_neg (show ¬("date_type" = "type_date") by decide),
            if_pos rfl] at h
        unfold smart_organize_by_date_then_type at h
        obtain ⟨h1, h2, h3⟩ := placement_shape h
        refine ⟨_, _, h1, h2, h3, [yearStr (get_best_organization_date env fs file),
          monthStr (get_best_organization_date env fs file),
          smart_get_file_category (lowerStr (pathSuffix file))], rfl, ?_⟩
        intro s hs
        rcases List.mem_cons.mp hs with rfl | hs
        · exact natStr_clean _
        · rcases List.mem_cons.mp hs with rfl | hs
          · exact monthStr_clean _
          · rcases List.mem_singleton.mp hs with rfl
            exact smart_get_file_category_clean _
  · have hext2 : validate_file_extension (lowerStr (pathSuffix file)) = false := by
      cases hx : validate_file_extension (lowerStr (pathSuffix file))
      · rfl
      · exact absurd hx hext
    simp only [hext2, Bool.not_false, if_true] at h
    simp at h

theorem smart_events_validate_only {env : Env} {fs : Fs} {file root : List String}
    {res : Except String (List String)} {evs : List Event}
    (h : smart_get_destination_path env fs file root = (res, evs)) :
    ∀ ev ∈ evs, ∃ s b, ev = Event.validateEv s b := by
  unfold smart_get_destination_path at h
  by_cases hext : validate_file_extension (lowerStr (pathSuffix file)) = true
  · simp only [hext, Bool.not_true, Bool.false_eq_true, if_false] at h
    rcases hinfo : get_organization_info env fs file with e | info <;>
      simp only [hinfo] at h
    · obtain ⟨-, h2⟩ := Prod.mk.injEq _ _ _ _ ▸ h
      intro ev hev
      rw [← h2] at hev
      cases hev
    · split_ifs at h
      · unfold smart_organize_by_date_primary at h
        exact placement_events h
      · unfold smart_organize_by_type_then_date at h
        exact placement_events h
      · unfold smart_organize_by_date_then_type at h
        exact placement_events h
      · unfold smart_organize_by_type_primary at h
        exact placement_events h
  · have hext2 : validate_file_extension (lowerStr (pathSuffix file)) = false := by
      cases hx : validate_file_extension (lowerStr (pathSuffix file))
      · rfl
      · exact absurd hx hext
    simp only [hext2, Bool.not_false, if_true] at h
    obtain ⟨-, h2⟩ := Prod.mk.injEq _ _ _ _ ▸ h
    intro ev hev
    rw [← h2] at hev
    cases hev

theorem mkdirValidated_no_mkdir {evs : List Event}
    (h : ∀ ev ∈ evs, ∀ p, ev ≠ Event.mkdirEv p) : mkdirValidated evs := by
  intro i p hev
  have hmem := List.get?_mem hev
  exact absurd rfl (h _ hmem p)

theorem mkdirValidated_append {evs1 evs2 : List Event} (h1 : mkdirValidated evs1)
    (h2 : mkdirValidated evs2) : mkdirValidated (evs1 ++ evs2) := by
  intro i p hev
  by_cases hi : i < evs1.length
  · rw [List.get?_append hi] at hev
    obtain ⟨j, hj, hjev⟩ := h1 i p hev
    exact ⟨j, hj, by rw [List.get?_append (Nat.lt_trans hj hi)]; exact hjev⟩
  · push_neg at hi
    rw [List.get?_append_right hi] at hev
    obtain ⟨j, hj, hjev⟩ := h2 _ p hev
    refine ⟨evs1.length + j, by omega, ?_⟩
    rw [List.get?_append_right (by omega)]
    have : evs1.length + j - evs1.length = j := by omega
    rw [this]
    exact hjev

theorem block_valid {S : String} {folder : List String} (mevs tail : List Event)
    (hS : S = renderAbs folder)
    (hm : ∀ i p, mevs.get? i = some (Event.mkdirEv p) → p = folder)
    (ht : ∀ ev ∈ tail, ∀ p, ev ≠ Event.mkdirEv p) :
    mkdirValidated ([Event.validateEv S true, Event.mkdirEv folder] ++ mevs ++ tail) := by
  intro i p hev
  have hpf : p = folder ∧ 0 < i := by
    cases i with
    | zero => simp at hev
    | succ n =>
        cases n with
        | zero =>
            have hlen : (1 : Nat) < ([Event.validateEv S true,
                Event.mkdirEv folder] : List Event).length := by simp
            rw [List.append_assoc, List.get?_append hlen] at hev
            have : folder = p := by simpa using hev
            exact ⟨this.symm, Nat.succ_pos _⟩
        | succ n2 =>
            have hsk : (([Event.validateEv S true, Event.mkdirEv folder] ++ mevs ++ tail) :
                List Event).get? (n2 + 2) = (mevs ++ tail).get? n2 := by
              rw [List.append_assoc, List.get?_append_right (by simp)]
              simp
            rw [hsk] at hev
            by_cases hn : n2 < mevs.length
            · rw [List.get?_append hn] at hev
              exact ⟨hm n2 p hev, Nat.succ_pos _⟩
            · push_neg at hn
              rw [List.get?_append_right hn] at hev
              have hmem := List.get?_mem hev
              exact absurd rfl (ht _ hmem p)
  refine ⟨0, hpf.2, ?_⟩
  rw [hpf.1, hS]
  rfl

theorem processOneFile_smart_block (env : Env) (root : List String) (st : StepState)
    (f : List String) (hroot : ∀ s ∈ root, cleanCompB s = true)
    (hname : cleanCompB (pathName f) = true) :
    ∃ block, (processOneFile env .smartS root st f).events = st.events ++ block ∧
      mkdirValidated block := by
  rcases hmeta : extract_comprehensive_metadata env st.fs f with e | metadata
  · refine ⟨[Event.publishEv "file_error" (pathName f)], by simp [processOneFile, hmeta], ?_⟩
    apply mkdirValidated_no_mkdir
    intro ev hev p
    rcases List.mem_singleton.mp hev with rfl
    simp
  · rcases hdest : get_destination_path env .smartS st.fs f root metadata
      with ⟨e | d, evs⟩
    · have hvo := smart_events_validate_only hdest
      refine ⟨evs ++ [Event.publishEv "file_error" (pathName f)],
        by simp [processOneFile, hmeta, hdest], ?_⟩
      apply mkdirValidated_no_mkdir
      intro ev hev p
      rcases List.mem_append.mp hev with hev | hev
      · obtain ⟨s, b, rfl⟩ := hvo ev hev
        simp
      · rcases List.mem_singleton.mp hev with rfl
        simp
    · obtain ⟨folder, k, hevs, hvne, hd, extra, hfolder, hextra⟩ :=
        smart_ok_shape hdest
      have hdne : d ≠ [] := by simp [hd]
      have hdclean : ∀ s ∈ d, cleanCompB s = true := by
        intro s hs
        rw [hd] at hs
        rcases List.mem_append.mp hs with hs | hs
        · rw [hfolder] at hs
          rcases List.mem_append.mp hs with hs | hs
          · exact hroot s hs
          · exact hextra s hs
        · rcases List.mem_singleton.mp hs with rfl
          exact nameOfCounter_clean hname k
      have hdrop : d.dropLast = folder := by
        rw [hd]
        exact List.dropLast_concat
      rcases hens : ensure_directory_exists st.fs folder with ⟨b, fs1⟩
      cases b
      · refine ⟨[Event.validateEv (renderAbs folder) true, Event.mkdirEv folder] ++ [] ++
          [Event.publishEv "file_error" (pathName f)], ?_, ?_⟩
        · simp [processOneFile, hmeta, hdest, hens, hevs, hdrop]
        · exact block_valid [] _ rfl (fun i p hp => by simp at hp)
            (fun ev hev p => by
              rcases List.mem_singleton.mp hev with rfl
              simp)
      · rcases hmv : move_file env fs1 (renderAbs f) (renderAbs d) with ⟨success, fs2, mevs⟩
        have hmev : ∀ i p, mevs.get? i = some (Event.mkdirEv p) → p = folder := by
          intro i p hp
          obtain ⟨sd, hsd, hpe, -⟩ := move_file_mkdir_shape hmv i p hp
          have hsd2 := validate_renderAbs_some hdne hdclean hsd
          rw [hsd2, resolvePath_renderAbs _ hdne hdclean, hdrop] at hpe
          exact hpe
        cases success
        · refine ⟨[Event.validateEv (renderAbs folder) true, Event.mkdirEv folder] ++ mevs ++
            [Event.publishEv "file_error" (pathName f)], ?_, ?_⟩
          · simp [processOneFile, hmeta, hdest, hens, hmv, hevs, hdrop]
          · exact block_valid mevs _ rfl hmev
              (fun ev hev p => by
                rcases List.mem_singleton.mp hev with rfl
                simp)
        · refine ⟨[Event.validateEv (renderAbs folder) true, Event.mkdirEv folder] ++ mevs ++
            [Event.publishEv "organization_progress" (pathName f),
             Event.publishEv "file_processed" (pathName f)], ?_, ?_⟩
          · simp [processOneFile, hmeta, hdest, hens, hmv, hevs, hdrop]
          · exact block_valid mevs _ rfl hmev
              (fun ev hev p => by
                rcases List.mem_cons.mp hev with rfl | hev
                · simp
                · rcases List.mem_singleton.mp hev with rfl
                  simp)

theorem scan_mem_entry {fs : Fs} {src f : List String}
    (hf : f ∈ scan_directory fs src) :
    f ∈ fs.entries.map (·.1) ∧ f ≠ [] ∧ f.dropLast = src ∧ f ≠ src := by
  unfold scan_directory Fs.iterdir at hf
  rw [List.mem_map] at hf
  obtain ⟨e, he, rfl⟩ := hf
  rw [List.mem_filter] at he
  obtain ⟨he2, hfile⟩ := he
  rw [List.mem_filter] at he2
  obtain ⟨hmem, hcond⟩ := he2
  simp only [Bool.and_eq_true, beq_iff_eq, Bool.not_eq_true', beq_eq_false_iff_ne] at hcond
  refine ⟨List.mem_map_of_mem _ hmem, ?_, hcond.1, hcond.2⟩
  intro hnil
  rw [hnil] at hcond
  exact hcond.2 hcond.1

theorem scan_name_clean {fs : Fs} (hclean : fs.cleanNamesB = true) {src f : List String}
    (hf : f ∈ scan_directory fs src) : cleanCompB (pathName f) = true := by
  obtain ⟨hmem, hne, -, -⟩ := scan_mem_entry hf
  rw [List.mem_map] at hmem
  obtain ⟨e, he, rfl⟩ := hmem
  unfold Fs.cleanNamesB at hclean
  rw [List.all_eq_true] at hclean
  have hall := hclean e he
  rw [List.all_eq_true] at hall
  apply hall
  unfold pathName
  rcases hlast : e.1.getLast? with _ | x
  · exact absurd (List.getLast?_eq_none.mp hlast) hne
  · simp only [Option.getD_some]
    obtain ⟨hne2, hxl⟩ := List.mem_getLast?_eq_getLast (show x ∈ e.1.getLast? from hlast)
    rw [hxl]
    exact List.getLast_mem hne2

theorem organize_smart_fold (env : Env) (root : List String)
    (hroot : ∀ s ∈ root, cleanCompB s = true) :
    ∀ (files : List (List String)) (st : StepState),
      (∀ f ∈ files, cleanCompB (pathName f) = true) →
      mkdirValidated st.events →
      mkdirValidated ((files.foldl (processOneFile env .smartS root) st).events) := by
  intro files
  induction files with
  | nil => exact fun st _ h => h
  | cons f rest ih =>
      intro st hn h
      simp only [List.foldl_cons]
      apply ih _ (fun g hg => hn g (List.mem_cons_of_mem _ hg))
      obtain ⟨block, hev, hblock⟩ := processOneFile_smart_block env root st f hroot
        (hn f (List.mem_cons_self _ _))
      rw [hev]
      exact mkdirValidated_append h hblock

/-- C2 counterexample: under the Date strategy the engine's very first
mutating call — creating the destination's parent directory — happens with no
prior path sanitization at all, on a path (under `/etc`) that
`validate_and_sanitize_path` rejects outright. -/
theorem C2_counterexample :
    ((organize_files_by_strategy scenEnv scenFs ["data", "src"] ["etc", "dest"]
        .dateS).2.2).get? 1 = some (Event.mkdirEv ["etc", "dest", "2025", "10"]) ∧
    (((organize_files_by_strategy scenEnv scenFs ["data", "src"] ["etc", "dest"]
        .dateS).2.2).take 1).all
      (fun e => match e with
        | Event.validateEv _ true => false
        | _ => true) = true ∧
    validate_and_sanitize_path scenFs
      (some (renderAbs ["etc", "dest", "2025", "10"])) = none := by
  refine ⟨by decide, by decide, by decide⟩

/-- C2 amended: (a) every successful move operates on a non-null source and
destination that both passed `validate_and_sanitize_path` immediately before
the mutation, inside `move_file` itself (and the emitted trail shows the two
successful validations before the mkdir/move); (b) under the Smart strategy —
whose resolver validates the destination folder — every directory-creation
call in a batch trace is preceded by a successful sanitization of the path it
mutates; under the Date/Type strategies the pre-move directory creation is
not sanitized (the counterexample). -/
theorem C2_mutations_validated :
    (∀ (env : Env) (fs : Fs) (s d : String) (fs2 : Fs) (evs : List Event),
      move_file env fs s d = (true, fs2, evs) →
      ∃ ss sd, validate_and_sanitize_path fs (some s) = some ss ∧
        validate_and_sanitize_path fs (some d) = some sd ∧
        evs = [Event.validateEv s true, Event.validateEv d true,
               Event.mkdirEv ((resolvePath fs.cwd sd).dropLast),
               Event.moveEv (resolvePath fs.cwd ss) (resolvePath fs.cwd sd)]) ∧
    (∀ (env : Env) (fs : Fs) (source_dir root : List String),
      fs.cleanNamesB = true → (∀ s ∈ root, cleanCompB s = true) →
      mkdirValidated
        ((organize_files_by_strategy env fs source_dir root .smartS).2.2)) := by
  constructor
  · intro env fs s d fs2 evs h
    obtain ⟨ss, sd, h1, h2, h3, -⟩ := move_file_true_shape h
    exact ⟨ss, sd, h1, h2, h3⟩
  · intro env fs source_dir root hclean hroot
    unfold organize_files_by_strategy
    by_cases hdir : fs.isDir source_dir = true
    · simp only [hdir, Bool.not_true, Bool.false_eq_true, if_false]
      apply mkdirValidated_append
      · apply organize_smart_fold env root hroot
        · exact fun f hf => scan_name_clean hclean hf
        · apply mkdirValidated_no_mkdir
          intro ev hev p
          rcases List.mem_singleton.mp hev with rfl
          simp
      · apply mkdirValidated_no_mkdir
        intro ev hev p
        rcases List.mem_singleton.mp hev with rfl
        simp
    · have hdir2 : fs.isDir source_dir = false := by
        cases hx : fs.isDir source_dir
        · rfl
        · exact absurd hx hdir
      simp only [hdir2, Bool.not_false, if_true]
      apply mkdirValidated_no_mkdir
      intro ev hev p
      rcases List.mem_singleton.mp hev with rfl
      simp

/-- C2 witness: a concrete successful move's trail shows both validations,
and in the smart batch over the scenario, the service-level mkdir of
`/data/dst/2025/10` is preceded by its successful validation. -/
theorem C2_mutations_validated_witness :
    (∃ ss sd, validate_and_sanitize_path scenFs (some "/data/src/a.jpg") = some ss ∧
      validate_and_sanitize_path scenFs (some "/data/dst/2025/10/a.jpg") = some sd ∧
      (move_file scenEnv scenFs "/data/src/a.jpg" "/data/dst/2025/10/a.jpg").2.2 =
        [Event.validateEv "/data/src/a.jpg" true,
         Event.validateEv "/data/dst/2025/10/a.jpg" true,
         Event.mkdirEv ((resolvePath scenFs.cwd sd).dropLast),
         Event.moveEv (resolvePath scenFs.cwd ss) (resolvePath scenFs.cwd sd)]) ∧
    (∃ j, j < 2 ∧
      ((organize_files_by_strategy scenEnv scenFs ["data", "src"] ["data", "dst"]
          .smartS).2.2).get? j =
        some (Event.validateEv (renderAbs ["data", "dst", "2025", "10"]) true)) := by
  constructor
  · obtain ⟨ss, sd, h1, h2, h3⟩ := C2_mutations_validated.1 scenEnv scenFs
      "/data/src/a.jpg" "/data/dst/2025/10/a.jpg"
      (move_file scenEnv scenFs "/data/src/a.jpg" "/data/dst/2025/10/a.jpg").2.1
      (move_file scenEnv scenFs "/data/src/a.jpg" "/data/dst/2025/10/a.jpg").2.2
      (by rfl)
    exact ⟨ss, sd, h1, h2, h3⟩
  · have h := C2_mutations_validated.2 scenEnv scenFs ["data", "src"] ["data", "dst"]
      (by decide) (by decide)
    exact h 2 ["data", "dst", "2025", "10"] (by decide)


/-! ## Lookup, uniqueness and depth facts for the scan-boundary analysis -/

theorem find?_key_eq_of_nodup {l : List (List String × FsNode)}
    (hnd : (l.map (fun x => x.1)).Nodup) {e : List String × FsNode} (he : e ∈ l) :
    l.find? (fun x => x.1 == e.1) = some e := by
  induction l with
  | nil => cases he
  | cons a t ih =>
      rw [List.map_cons, List.nodup_cons] at hnd
      rcases List.mem_cons.mp he with rfl | he2
      · exact List.find?_cons_of_pos _ (by simp)
      · have hne : (a.1 == e.1) = false := by
          rw [beq_eq_false_iff_ne]
          intro hkey
          have hmem2 : e.1 ∈ t.map (fun x => x.1) := List.mem_map_of_mem _ he2
          rw [← hkey] at hmem2
          exact hnd.1 hmem2
        rw [show (a :: t).find? (fun x => x.1 == e.1) = t.find? (fun x => x.1 == e.1) from
          List.find?_cons_of_neg _ (by simp [hne])]
        exact ih hnd.2 he2

theorem lookup_of_mem_nodup {fs : Fs} (hnd : fs.nodupKeys) {e : List String × FsNode}
    (he : e ∈ fs.entries) : fs.lookup e.1 = some e.2 := by
  unfold Fs.lookup
  rw [find?_key_eq_of_nodup hnd he]
  rfl

theorem isFile_iff_entry {fs : Fs} (hnd : fs.nodupKeys) (p : List String) :
    fs.isFile p = true ↔ ∃ sz c m, (p, FsNode.file sz c m) ∈ fs.entries := by
  constructor
  · intro h
    unfold Fs.isFile Fs.lookup at h
    rcases hf : fs.entries.find? (fun e => e.1 == p) with _ | e
    · rw [hf] at h
      simp at h
    · rw [hf] at h
      rcases e with ⟨key, node⟩
      have hkey : key = p := by simpa using List.find?_some hf
      cases node with
      | file sz c m => exact ⟨sz, c, m, hkey ▸ List.mem_of_find?_eq_some hf⟩
      | dir => simp at h
  · rintro ⟨sz, c, m, hmem⟩
    have hl : fs.lookup p = some (FsNode.file sz c m) := lookup_of_mem_nodup hnd hmem
    unfold Fs.isFile
    rw [hl]

theorem isFile_lookup {fs : Fs} {p : List String} (h : fs.isFile p = true) :
    ∃ sz c m, fs.lookup p = some (FsNode.file sz c m) := by
  unfold Fs.isFile at h
  rcases hl : fs.lookup p with _ | node
  · rw [hl] at h
    cases h
  · rw [hl] at h
    cases node with
    | file sz c m => exact ⟨sz, c, m, rfl⟩
    | dir => cases h

theorem lookup_dir_mem {fs : Fs} {q : List String} (h : fs.lookup q = some FsNode.dir) :
    (q, FsNode.dir) ∈ fs.entries := by
  unfold Fs.lookup at h
  rcases hf : fs.entries.find? (fun e => e.1 == q) with _ | e
  · rw [hf] at h
    simp at h
  · rw [hf] at h
    rcases e with ⟨key, node⟩
    have hkey : key = q := by simpa using List.find?_some hf
    have hnode : node = FsNode.dir := by simpa using h
    rw [← hkey, ← hnode]
    exact List.mem_of_find?_eq_some hf

theorem iterdir_mem {fs : Fs} {path : List String} {e : List String × FsNode} :
    e ∈ fs.iterdir path ↔ e ∈ fs.entries ∧ e.1.dropLast = path ∧ e.1 ≠ path := by
  unfold Fs.iterdir
  rw [List.mem_filter]
  simp [and_assoc]

theorem dropLast_child {q path : List String} (hd : q.dropLast = path) (hne : q ≠ path) :
    ∃ x, q = path ++ [x] := by
  rcases hq : q.getLast? with _ | x
  · have hqe : q = [] := List.getLast?_eq_none_iff.mp hq
    subst hqe
    exact absurd hd hne
  · have hqne : q ≠ [] := by
      intro h0
      rw [h0] at hq
      simp at hq
    obtain ⟨hne2, hxl⟩ := List.mem_getLast?_eq_getLast (show x ∈ q.getLast? from hq)
    refine ⟨x, ?_⟩
    have h1 : q.dropLast ++ [q.getLast hne2] = q := List.dropLast_concat_getLast hne2
    rw [hd, ← hxl] at h1
    exact h1.symm

theorem take_append_length {α : Type} (l₁ l₂ : List α) (n : Nat) :
    (l₁ ++ l₂).take (l₁.length + n) = l₁ ++ l₂.take n := by
  induction l₁ with
  | nil => simp
  | cons a t ih =>
      have h : t.length + 1 + n = (t.length + n) + 1 := by omega
      simp only [List.cons_append, List.length_cons, h, List.take_succ_cons, ih]

theorem foldl_max_init_le (l : List (List String × FsNode)) :
    ∀ a : Nat, a ≤ l.foldl (fun acc ent => max acc ent.1.length) a := by
  induction l with
  | nil => exact fun a => Nat.le_refl a
  | cons e t ih =>
      intro a
      exact Nat.le_trans (Nat.le_max_left a e.1.length) (ih _)

theorem mem_le_foldl_max {l : List (List String × FsNode)} {e : List String × FsNode}
    (he : e ∈ l) : ∀ a : Nat, e.1.length ≤ l.foldl (fun acc ent => max acc ent.1.length) a := by
  induction l with
  | nil => cases he
  | cons x t ih =>
      intro a
      rcases List.mem_cons.mp he with rfl | he2
      · exact Nat.le_trans (Nat.le_max_right a e.1.length) (foldl_max_init_le t _)
      · exact ih he2 _

theorem isFile_length_lt_depthBound {fs : Fs} {p : List String} (h : fs.isFile p = true) :
    p.length < fs.depthBound := by
  unfold Fs.isFile Fs.lookup at h
  rcases hf : fs.entries.find? (fun e => e.1 == p) with _ | e
  · rw [hf] at h
    simp at h
  · have hmem := List.mem_of_find?_eq_some hf
    have hkey : e.1 = p := by simpa using List.find?_some hf
    have hle := mem_le_foldl_max hmem 0
    unfold Fs.depthBound
    rw [hkey] at hle
    omega

theorem ancestorClosed_lookup {fs : Fs} (hwf : fs.ancestorClosedB = true)
    {q : List String} {node : FsNode} (he : (q, node) ∈ fs.entries) (n : Nat)
    (hn : 0 < n) (hlt : n < q.length) : fs.lookup (q.take n) = some FsNode.dir := by
  unfold Fs.ancestorClosedB at hwf
  rw [List.all_eq_true] at hwf
  have h1 := hwf (q, node) he
  rw [List.all_eq_true] at h1
  have h2 := h1 n (List.mem_range.mpr hlt)
  rw [Bool.or_eq_true] at h2
  rcases h2 with h2 | h2
  · have : n = 0 := by simpa using h2
    omega
  · simpa using h2

theorem scanRec_mem_aux (fs : Fs) (fuel : Nat) :
    ∀ (l : List (List String × FsNode)) (init : List (List String)) (p : List String),
      (p ∈ l.foldl
        (fun acc item =>
          match item.2 with
          | .file _ _ _ => acc ++ [item.1]
          | .dir => acc ++ scanRec fs fuel item.1) init) ↔
        (p ∈ init ∨ ∃ item ∈ l,
          (match item.2 with
           | FsNode.file _ _ _ => p = item.1
           | FsNode.dir => p ∈ scanRec fs fuel item.1)) := by
  intro l
  induction l with
  | nil =>
      intro init p
      constructor
      · intro h
        exact Or.inl h
      · rintro (h | ⟨item, hit, -⟩)
        · exact h
        · cases hit
  | cons a t ih =>
      intro init p
      rcases a with ⟨key, node⟩
      rw [List.foldl_cons]
      cases node with
      | file sz c m =>
          dsimp only
          rw [ih]
          constructor
          · rintro (h | h)
            · rcases List.mem_append.mp h with h2 | h2
              · exact Or.inl h2
              · exact Or.inr ⟨(key, FsNode.file sz c m), List.mem_cons_self _ _,
                  by simpa using h2⟩
            · obtain ⟨item, hit, hP⟩ := h
              exact Or.inr ⟨item, List.mem_cons_of_mem _ hit, hP⟩
          · rintro (h | ⟨item, hit, hP⟩)
            · exact Or.inl (List.mem_append.mpr (Or.inl h))
            · rcases List.mem_cons.mp hit with rfl | hit2
              · exact Or.inl (List.mem_append.mpr (Or.inr (by simpa using hP)))
              · exact Or.inr ⟨item, hit2, hP⟩
      | dir =>
          dsimp only
          rw [ih]
          constructor
          · rintro (h | h)
            · rcases List.mem_append.mp h with h2 | h2
              · exact Or.inl h2
              · exact Or.inr ⟨(key, FsNode.dir), List.mem_cons_self _ _, h2⟩
            · obtain ⟨item, hit, hP⟩ := h
              exact Or.inr ⟨item, List.mem_cons_of_mem _ hit, hP⟩
          · rintro (h | ⟨item, hit, hP⟩)
            · exact Or.inl (List.mem_append.mpr (Or.inl h))
            · rcases List.mem_cons.mp hit with rfl | hit2
              · exact Or.inl (List.mem_append.mpr (Or.inr hP))
              · exact Or.inr ⟨item, hit2, hP⟩

theorem scanRec_succ_mem (fs : Fs) (fuel : Nat) (path p : List String) :
    p ∈ scanRec fs (fuel + 1) path ↔
      ∃ item ∈ fs.iterdir path,
        (match item.2 with
         | FsNode.file _ _ _ => p = item.1
         | FsNode.dir => p ∈ scanRec fs fuel item.1) := by
  constructor
  · intro hmem
    rcases (scanRec_mem_aux fs fuel (fs.iterdir path) [] p).mp hmem with h0 | h
    · cases h0
    · exact h
  · intro h
    exact (scanRec_mem_aux fs fuel (fs.iterdir path) [] p).mpr (Or.inr h)

theorem scanRec_char {fs : Fs} (hwf : fs.ancestorClosedB = true) (hnd : fs.nodupKeys) :
    ∀ (fuel : Nat) (path p : List String),
      p ∈ scanRec fs fuel path ↔
        (fs.isFile p = true ∧ path <+: p ∧ p ≠ path ∧
          p.length ≤ path.length + fuel) := by
  intro fuel
  induction fuel with
  | zero =>
      intro path p
      simp only [scanRec]
      constructor
      · intro h
        cases h
      · rintro ⟨-, ⟨t, rfl⟩, hne, hlen⟩
        rw [List.length_append] at hlen
        have ht : t = [] := List.length_eq_zero.mp (by omega)
        rw [ht, List.append_nil] at hne
        exact absurd rfl hne
  | succ fuel ih =>
      intro path p
      rw [scanRec_succ_mem]
      constructor
      · rintro ⟨⟨key, node⟩, hitem, hmatch⟩
        obtain ⟨hmem, hdrop, hne⟩ := iterdir_mem.mp hitem
        obtain ⟨x, rfl⟩ := dropLast_child hdrop hne
        cases node with
        | file sz c m =>
            have hp : p = path ++ [x] := hmatch
            subst hp
            refine ⟨(isFile_iff_entry hnd _).mpr ⟨sz, c, m, hmem⟩, ⟨[x], rfl⟩, ?_, ?_⟩
            · intro heq
              have := congrArg List.length heq
              simp only [List.length_append, List.length_singleton] at this
              omega
            · simp only [List.length_append, List.length_singleton]
              omega
        | dir =>
            have hm2 : p ∈ scanRec fs fuel (path ++ [x]) := hmatch
            obtain ⟨hfile, hpre, hne2, hlen⟩ := (ih (path ++ [x]) p).mp hm2
            obtain ⟨t, rfl⟩ := hpre
            refine ⟨hfile, ⟨[x] ++ t, (List.append_assoc path [x] t).symm⟩, ?_, ?_⟩
            · intro heq
              have := congrArg List.length heq
              simp only [List.length_append, List.length_singleton] at this
              omega
            · simp only [List.length_append, List.length_singleton] at hlen ⊢
              omega
      · rintro ⟨hfile, ⟨t, rfl⟩, hne, hlen⟩
        rcases t with _ | ⟨y, t2⟩
        · rw [List.append_nil] at hne
          exact absurd rfl hne
        · obtain ⟨sz, c, m, hmem⟩ := (isFile_iff_entry hnd _).mp hfile
          rcases t2 with _ | ⟨z, t3⟩
          · refine ⟨(path ++ [y], FsNode.file sz c m),
              iterdir_mem.mpr ⟨hmem, List.dropLast_concat, hne⟩, rfl⟩
          · have hq : (path ++ y :: z :: t3).take (path.length + 1) = path ++ [y] := by
              have h1 := take_append_length path (y :: z :: t3) 1
              simpa using h1
            have hdir : fs.lookup (path ++ [y]) = some FsNode.dir := by
              have h2 := ancestorClosed_lookup hwf hmem (path.length + 1)
                (by omega)
                (by simp only [List.length_append, List.length_cons]; omega)
              rw [hq] at h2
              exact h2
            refine ⟨(path ++ [y], FsNode.dir), iterdir_mem.mpr
              ⟨lookup_dir_mem hdir, List.dropLast_concat, ?_⟩, ?_⟩
            · intro heq
              have := congrArg List.length heq
              simp only [List.length_append, List.length_singleton] at this
              omega
            · refine (ih (path ++ [y]) (path ++ y :: z :: t3)).mpr
                ⟨hfile, ⟨z :: t3, ?_⟩, ?_, ?_⟩
              · rw [List.append_assoc]
                rfl
              · intro heq
                have h7 := congrArg List.length heq
                rw [List.length_append, List.length_append, List.length_cons,
                    List.length_cons, List.length_cons, List.length_nil] at h7
                omega
              · have h5 : (path ++ y :: z :: t3).length =
                    path.length + (t3.length + 1 + 1) := by
                  rw [List.length_append, List.length_cons, List.length_cons]
                have h6 : (path ++ [y]).length = path.length + (0 + 1) := by
                  rw [List.length_append, List.length_cons, List.length_nil]
                rw [h5] at hlen
                rw [h5, h6]
                omega

theorem scan_recursive_char {fs : Fs} (hwf : fs.ancestorClosedB = true)
    (hnd : fs.nodupKeys) (src p : List String) :
    p ∈ scan_directory_recursive fs src ↔
      fs.isFile p = true ∧ src <+: p ∧ p ≠ src := by
  unfold scan_directory_recursive
  rw [scanRec_char hwf hnd]
  constructor
  · rintro ⟨h1, h2, h3, -⟩
    exact ⟨h1, h2, h3⟩
  · rintro ⟨h1, h2, h3⟩
    refine ⟨h1, h2, h3, ?_⟩
    have := isFile_length_lt_depthBound h1
    omega

theorem scan_directory_mem {fs : Fs} (hnd : fs.nodupKeys) {src p : List String} :
    p ∈ scan_directory fs src ↔
      fs.isFile p = true ∧ p.dropLast = src ∧ p ≠ src := by
  unfold scan_directory
  rw [List.mem_map]
  constructor
  · rintro ⟨e, he, rfl⟩
    rw [List.mem_filter] at he
    obtain ⟨he1, hfile⟩ := he
    obtain ⟨hmem, hdrop, hne⟩ := iterdir_mem.mp he1
    rcases e with ⟨key, node⟩
    cases node with
    | file sz c m => exact ⟨(isFile_iff_entry hnd _).mpr ⟨sz, c, m, hmem⟩, hdrop, hne⟩
    | dir => simp at hfile
  · rintro ⟨hfile, hdrop, hne⟩
    obtain ⟨sz, c, m, hmem⟩ := (isFile_iff_entry hnd _).mp hfile
    exact ⟨(p, FsNode.file sz c m),
      List.mem_filter.mpr ⟨iterdir_mem.mpr ⟨hmem, hdrop, hne⟩, rfl⟩, rfl⟩

theorem scanRec_subset_files (fs : Fs) :
    ∀ (fuel : Nat) (path p : List String), p ∈ scanRec fs fuel path →
      (∃ node, (p, node) ∈ fs.entries) ∧ p ≠ [] := by
  intro fuel
  induction fuel with
  | zero =>
      intro path p h
      cases h
  | succ fuel ih =>
      intro path p h
      rcases (scanRec_succ_mem fs fuel path p).mp h with ⟨⟨key, node⟩, hitem, hmatch⟩
      obtain ⟨hmem, hdrop, hne⟩ := iterdir_mem.mp hitem
      cases node with
      | file sz c m =>
          have hp : p = key := hmatch
          subst hp
          refine ⟨⟨FsNode.file sz c m, hmem⟩, ?_⟩
          intro h0
          rw [h0] at hdrop hne
          exact hne (by simpa using hdrop.symm)
      | dir => exact ih key p hmatch


theorem scan_comps_clean {fs : Fs} (hclean : fs.cleanNamesB = true) {src f : List String}
    (hf : f ∈ scan_directory fs src) : ∀ s ∈ f, cleanCompB s = true := by
  obtain ⟨hmem, -, -, -⟩ := scan_mem_entry hf
  rw [List.mem_map] at hmem
  obtain ⟨e, he, rfl⟩ := hmem
  unfold Fs.cleanNamesB at hclean
  rw [List.all_eq_true] at hclean
  have hall := hclean e he
  rw [List.all_eq_true] at hall
  exact fun s hs => hall s hs

theorem key_comps_clean {fs : Fs} (hclean : fs.cleanNamesB = true)
    {f : List String} {node : FsNode} (hmem : (f, node) ∈ fs.entries) :
    ∀ s ∈ f, cleanCompB s = true := by
  unfold Fs.cleanNamesB at hclean
  rw [List.all_eq_true] at hclean
  have hall := hclean (f, node) hmem
  rw [List.all_eq_true] at hall
  exact fun s hs => hall s hs

theorem pathName_clean {f : List String} (hne : f ≠ [])
    (hcl : ∀ s ∈ f, cleanCompB s = true) : cleanCompB (pathName f) = true := by
  unfold pathName
  rcases hlast : f.getLast? with _ | x
  · exact absurd (List.getLast?_eq_none_iff.mp hlast) hne
  · simp only [Option.getD_some]
    obtain ⟨hne2, hxl⟩ := List.mem_getLast?_eq_getLast (show x ∈ f.getLast? from hlast)
    rw [hxl]
    exact hcl _ (List.getLast_mem hne2)

theorem organize_fold_sources (env : Env) (strategy : Strategy) (root : List String) :
    ∀ (files : List (List String)) (st : StepState),
      ((files.foldl (processOneFile env strategy root) st).progress).results.map
          (fun r => r.source_file) =
        st.progress.results.map (fun r => r.source_file) ++ files.map pathName := by
  intro files
  induction files with
  | nil =>
      intro st
      simp
  | cons f rest ih =>
      intro st
      simp only [List.foldl_cons, List.map_cons]
      rw [ih]
      obtain ⟨r, hr, hsrc, -⟩ := processOneFile_progress env strategy root st f
      rw [hr]
      obtain ⟨-, -, -, h4, -⟩ := add_result_fields
        { st.progress with current_file := some (pathName f) } r
      rw [h4]
      simp [hsrc]

theorem move_file_moveEv_mem {env : Env} {fs : Fs} {s d : String} {b : Bool} {fs2 : Fs}
    {evs : List Event} (h : move_file env fs s d = (b, fs2, evs))
    {ms md : List String} (hm : Event.moveEv ms md ∈ evs) :
    ∃ ss, validate_and_sanitize_path fs (some s) = some ss ∧
      ms = resolvePath fs.cwd ss := by
  rcases hv1 : validate_and_sanitize_path fs (some s) with _ | ss
  · rcases hv2 : validate_and_sanitize_path fs (some d) with _ | sd <;>
    · have hval := h
      simp only [move_file, hv1, hv2] at hval
      simp only [Prod.mk.injEq] at hval
      rw [← hval.2.2] at hm
      simp at hm
  · refine ⟨ss, rfl, ?_⟩
    rcases hv2 : validate_and_sanitize_path fs (some d) with _ | sd
    · have hval := h
      simp only [move_file, hv1, hv2] at hval
      simp only [Prod.mk.injEq] at hval
      rw [← hval.2.2] at hm
      simp at hm
    · rcases hens : ensure_directory_exists fs ((resolvePath fs.cwd sd).dropLast)
        with ⟨eb, fs1⟩
      cases eb
      · have hval := h
        simp only [move_file, hv1, hv2, hens] at hval
        simp only [Prod.mk.injEq] at hval
        rw [← hval.2.2] at hm
        simp at hm
      · by_cases hmv : (fs1.isFile (resolvePath fs.cwd ss) &&
            env.moveOk (resolvePath fs.cwd ss) (resolvePath fs.cwd sd)) = true
        · have hval := h
          simp only [move_file, hv1, hv2, hens, hmv, if_true] at hval
          simp only [Prod.mk.injEq] at hval
          rw [← hval.2.2] at hm
          simp at hm
          exact hm.1
        · have hval := h
          simp only [move_file, hv1, hv2, hens, hmv, Bool.false_eq_true, if_false] at hval
          simp only [Prod.mk.injEq] at hval
          rw [← hval.2.2] at hm
          simp at hm

theorem date_events_empty (env : Env) (fs : Fs) (f root : List String) :
    (date_get_destination_path env fs f root).2 = [] := by
  unfold date_get_destination_path
  rcases hinfo : get_organization_info env fs f with e | info
  · rfl
  · dsimp only
    cases hd : dictGet info "date" with
    | date d => rfl
    | str s => rcases hm : get_file_modification_date fs f with e2 | d2 <;> rfl
    | boolV b => rcases hm : get_file_modification_date fs f with e2 | d2 <;> rfl
    | natV n => rcases hm : get_file_modification_date fs f with e2 | d2 <;> rfl
    | noneV => rcases hm : get_file_modification_date fs f with e2 | d2 <;> rfl

theorem type_events_empty (fs : Fs) (f root : List String) (md : MetaDict) :
    (type_get_destination_path fs f root md).2 = [] := rfl

theorem get_destination_events_validate_only {env : Env} {strat : Strategy} {fs : Fs}
    {f root : List String} {md : MetaDict} {res : Except String (List String)}
    {evs : List Event}
    (h : get_destination_path env strat fs f root md = (res, evs)) :
    ∀ ev ∈ evs, ∃ s b, ev = Event.validateEv s b := by
  cases strat with
  | dateS =>
      have hevs : (date_get_destination_path env fs f root).2 = evs := congrArg Prod.snd h
      rw [date_events_empty] at hevs
      rw [← hevs]
      intro ev hev
      cases hev
  | typeS =>
      have hevs : (type_get_destination_path fs f root md).2 = evs := congrArg Prod.snd h
      rw [type_events_empty] at hevs
      rw [← hevs]
      intro ev hev
      cases hev
  | smartS => exact smart_events_validate_only h

theorem processOneFile_moveEv_mem (env : Env) (strategy : Strategy) (root : List String)
    (st : StepState) (f : List String)
    (hfclean : ∀ s ∈ f, cleanCompB s = true) (hfne : f ≠ [])
    {ms md : List String}
    (hm : Event.moveEv ms md ∈ (processOneFile env strategy root st f).events) :
    Event.moveEv ms md ∈ st.events ∨ ms = f := by
  rcases hmeta : extract_comprehensive_metadata env st.fs f with e | metadata
  · simp only [processOneFile, hmeta] at hm
    rcases List.mem_append.mp hm with h2 | h2
    · rcases List.mem_append.mp h2 with h3 | h3
      · exact Or.inl h3
      · cases h3
    · simp at h2
  · rcases hdest : get_destination_path env strategy st.fs f root metadata
      with ⟨e | dpath, evs⟩
    · simp only [processOneFile, hmeta, hdest] at hm
      rcases List.mem_append.mp hm with h2 | h2
      · rcases List.mem_append.mp h2 with h3 | h3
        · exact Or.inl h3
        · obtain ⟨s0, b0, hev⟩ := get_destination_events_validate_only hdest _ h3
          simp at hev
      · simp at h2
    · rcases hens : ensure_directory_exists st.fs dpath.dropLast with ⟨eb, fs1⟩
      cases eb
      · simp only [processOneFile, hmeta, hdest, hens] at hm
        rcases List.mem_append.mp hm with h2 | h2
        · rcases List.mem_append.mp h2 with h3 | h3
          · exact Or.inl h3
          · rcases List.mem_append.mp h3 with h4 | h4
            · obtain ⟨s0, b0, hev⟩ := get_destination_events_validate_only hdest _ h4
              simp at hev
            · simp at h4
        · simp at h2
      · rcases hmv : move_file env fs1 (renderAbs f) (renderAbs dpath)
          with ⟨success, fs2, mevs⟩
        cases success
        · simp only [processOneFile, hmeta, hdest, hens, hmv] at hm
          rcases List.mem_append.mp hm with h2 | h2
          · rcases List.mem_append.mp h2 with h3 | h3
            · exact Or.inl h3
            · rcases List.mem_append.mp h3 with h4 | h4
              · rcases List.mem_append.mp h4 with h5 | h5
                · obtain ⟨s0, b0, hev⟩ := get_destination_events_validate_only hdest _ h5
                  simp at hev
                · simp at h5
              · right
                obtain ⟨ss, hss, hms⟩ := move_file_moveEv_mem hmv h4
                have hss2 := validate_renderAbs_some hfne hfclean hss
                rw [hss2] at hms
                rw [hms]
                exact resolvePath_renderAbs fs1.cwd hfne hfclean
          · simp at h2
        · simp only [processOneFile, hmeta, hdest, hens, hmv] at hm
          rcases List.mem_append.mp hm with h2 | h2
          · rcases List.mem_append.mp h2 with h3 | h3
            · rcases List.mem_append.mp h3 with h4 | h4
              · exact Or.inl h4
              · rcases List.mem_append.mp h4 with h5 | h5
                · obtain ⟨s0, b0, hev⟩ := get_destination_events_validate_only hdest _ h5
                  simp at hev
                · simp at h5
            · right
              obtain ⟨ss, hss, hms⟩ := move_file_moveEv_mem hmv h3
              have hss2 := validate_renderAbs_some hfne hfclean hss
              rw [hss2] at hms
              rw [hms]
              exact resolvePath_renderAbs fs1.cwd hfne hfclean
          · simp at h2

theorem organize_fold_moveEv (env : Env) (strategy : Strategy) (root : List String) :
    ∀ (files : List (List String)) (st : StepState),
      (∀ f ∈ files, (∀ s ∈ f, cleanCompB s = true) ∧ f ≠ []) →
      ∀ ms md, Event.moveEv ms md ∈
          (files.foldl (processOneFile env strategy root) st).events →
        Event.moveEv ms md ∈ st.events ∨ ms ∈ files := by
  intro files
  induction files with
  | nil =>
      intro st _ ms md hm
      exact Or.inl hm
  | cons f rest ih =>
      intro st hcl ms md hm
      rcases ih (processOneFile env strategy root st f)
          (fun g hg => hcl g (List.mem_cons_of_mem _ hg)) ms md hm with hm2 | hm2
      · rcases processOneFile_moveEv_mem env strategy root st f
            (hcl f (List.mem_cons_self _ _)).1 (hcl f (List.mem_cons_self _ _)).2 hm2
          with hm3 | rfl
        · exact Or.inl hm3
        · exact Or.inr (List.mem_cons_self _ _)
      · exact Or.inr (List.mem_cons_of_mem _ hm2)


/-- C10: for every source directory (of a well-formed filesystem: clean entry
names, directory-closed ancestors, unique keys), the organize batch processes
exactly the regular files that are immediate children of that directory — the
scan is precisely those files, the recorded per-file results name precisely
the scanned files, and every move the batch performs takes a scanned
immediate child as its source; a regular file lying anywhere deeper is
neither scanned nor moved. Only the unorganize scan walks the tree: its
result is exactly every regular file strictly below the source, at any
depth. -/
theorem C10_organize_shallow (env : Env) (fs : Fs) (src root : List String)
    (strategy : Strategy) (hclean : fs.cleanNamesB = true)
    (hwf : fs.ancestorClosedB = true) (hnd : fs.nodupKeys) :
    (∀ p, p ∈ scan_directory fs src ↔
      fs.isFile p = true ∧ p.dropLast = src ∧ p ≠ src) ∧
    (∀ prog, (organize_files_by_strategy env fs src root strategy).1 = some prog →
      prog.results.map (fun r => r.source_file) = (scan_directory fs src).map pathName) ∧
    (∀ ms md, Event.moveEv ms md ∈
        (organize_files_by_strategy env fs src root strategy).2.2 →
      ms ∈ scan_directory fs src ∧ ms.dropLast = src) ∧
    (∀ q, fs.isFile q = true → q.dropLast ≠ src →
      q ∉ scan_directory fs src ∧
      ∀ md2, Event.moveEv q md2 ∉
        (organize_files_by_strategy env fs src root strategy).2.2) ∧
    (∀ p, p ∈ scan_directory_recursive fs src ↔
      fs.isFile p = true ∧ src <+: p ∧ p ≠ src) := by
  have hmove : ∀ ms md, Event.moveEv ms md ∈
      (organize_files_by_strategy env fs src root strategy).2.2 →
      ms ∈ scan_directory fs src := by
    intro ms md hm
    unfold organize_files_by_strategy at hm
    by_cases hdir : fs.isDir src = true
    · simp only [hdir, Bool.not_true, Bool.false_eq_true, if_false] at hm
      rcases List.mem_append.mp hm with h2 | h2
      · rcases organize_fold_moveEv env strategy root (scan_directory fs src)
            ⟨mkProgress "organize" (scan_directory fs src).length, fs,
             [Event.publishEv "organization_progress" ""]⟩
            (fun g hg => ⟨scan_comps_clean hclean hg, (scan_mem_entry hg).2.1⟩)
            ms md h2 with h3 | h3
        · simp at h3
        · exact h3
      · simp at h2
    · have hdir2 : fs.isDir src = false := by
        cases hx : fs.isDir src
        · rfl
        · exact absurd hx hdir
      simp only [hdir2, Bool.not_false, if_true] at hm
      simp at hm
  refine ⟨fun p => scan_directory_mem hnd, ?_, ?_, ?_,
    fun p => scan_recursive_char hwf hnd src p⟩
  · intro prog hrun
    unfold organize_files_by_strategy at hrun
    by_cases hdir : fs.isDir src = true
    · simp only [hdir, Bool.not_true, Bool.false_eq_true, if_false] at hrun
      have hp := Option.some.inj hrun
      rw [← hp]
      rw [organize_fold_sources env strategy root]
      simp [mkProgress]
    · have hdir2 : fs.isDir src = false := by
        cases hx : fs.isDir src
        · rfl
        · exact absurd hx hdir
      simp only [hdir2, Bool.not_false, if_true] at hrun
      simp at hrun
  · intro ms md hm
    have h := hmove ms md hm
    exact ⟨h, (scan_mem_entry h).2.2.1⟩
  · intro q hqfile hqdrop
    refine ⟨?_, ?_⟩
    · intro hqs
      exact hqdrop (scan_mem_entry hqs).2.2.1
    · intro md2 hm
      exact hqdrop (scan_mem_entry (hmove q md2 hm)).2.2.1

/-- C10 witness: the scenario filesystem is well-formed, and instantiating the
theorem at source `/data` shows the deep file `/data/src/a.jpg` is exactly
characterised by the recursive scan (it is a regular file strictly below
`/data`). -/
theorem C10_organize_shallow_witness :
    scenFs.cleanNamesB = true ∧ scenFs.ancestorClosedB = true ∧ scenFs.nodupKeys ∧
    (["data", "src", "a.jpg"] ∈ scan_directory_recursive scenFs ["data"] ↔
      scenFs.isFile ["data", "src", "a.jpg"] = true ∧
      ["data"] <+: ["data", "src", "a.jpg"] ∧
      ["data", "src", "a.jpg"] ≠ ["data"]) :=
  ⟨by decide, by decide, by decide,
   (C10_organize_shallow scenEnv scenFs ["data"] ["data", "dst"] .smartS
     (by decide) (by decide) (by decide)).2.2.2.2 ["data", "src", "a.jpg"]⟩


/-! ## Preservation of byte totals and key uniqueness by the engine mutations -/

theorem ensure_false_shape {fs : Fs} {p : List String} {fs1 : Fs}
    (h : ensure_directory_exists fs p = (false, fs1)) : fs1 = fs := by
  unfold ensure_directory_exists at h
  split_ifs at h with hok
  · simp at h
  · simp only [Prod.mk.injEq] at h
    exact h.2.symm

theorem mkdir_entries (fs : Fs) (p : List String) :
    (fs.mkdir p).entries = fs.entries ++
      ((p :: ancestors p).filter
        (fun q => !(q == []) && !(fs.pathExists q))).map (fun q => (q, FsNode.dir)) := rfl

theorem totalSize_append (l1 l2 : List (List String × FsNode)) :
    totalSize (l1 ++ l2) = totalSize l1 + totalSize l2 := by
  unfold totalSize
  rw [List.map_append, List.sum_append]

theorem totalSize_dirs (l : List (List String)) :
    totalSize (l.map (fun q => (q, FsNode.dir))) = 0 := by
  induction l with
  | nil => rfl
  | cons a t ih =>
      simp only [List.map_cons, totalSize, List.sum_cons] at ih ⊢
      simpa using ih

theorem totalSize_mkdir (fs : Fs) (p : List String) :
    totalSize ((fs.mkdir p).entries) = totalSize fs.entries := by
  rw [mkdir_entries, totalSize_append, totalSize_dirs]
  omega

theorem ancestors_key_lt {p q : List String} (hq : q ∈ ancestors p) :
    q.length < p.length := by
  unfold ancestors at hq
  rw [List.mem_map] at hq
  obtain ⟨i, hi, rfl⟩ := hq
  rw [List.mem_range] at hi
  rw [List.length_take]
  omega

theorem lookup_mkdir_longer {fs : Fs} {p q : List String} (h : p.length < q.length)
    (hl : fs.lookup q = none) : (fs.mkdir p).lookup q = none := by
  unfold Fs.lookup at hl ⊢
  rw [mkdir_entries, List.find?_append]
  have h1 : fs.entries.find? (fun e => e.1 == q) = none := by
    rcases hf : fs.entries.find? (fun e => e.1 == q) with _ | e
    · exact hf
    · rw [hf] at hl
      simp at hl
  rw [h1]
  have h2 : (((p :: ancestors p).filter
      (fun r => !(r == []) && !(fs.pathExists r))).map
        (fun r => (r, FsNode.dir))).find? (fun e => e.1 == q) = none := by
    rw [List.find?_eq_none]
    intro x hx
    rw [List.mem_map] at hx
    obtain ⟨r, hr, rfl⟩ := hx
    rw [List.mem_filter] at hr
    simp only [beq_iff_eq]
    intro hrq
    have hlen : r.length ≤ p.length := by
      rcases List.mem_cons.mp hr.1 with rfl | hr2
      · exact Nat.le_refl _
      · exact Nat.le_of_lt (ancestors_key_lt hr2)
    rw [hrq] at hlen
    omega
  rw [h2]
  rfl

theorem cons_ancestors_nodup (p : List String) : (p :: ancestors p).Nodup := by
  rw [List.nodup_cons]
  constructor
  · intro hp
    have := ancestors_key_lt hp
    omega
  · unfold ancestors
    refine List.Nodup.map_on ?_ (List.nodup_range _)
    intro i hi j hj heq
    rw [List.mem_range] at hi hj
    have hlen : (p.take i).length = (p.take j).length := by rw [heq]
    rw [List.length_take, List.length_take] at hlen
    omega

theorem keys_of_dirs (l : List (List String)) :
    (l.map (fun q => (q, FsNode.dir))).map (fun e => e.1) = l := by
  induction l with
  | nil => rfl
  | cons a t ih => simp [ih]

theorem nodupKeys_mkdir {fs : Fs} (hnd : fs.nodupKeys) (p : List String) :
    (fs.mkdir p).nodupKeys := by
  unfold Fs.nodupKeys at hnd ⊢
  rw [mkdir_entries, List.map_append, List.nodup_append]
  refine ⟨hnd, ?_, ?_⟩
  · rw [keys_of_dirs]
    exact List.Nodup.filter _ (cons_ancestors_nodup p)
  · intro k hk1 hk2
    rw [keys_of_dirs] at hk2
    rw [List.mem_filter] at hk2
    obtain ⟨-, hcond⟩ := hk2
    simp only [Bool.and_eq_true, Bool.not_eq_true'] at hcond
    have hex : fs.pathExists k = true := by
      unfold Fs.pathExists
      rw [Bool.or_eq_true]
      right
      rw [Fs.lookup_isSome_iff]
      rw [List.mem_map] at hk1
      obtain ⟨e, he, rfl⟩ := hk1
      exact ⟨e, he, rfl⟩
    rw [hcond.2] at hex
    cases hex

theorem cleanNamesB_mkdir {fs : Fs} (h : fs.cleanNamesB = true) {p : List String}
    (hp : ∀ s ∈ p, cleanCompB s = true) : (fs.mkdir p).cleanNamesB = true := by
  unfold Fs.cleanNamesB at h ⊢
  rw [mkdir_entries, List.all_append, Bool.and_eq_true]
  refine ⟨h, ?_⟩
  rw [List.all_eq_true]
  intro e he
  rw [List.mem_map] at he
  obtain ⟨q, hq, rfl⟩ := he
  rw [List.mem_filter] at hq
  rw [List.all_eq_true]
  intro s hs
  rcases List.mem_cons.mp hq.1 with rfl | hq2
  · exact hp s hs
  · unfold ancestors at hq2
    rw [List.mem_map] at hq2
    obtain ⟨i, -, rfl⟩ := hq2
    exact hp s (List.take_subset _ _ hs)

theorem move_entries {fs : Fs} {src dst : List String} {node : FsNode}
    (h : fs.lookup src = some node) :
    (fs.move src dst).entries =
      (fs.entries.filter (fun e => !(e.1 == src) && !(e.1 == dst))) ++ [(dst, node)] := by
  unfold Fs.move
  rw [h]

theorem nodupKeys_move {fs : Fs} (hnd : fs.nodupKeys) (src dst : List String) :
    (fs.move src dst).nodupKeys := by
  unfold Fs.move
  rcases hl : fs.lookup src with _ | node
  · exact hnd
  · unfold Fs.nodupKeys at hnd ⊢
    simp only
    rw [List.map_append, List.nodup_append]
    refine ⟨?_, by simp, ?_⟩
    · have hsub : List.Sublist
          ((fs.entries.filter (fun e => !(e.1 == src) && !(e.1 == dst))).map
            (fun e => e.1))
          (fs.entries.map (fun e => e.1)) :=
        List.Sublist.map _ (List.filter_sublist _)
      exact List.Nodup.sublist hsub hnd
    · intro k hk1 hk2
      have hk3 : k = dst := by simpa using hk2
      rw [List.mem_map] at hk1
      obtain ⟨e, he, rfl⟩ := hk1
      rw [List.mem_filter] at he
      obtain ⟨-, hcond⟩ := he
      simp only [Bool.and_eq_true, Bool.not_eq_true', beq_eq_false_iff_ne] at hcond
      exact hcond.2 hk3

theorem totalSize_filter_move {l : List (List String × FsNode)} {src dst : List String}
    {node : FsNode} (hnd : (l.map (fun e => e.1)).Nodup)
    (hdst : ∀ e ∈ l, e.1 ≠ dst) (hsrc : (src, node) ∈ l) :
    totalSize (l.filter (fun e => !(e.1 == src) && !(e.1 == dst))) +
      totalSize [(src, node)] = totalSize l := by
  induction l with
  | nil => cases hsrc
  | cons a t ih =>
      rw [List.map_cons, List.nodup_cons] at hnd
      rcases List.mem_cons.mp hsrc with rfl | hsrc2
      · rw [List.filter_cons, if_neg (by simp)]
        have hft : t.filter (fun e => !(e.1 == src) && !(e.1 == dst)) = t := by
          apply List.filter_eq_self.mpr
          intro e he
          simp only [Bool.and_eq_true, Bool.not_eq_true', beq_eq_false_iff_ne]
          refine ⟨?_, hdst e (List.mem_cons_of_mem _ he)⟩
          intro hkey
          apply hnd.1
          have hmm : e.1 ∈ t.map (fun x => x.1) := List.mem_map_of_mem _ he
          rw [hkey] at hmm
          exact hmm
        rw [hft]
        simp [totalSize, Nat.add_comm]
      · have hasrc : ¬(a.1 = src) := by
          intro hkey
          apply hnd.1
          rw [hkey]
          exact List.mem_map_of_mem (fun e => e.1) hsrc2
        rw [List.filter_cons, if_pos (by
          simp only [Bool.and_eq_true, Bool.not_eq_true', beq_eq_false_iff_ne]
          exact ⟨hasrc, hdst a (List.mem_cons_self _ _)⟩)]
        have hrec := ih hnd.2 (fun e he => hdst e (List.mem_cons_of_mem _ he)) hsrc2
        simp only [totalSize, List.map_cons, List.sum_cons] at hrec ⊢
        omega

theorem totalSize_move {fs : Fs} (hnd : fs.nodupKeys) {src dst : List String}
    {node : FsNode} (hl : fs.lookup src = some node) (hdst : fs.lookup dst = none) :
    totalSize ((fs.move src dst).entries) = totalSize fs.entries := by
  rw [move_entries hl, totalSize_append]
  have hdst2 : ∀ e ∈ fs.entries, e.1 ≠ dst := by
    intro e he hkey
    have hsome : (fs.lookup dst).isSome = true := by
      rw [Fs.lookup_isSome_iff]
      exact ⟨e, he, hkey⟩
    rw [hdst] at hsome
    cases hsome
  have hsrc : (src, node) ∈ fs.entries := by
    unfold Fs.lookup at hl
    rcases hf : fs.entries.find? (fun e => e.1 == src) with _ | e
    · rw [hf] at hl
      simp at hl
    · rw [hf] at hl
      rcases e with ⟨k2, n2⟩
      have hk : k2 = src := by simpa using List.find?_some hf
      have hn : n2 = node := by simpa using hl
      rw [← hk, ← hn]
      exact List.mem_of_find?_eq_some hf
  have hfm := totalSize_filter_move hnd hdst2 hsrc
  have hsz : totalSize ([(dst, node)] : List (List String × FsNode)) =
      totalSize [(src, node)] := by
    simp [totalSize]
  omega

theorem move_file_false_fs {env : Env} {fs : Fs} {s d : String} {fs2 : Fs}
    {evs : List Event} (h : move_file env fs s d = (false, fs2, evs)) :
    fs2 = fs ∨ ∃ p, fs2 = fs.mkdir p := by
  rcases hv1 : validate_and_sanitize_path fs (some s) with _ | ss
  · rcases hv2 : validate_and_sanitize_path fs (some d) with _ | sd <;>
    · have hval := h
      simp only [move_file, hv1, hv2] at hval
      simp only [Prod.mk.injEq] at hval
      exact Or.inl hval.2.1.symm
  · rcases hv2 : validate_and_sanitize_path fs (some d) with _ | sd
    · have hval := h
      simp only [move_file, hv1, hv2] at hval
      simp only [Prod.mk.injEq] at hval
      exact Or.inl hval.2.1.symm
    · rcases hens : ensure_directory_exists fs ((resolvePath fs.cwd sd).dropLast)
        with ⟨eb, fs1⟩
      cases eb
      · have hens2 := ensure_false_shape hens
        have hval := h
        simp only [move_file, hv1, hv2, hens] at hval
        simp only [Prod.mk.injEq] at hval
        left
        rw [← hval.2.1]
        exact hens2
      · obtain ⟨hok, rfl⟩ := ensure_true_shape hens
        by_cases hmv : ((fs.mkdir ((resolvePath fs.cwd sd).dropLast)).isFile
            (resolvePath fs.cwd ss) && env.moveOk (resolvePath fs.cwd ss)
              (resolvePath fs.cwd sd)) = true
        · have hval := h
          simp only [move_file, hv1, hv2, hens, hmv, if_true] at hval
          simp at hval
        · have hval := h
          simp only [move_file, hv1, hv2, hens, hmv, Bool.false_eq_true, if_false] at hval
          simp only [Prod.mk.injEq] at hval
          exact Or.inr ⟨_, hval.2.1.symm⟩


theorem unorgNumberedName_inj (stem suffix : String) {k1 k2 : Nat}
    (h : unorgNumberedName stem suffix k1 = unorgNumberedName stem suffix k2) :
    k1 = k2 := by
  have hd := congrArg String.data h
  simp only [unorgNumberedName, String.data_append, List.append_assoc] at hd
  have h1 := List.append_cancel_left hd
  have h2 := List.append_cancel_left h1
  have h3 := List.append_cancel_right h2
  exact natChars_injective h3

theorem unorgNumberedName_clean {filename : String} (hclean : cleanCompB filename = true)
    (k : Nat) : cleanCompB (unorgNumberedName (splitStemSuffix filename).1
      (splitStemSuffix filename).2 k) = true := by
  have hchars := cleanCompB_spec hclean
  have hdata : (unorgNumberedName (splitStemSuffix filename).1
      (splitStemSuffix filename).2 k).data =
      (splitStemSuffix filename).1.data ++
        ("_unorg_".data ++ (natChars k ++ (splitStemSuffix filename).2.data)) := by
    simp [unorgNumberedName, String.data_append, natStr]
  apply cleanCompB_of_underscore
  · rw [hdata]
    refine List.mem_append_right _ (List.mem_append_left _ ?_)
    decide
  · intro c hc
    rw [hdata] at hc
    rcases List.mem_append.mp hc with hc | hc
    · exact hchars.2.2.2 c ((splitStemSuffix_chars filename).1 c hc)
    · rcases List.mem_append.mp hc with hc | hc
      · have hmid : ∀ x ∈ "_unorg_".data, x ≠ '/' ∧ x ≠ Char.ofNat 0 := by decide
        exact hmid c hc
      · rcases List.mem_append.mp hc with hc | hc
        · have hm : c = '0' ∨ c = '1' ∨ c = '2' ∨ c = '3' ∨ c = '4' ∨ c = '5' ∨
              c = '6' ∨ c = '7' ∨ c = '8' ∨ c = '9' := by
            simpa using natCharsFuel_digits k k c hc
          rcases hm with rfl | rfl | rfl | rfl | rfl | rfl | rfl | rfl | rfl | rfl <;>
            exact ⟨by decide, by decide⟩
        · exact hchars.2.2.2 c ((splitStemSuffix_chars filename).2 c hc)

theorem exists_free_le_unorg (fs : Fs) (folder : List String) (stem suffix : String) :
    ∃ k, 1 ≤ k ∧ k ≤ fs.entries.length + 1 ∧
      fs.pathExists (folder ++ [unorgNumberedName stem suffix k]) = false := by
  by_contra hc
  push_neg at hc
  have hocc : ∀ j, j < fs.entries.length + 1 →
      fs.pathExists (folder ++ [unorgNumberedName stem suffix (j + 1)]) = true := by
    intro j hj
    have h := hc (j + 1) (by omega) (by omega)
    cases hx : fs.pathExists (folder ++ [unorgNumberedName stem suffix (j + 1)])
    · exact absurd hx h
    · rfl
  set f : Nat → List String := fun j => folder ++ [unorgNumberedName stem suffix (j + 1)]
    with hf
  have hinj : Function.Injective f := by
    intro j1 j2 h
    have h1 := List.append_cancel_left h
    have h2 : unorgNumberedName stem suffix (j1 + 1) =
        unorgNumberedName stem suffix (j2 + 1) := by simpa using h1
    have := unorgNumberedName_inj _ _ h2
    omega
  have hsub : (Finset.range (fs.entries.length + 1)).image f ⊆
      (fs.entries.map (·.1)).toFinset := by
    intro x hx
    rw [Finset.mem_image] at hx
    obtain ⟨j, hj, rfl⟩ := hx
    rw [Finset.mem_range] at hj
    rw [List.mem_toFinset]
    exact mem_keys_of_pathExists (by simp [hf]) (hocc j hj)
  have hcard := Finset.card_le_card hsub
  rw [Finset.card_image_of_injective _ hinj, Finset.card_range] at hcard
  have := List.toFinset_card_le (fs.entries.map (·.1))
  rw [List.length_map] at this
  omega

theorem uniqueLoop_shape (mk : Nat → String) (fs : Fs) (folder : List String) :
    ∀ (fuel k : Nat), ∃ m, uniqueLoop mk fs folder fuel k = folder ++ [mk m] := by
  intro fuel
  induction fuel with
  | zero =>
      intro k
      exact ⟨k, rfl⟩
  | succ f ih =>
      intro k
      by_cases h : fs.pathExists (folder ++ [mk k]) = true
      · obtain ⟨m, hm⟩ := ih (k + 1)
        refine ⟨m, ?_⟩
        rw [show uniqueLoop mk fs folder (f + 1) k =
          uniqueLoop mk fs folder f (k + 1) from by simp [uniqueLoop, h]]
        exact hm
      · refine ⟨k, ?_⟩
        have h2 : fs.pathExists (folder ++ [mk k]) = false := by
          cases hx : fs.pathExists (folder ++ [mk k])
          · rfl
          · exact absurd hx h
        simp [uniqueLoop, h2]

theorem uniqueLoop_free_unorg (fs : Fs) (folder : List String) (stem suffix : String) :
    fs.pathExists (uniqueLoop (unorgNumberedName stem suffix) fs folder
      (fs.entries.length + 1) 1) = false := by
  obtain ⟨k0, hk1, hk2, hk3⟩ := exists_free_le_unorg fs folder stem suffix
  have hP : ∃ n, 1 ≤ n ∧
      fs.pathExists (folder ++ [unorgNumberedName stem suffix n]) = false :=
    ⟨k0, hk1, hk3⟩
  have hocc : ∀ j, 1 ≤ j → j < Nat.find hP →
      fs.pathExists (folder ++ [unorgNumberedName stem suffix j]) = true := by
    intro j hj1 hj2
    have hnm := Nat.find_min hP hj2
    cases hx : fs.pathExists (folder ++ [unorgNumberedName stem suffix j])
    · exact absurd ⟨hj1, hx⟩ hnm
    · rfl
  rw [uniqueLoop_eq (unorgNumberedName stem suffix) fs folder (fs.entries.length + 1) 1
    (Nat.find hP) (Nat.find_spec hP).1
    (by
      have := Nat.find_min' hP ⟨hk1, hk3⟩
      omega)
    hocc (Nat.find_spec hP).2]
  exact (Nat.find_spec hP).2

theorem get_unique_destination_not_exists (fs : Fs) (target : List String)
    (filename : String) :
    fs.pathExists (get_unique_destination_path fs target filename) = false := by
  unfold get_unique_destination_path
  by_cases h : fs.pathExists (target ++ [filename]) = true
  · simp only [h, Bool.not_true, Bool.false_eq_true, if_false]
    exact uniqueLoop_free_unorg fs target _ _
  · have h2 : fs.pathExists (target ++ [filename]) = false := by
      cases hx : fs.pathExists (target ++ [filename])
      · rfl
      · exact absurd hx h
    simp only [h2, Bool.not_false, if_true]

theorem get_unique_destination_shape (fs : Fs) (target : List String)
    (filename : String) :
    get_unique_destination_path fs target filename = target ++ [filename] ∨
    ∃ m, get_unique_destination_path fs target filename =
      target ++ [unorgNumberedName (splitStemSuffix filename).1
        (splitStemSuffix filename).2 m] := by
  unfold get_unique_destination_path
  by_cases h : fs.pathExists (target ++ [filename]) = true
  · right
    simp only [h, Bool.not_true, Bool.false_eq_true, if_false]
    exact uniqueLoop_shape (unorgNumberedName (splitStemSuffix filename).1
      (splitStemSuffix filename).2) fs target (fs.entries.length + 1) 1
  · left
    have h2 : fs.pathExists (target ++ [filename]) = false := by
      cases hx : fs.pathExists (target ++ [filename])
      · rfl
      · exact absurd hx h
    simp only [h2, Bool.not_false, if_true]

theorem date_ok_shape {env : Env} {fs : Fs} {f root dpath : List String}
    {evs : List Event}
    (h : date_get_destination_path env fs f root = (.ok dpath, evs)) :
    ∃ d0 : CivilDate, dpath = get_unique_file_path fs
      (root ++ [yearStr d0, monthStr d0]) (pathName f) := by
  unfold date_get_destination_path at h
  rcases hinfo : get_organization_info env fs f with e | info
  · simp only [hinfo] at h
    simp at h
  · simp only [hinfo] at h
    rcases hd : dictGet info "date" with s | d0 | b | n | -
    · simp only [hd] at h
      rcases hm : get_file_modification_date fs f with e2 | d2
      · simp only [hm] at h
        simp at h
      · simp only [hm] at h
        simp only [Prod.mk.injEq, Except.ok.injEq] at h
        exact ⟨d2, h.1.symm⟩
    · simp only [hd] at h
      simp only [Prod.mk.injEq, Except.ok.injEq] at h
      exact ⟨d0, h.1.symm⟩
    · simp only [hd] at h
      rcases hm : get_file_modification_date fs f with e2 | d2
      · simp only [hm] at h
        simp at h
      · simp only [hm] at h
        simp only [Prod.mk.injEq, Except.ok.injEq] at h
        exact ⟨d2, h.1.symm⟩
    · simp only [hd] at h
      rcases hm : get_file_modification_date fs f with e2 | d2
      · simp only [hm] at h
        simp at h
      · simp only [hm] at h
        simp only [Prod.mk.injEq, Except.ok.injEq] at h
        exact ⟨d2, h.1.symm⟩
    · simp only [hd] at h
      rcases hm : get_file_modification_date fs f with e2 | d2
      · simp only [hm] at h
        simp at h
      · simp only [hm] at h
        simp only [Prod.mk.injEq, Except.ok.injEq] at h
        exact ⟨d2, h.1.symm⟩

theorem type_ok_shape {fs : Fs} {f root dpath : List String} {md : MetaDict}
    {evs : List Event}
    (h : type_get_destination_path fs f root md = (.ok dpath, evs)) :
    dpath = get_unique_file_path fs
      (root ++ [type_get_file_category (lowerStr (pathSuffix f)) md]) (pathName f) := by
  unfold type_get_destination_path at h
  simp only [Prod.mk.injEq, Except.ok.injEq] at h
  exact h.1.symm

theorem type_get_file_category_clean (e : String) (md : MetaDict) :
    cleanCompB (type_get_file_category e md) = true := by
  unfold type_get_file_category
  cases h : categoryLookup e with
  | none =>
      dsimp only
      split_ifs <;> decide
  | some c =>
      have hmem := categoryLookup_mem h
      have hall : ∀ x ∈ ["Images", "Documents", "Videos", "Audio", "Archives",
          "Code", "Executables"], cleanCompB x = true := by decide
      simpa using hall c hmem

theorem placement_fresh {fs : Fs} {file d : List String} {evs : List Event}
    {folder : List String}
    (h : (match smart_validate_destination fs folder with
          | (.ok validated_path, evs) =>
              ((Except.ok (get_unique_file_path fs validated_path (pathName file)) :
                Except String (List String)), evs)
          | (.error e, evs) => (.error e, evs)) = (.ok d, evs)) :
    fs.pathExists d = false := by
  obtain ⟨-, -, hd⟩ := placement_shape h
  rw [hd, ← get_unique_eq_nameOfCounter]
  exact get_unique_not_exists fs folder (pathName file)

theorem smart_ok_fresh {env : Env} {fs : Fs} {file root d : List String}
    {evs : List Event}
    (h : smart_get_destination_path env fs file root = (.ok d, evs)) :
    fs.pathExists d = false := by
  unfold smart_get_destination_path at h
  by_cases hext : validate_file_extension (lowerStr (pathSuffix file)) = true
  · simp only [hext, Bool.not_true, Bool.false_eq_true, if_false] at h
    rcases hinfo : get_organization_info env fs file with e | info <;>
      simp only [hinfo] at h
    · simp at h
    · split_ifs at h
      · unfold smart_organize_by_date_primary at h
        exact placement_fresh h
      · unfold smart_organize_by_type_then_date at h
        exact placement_fresh h
      · unfold smart_organize_by_date_then_type at h
        exact placement_fresh h
      · unfold smart_organize_by_type_primary at h
        exact placement_fresh h
  · have hext2 : validate_file_extension (lowerStr (pathSuffix file)) = false := by
      cases hx : validate_file_extension (lowerStr (pathSuffix file))
      · rfl
      · exact absurd hx hext
    simp only [hext2, Bool.not_false, if_true] at h
    simp at h

theorem get_destination_ok_props {env : Env} {strat : Strategy} {fs : Fs}
    {f root : List String} {md : MetaDict} {dpath : List String} {evs : List Event}
    (hroot : ∀ s ∈ root, cleanCompB s = true) (hname : cleanCompB (pathName f) = true)
    (h : get_destination_path env strat fs f root md = (.ok dpath, evs)) :
    (∀ s ∈ dpath, cleanCompB s = true) ∧ dpath ≠ [] ∧ fs.pathExists dpath = false := by
  cases strat with
  | dateS =>
      have h2 : date_get_destination_path env fs f root = (.ok dpath, evs) := h
      obtain ⟨d0, hd⟩ := date_ok_shape h2
      rw [get_unique_eq_nameOfCounter] at hd
      refine ⟨?_, ?_, ?_⟩
      · intro s hs
        rw [hd] at hs
        rcases List.mem_append.mp hs with hs | hs
        · rcases List.mem_append.mp hs with hs | hs
          · exact hroot s hs
          · rcases List.mem_cons.mp hs with rfl | hs
            · exact natStr_clean _
            · rcases List.mem_singleton.mp hs with rfl
              exact monthStr_clean _
        · rcases List.mem_singleton.mp hs with rfl
          exact nameOfCounter_clean hname _
      · rw [hd]
        simp
      · rw [hd, ← get_unique_eq_nameOfCounter]
        exact get_unique_not_exists fs _ _
  | typeS =>
      have h2 : type_get_destination_path fs f root md = (.ok dpath, evs) := h
      have hd := type_ok_shape h2
      rw [get_unique_eq_nameOfCounter] at hd
      refine ⟨?_, ?_, ?_⟩
      · intro s hs
        rw [hd] at hs
        rcases List.mem_append.mp hs with hs | hs
        · rcases List.mem_append.mp hs with hs | hs
          · exact hroot s hs
          · rcases List.mem_singleton.mp hs with rfl
            exact type_get_file_category_clean _ _
        · rcases List.mem_singleton.mp hs with rfl
          exact nameOfCounter_clean hname _
      · rw [hd]
        simp
      · rw [hd, ← get_unique_eq_nameOfCounter]
        exact get_unique_not_exists fs _ _
  | smartS =>
      have h2 : smart_get_destination_path env fs f root = (.ok dpath, evs) := h
      obtain ⟨folder, k, -, -, hd, extra, hfolder, hextra⟩ := smart_ok_shape h2
      refine ⟨?_, ?_, smart_ok_fresh h2⟩
      · intro s hs
        rw [hd] at hs
        rcases List.mem_append.mp hs with hs | hs
        · rw [hfolder] at hs
          rcases List.mem_append.mp hs with hs | hs
          · exact hroot s hs
          · exact hextra s hs
        · rcases List.mem_singleton.mp hs with rfl
          exact nameOfCounter_clean hname _
      · rw [hd]
        simp


theorem processOneFile_preserve (env : Env) (strategy : Strategy) (root : List String)
    (st : StepState) (f : List String)
    (hroot : ∀ s ∈ root, cleanCompB s = true)
    (hfclean : ∀ s ∈ f, cleanCompB s = true) (hfne : f ≠ [])
    (hnd : st.fs.nodupKeys) :
    (processOneFile env strategy root st f).fs.nodupKeys ∧
    totalSize ((processOneFile env strategy root st f).fs.entries) =
      totalSize st.fs.entries := by
  have hname : cleanCompB (pathName f) = true := pathName_clean hfne hfclean
  rcases hmeta : extract_comprehensive_metadata env st.fs f with e | metadata
  · have hfs : (processOneFile env strategy root st f).fs = st.fs := by
      simp [processOneFile, hmeta]
    rw [hfs]
    exact ⟨hnd, rfl⟩
  · rcases hdest : get_destination_path env strategy st.fs f root metadata
      with ⟨e | dpath, evs⟩
    · have hfs : (processOneFile env strategy root st f).fs = st.fs := by
        simp [processOneFile, hmeta, hdest]
      rw [hfs]
      exact ⟨hnd, rfl⟩
    · rcases hens : ensure_directory_exists st.fs dpath.dropLast with ⟨b, fs1⟩
      cases b
      · have hfs : (processOneFile env strategy root st f).fs = fs1 := by
          simp [processOneFile, hmeta, hdest, hens]
        have he1 := ensure_false_shape hens
        rw [hfs, he1]
        exact ⟨hnd, rfl⟩
      · obtain ⟨hok1, rfl⟩ := ensure_true_shape hens
        rcases hmv : move_file env (st.fs.mkdir dpath.dropLast) (renderAbs f)
            (renderAbs dpath) with ⟨success, fs2, mevs⟩
        have hnd1 : (st.fs.mkdir dpath.dropLast).nodupKeys := nodupKeys_mkdir hnd _
        cases success
        · have hfs : (processOneFile env strategy root st f).fs = fs2 := by
            simp [processOneFile, hmeta, hdest, hens, hmv]
          rw [hfs]
          rcases move_file_false_fs hmv with rfl | ⟨p, rfl⟩
          · exact ⟨hnd1, totalSize_mkdir st.fs _⟩
          · refine ⟨nodupKeys_mkdir hnd1 p, ?_⟩
            rw [totalSize_mkdir, totalSize_mkdir]
        · have hfs : (processOneFile env strategy root st f).fs = fs2 := by
            simp [processOneFile, hmeta, hdest, hens, hmv]
          rw [hfs]
          obtain ⟨hcl2, hdne, hfresh⟩ := get_destination_ok_props hroot hname hdest
          obtain ⟨ss, sd, hss, hsd, hevs, hok2, hfs2, hsfile⟩ := move_file_true_shape hmv
          have hss2 := validate_renderAbs_some hfne hfclean hss
          have hsd2 := validate_renderAbs_some hdne hcl2 hsd
          rw [hss2] at hfs2 hsfile
          rw [hsd2] at hfs2 hsfile
          rw [resolvePath_renderAbs _ hfne hfclean] at hfs2 hsfile
          rw [resolvePath_renderAbs _ hdne hcl2] at hfs2 hsfile
          have hlen : dpath.dropLast.length < dpath.length := by
            have hpos := List.length_pos.mpr hdne
            rw [List.length_dropLast]
            omega
          have hnone0 : st.fs.lookup dpath = none := by
            rcases ho : st.fs.lookup dpath with _ | v
            · rfl
            · unfold Fs.pathExists at hfresh
              rw [ho] at hfresh
              simp at hfresh
          have hnone2 : ((st.fs.mkdir dpath.dropLast).mkdir dpath.dropLast).lookup
              dpath = none := lookup_mkdir_longer hlen (lookup_mkdir_longer hlen hnone0)
          obtain ⟨sz, c, m, hlf⟩ := isFile_lookup hsfile
          have hnd2 : ((st.fs.mkdir dpath.dropLast).mkdir dpath.dropLast).nodupKeys :=
            nodupKeys_mkdir hnd1 _
          rw [hfs2]
          refine ⟨nodupKeys_move hnd2 _ _, ?_⟩
          rw [totalSize_move hnd2 hlf hnone2, totalSize_mkdir, totalSize_mkdir]

theorem organize_fold_preserve (env : Env) (strategy : Strategy) (root : List String)
    (hroot : ∀ s ∈ root, cleanCompB s = true) :
    ∀ (files : List (List String)) (st : StepState),
      (∀ f ∈ files, (∀ s ∈ f, cleanCompB s = true) ∧ f ≠ []) →
      st.fs.nodupKeys →
      (files.foldl (processOneFile env strategy root) st).fs.nodupKeys ∧
      totalSize ((files.foldl (processOneFile env strategy root) st).fs.entries) =
        totalSize st.fs.entries := by
  intro files
  induction files with
  | nil => exact fun st _ h => ⟨h, rfl⟩
  | cons f rest ih =>
      intro st hcl hnd
      obtain ⟨h1, h2⟩ := processOneFile_preserve env strategy root st f hroot
        (hcl f (List.mem_cons_self _ _)).1 (hcl f (List.mem_cons_self _ _)).2 hnd
      obtain ⟨h3, h4⟩ := ih (processOneFile env strategy root st f)
        (fun g hg => hcl g (List.mem_cons_of_mem _ hg)) h1
      rw [List.foldl_cons]
      exact ⟨h3, h4.trans h2⟩

theorem organize_preserve (env : Env) (fs : Fs) (src root : List String)
    (strategy : Strategy) (hclean : fs.cleanNamesB = true)
    (hroot : ∀ s ∈ root, cleanCompB s = true) (hnd : fs.nodupKeys) :
    (organize_files_by_strategy env fs src root strategy).2.1.nodupKeys ∧
    totalSize ((organize_files_by_strategy env fs src root strategy).2.1.entries) =
      totalSize fs.entries := by
  unfold organize_files_by_strategy
  by_cases hdir : fs.isDir src = true
  · simp only [hdir, Bool.not_true, Bool.false_eq_true, if_false]
    exact organize_fold_preserve env strategy root hroot (scan_directory fs src)
      ⟨mkProgress "organize" (scan_directory fs src).length, fs,
       [Event.publishEv "organization_progress" ""]⟩
      (fun g hg => ⟨scan_comps_clean hclean hg, (scan_mem_entry hg).2.1⟩) hnd
  · have hdir2 : fs.isDir src = false := by
      cases hx : fs.isDir src
      · rfl
      · exact absurd hx hdir
    simp only [hdir2, Bool.not_false, if_true]
    exact ⟨hnd, trivial⟩

theorem unorgProcessFile_preserve (env : Env) (target : List String) (st : StepState)
    (f : List String) (htgt : ∀ s ∈ target, cleanCompB s = true)
    (hfclean : ∀ s ∈ f, cleanCompB s = true) (hfne : f ≠ [])
    (hnd : st.fs.nodupKeys) :
    (unorgProcessFile env target st f).fs.nodupKeys ∧
    totalSize ((unorgProcessFile env target st f).fs.entries) =
      totalSize st.fs.entries := by
  have hname : cleanCompB (pathName f) = true := pathName_clean hfne hfclean
  have hdclean : ∀ s ∈ get_unique_destination_path st.fs target (pathName f),
      cleanCompB s = true := by
    rcases get_unique_destination_shape st.fs target (pathName f) with hsh | ⟨m2, hsh⟩
    · rw [hsh]
      intro s hs
      rcases List.mem_append.mp hs with hs | hs
      · exact htgt s hs
      · rcases List.mem_singleton.mp hs with rfl
        exact hname
    · rw [hsh]
      intro s hs
      rcases List.mem_append.mp hs with hs | hs
      · exact htgt s hs
      · rcases List.mem_singleton.mp hs with rfl
        exact unorgNumberedName_clean hname m2
  have hdne : get_unique_destination_path st.fs target (pathName f) ≠ [] := by
    rcases get_unique_destination_shape st.fs target (pathName f) with hsh | ⟨m2, hsh⟩ <;>
      simp [hsh]
  have hdfresh := get_unique_destination_not_exists st.fs target (pathName f)
  rcases hmv : move_file env st.fs (renderAbs f)
      (renderAbs (get_unique_destination_path st.fs target (pathName f)))
    with ⟨success, fs2, mevs⟩
  have hfs : (unorgProcessFile env target st f).fs = fs2 := by
    simp [unorgProcessFile, hmv]
  rw [hfs]
  cases success
  · rcases move_file_false_fs hmv with rfl | ⟨p, rfl⟩
    · exact ⟨hnd, rfl⟩
    · exact ⟨nodupKeys_mkdir hnd p, totalSize_mkdir st.fs p⟩
  · obtain ⟨ss, sd, hss, hsd, hevs, hok2, hfs2, hsfile⟩ := move_file_true_shape hmv
    have hss2 := validate_renderAbs_some hfne hfclean hss
    have hsd2 := validate_renderAbs_some hdne hdclean hsd
    rw [hss2] at hfs2 hsfile
    rw [hsd2] at hfs2 hsfile
    rw [resolvePath_renderAbs _ hfne hfclean] at hfs2 hsfile
    rw [resolvePath_renderAbs _ hdne hdclean] at hfs2 hsfile
    have hlen : (get_unique_destination_path st.fs target (pathName f)).dropLast.length <
        (get_unique_destination_path st.fs target (pathName f)).length := by
      have hpos := List.length_pos.mpr hdne
      rw [List.length_dropLast]
      omega
    have hnone0 : st.fs.lookup (get_unique_destination_path st.fs target (pathName f)) =
        none := by
      rcases ho : st.fs.lookup (get_unique_destination_path st.fs target (pathName f))
        with _ | v
      · rfl
      · unfold Fs.pathExists at hdfresh
        rw [ho] at hdfresh
        simp at hdfresh
    have hnone1 := lookup_mkdir_longer hlen hnone0
    obtain ⟨sz, c, m, hlf⟩ := isFile_lookup hsfile
    have hnd1 : (st.fs.mkdir ((get_unique_destination_path st.fs target
        (pathName f)).dropLast)).nodupKeys := nodupKeys_mkdir hnd _
    rw [hfs2]
    refine ⟨nodupKeys_move hnd1 _ _, ?_⟩
    rw [totalSize_move hnd1 hlf hnone1, totalSize_mkdir]

theorem unorg_fold_preserve (env : Env) (target : List String)
    (htgt : ∀ s ∈ target, cleanCompB s = true) :
    ∀ (files : List (List String)) (st : StepState),
      (∀ f ∈ files, (∀ s ∈ f, cleanCompB s = true) ∧ f ≠ []) →
      st.fs.nodupKeys →
      (files.foldl (unorgProcessFile env target) st).fs.nodupKeys ∧
      totalSize ((files.foldl (unorgProcessFile env target) st).fs.entries) =
        totalSize st.fs.entries := by
  intro files
  induction files with
  | nil => exact fun st _ h => ⟨h, rfl⟩
  | cons f rest ih =>
      intro st hcl hnd
      obtain ⟨h1, h2⟩ := unorgProcessFile_preserve env target st f htgt
        (hcl f (List.mem_cons_self _ _)).1 (hcl f (List.mem_cons_self _ _)).2 hnd
      obtain ⟨h3, h4⟩ := ih (unorgProcessFile env target st f)
        (fun g hg => hcl g (List.mem_cons_of_mem _ hg)) h1
      rw [List.foldl_cons]
      exact ⟨h3, h4.trans h2⟩

theorem unorganize_preserve (env : Env) (fs : Fs) (src tgt : List String)
    (hclean : fs.cleanNamesB = true) (htgt : ∀ s ∈ tgt, cleanCompB s = true)
    (hnd : fs.nodupKeys) :
    (unorganize_directory env fs src tgt).2.2.1.nodupKeys ∧
    totalSize ((unorganize_directory env fs src tgt).2.2.1.entries) =
      totalSize fs.entries := by
  unfold unorganize_directory
  by_cases hex : fs.pathExists src = true
  · simp only [hex, Bool.not_true, Bool.false_eq_true, if_false]
    rcases hens : ensure_directory_exists fs tgt with ⟨b, fs1⟩
    cases b
    · have h1 := ensure_false_shape hens
      subst h1
      exact ⟨hnd, rfl⟩
    · obtain ⟨hok, rfl⟩ := ensure_true_shape hens
      by_cases hempty : (scan_directory_recursive (fs.mkdir tgt) src).isEmpty = true
      · simp only [hempty, if_true]
        exact ⟨nodupKeys_mkdir hnd tgt, totalSize_mkdir fs tgt⟩
      · have hempty2 : (scan_directory_recursive (fs.mkdir tgt) src).isEmpty = false := by
          cases hx : (scan_directory_recursive (fs.mkdir tgt) src).isEmpty
          · rfl
          · exact absurd hx hempty
        simp only [hempty2, Bool.false_eq_true, if_false]
        have hcl1 : (fs.mkdir tgt).cleanNamesB = true := cleanNamesB_mkdir hclean htgt
        have hfiles : ∀ g ∈ scan_directory_recursive (fs.mkdir tgt) src,
            (∀ s ∈ g, cleanCompB s = true) ∧ g ≠ [] := by
          intro g hg
          obtain ⟨⟨node, hmem⟩, hgne⟩ := scanRec_subset_files (fs.mkdir tgt) _ src g hg
          exact ⟨key_comps_clean hcl1 hmem, hgne⟩
        obtain ⟨h1, h2⟩ := unorg_fold_preserve env tgt htgt
          (scan_directory_recursive (fs.mkdir tgt) src)
          ⟨mkProgress "unorganize" (scan_directory_recursive (fs.mkdir tgt) src).length,
           fs.mkdir tgt, [Event.publishEv "unorganize_started" ""]⟩
          hfiles (nodupKeys_mkdir hnd tgt)
        exact ⟨h1, h2.trans (totalSize_mkdir fs tgt)⟩
  · have hex2 : fs.pathExists src = false := by
      cases hx : fs.pathExists src
      · rfl
      · exact absurd hx hex
    simp only [hex2, Bool.not_false, if_true]
    exact ⟨hnd, trivial⟩


/-- C9 counterexample: a flat source of K = 1 uniquely named file (`c.exe`)
whose organize pass fails (dangerous extension under Smart) round-trips into a
fresh flat directory with 0 files and 0 bytes — not K files with the original
byte count: the file never left the source, and the unorganize pass of the
(empty) destination tree moves nothing. -/
theorem C9_counterexample :
    (scan_directory exeOnlyFs ["data", "src"]).length = 1 ∧
    ((organize_files_by_strategy scenEnv exeOnlyFs ["data", "src"] ["data", "dst"]
        .smartS).1.map (fun p => (p.successful_files, p.failed_files))) =
      some (0, 1) ∧
    ((unorganize_directory scenEnv
        (organize_files_by_strategy scenEnv exeOnlyFs ["data", "src"] ["data", "dst"]
          .smartS).2.1 ["data", "dst"] ["data", "flat"]).2.2.1.filesUnder
        ["data", "flat"]).length = 0 ∧
    totalSize (exeOnlyFs.filesUnder ["data", "src"]) = 30 := by
  refine ⟨by decide, by decide, by decide, by decide⟩

/-- C9 amended: (a) an organize batch over a well-formed filesystem (clean
entry names, unique keys, clean destination-root components) never loses,
duplicates or resizes a byte — the total byte count of the filesystem is
invariant and keys stay unique — and (b) the same holds for an unorganize run
into a clean target; (c) concretely, round-tripping the three uniquely named
flat files of the scenario (organize Smart into `/data/dst`, then unorganize
`/data/dst` into the fresh flat `/data/flat`) yields exactly the K' = 2
successfully organized files in the flat directory, under their original
names with sizes, contents and mtimes unchanged (30 bytes in total), while
the failed `c.exe` (30 bytes) never leaves `/data/src`: the spec equality
`K files / same total byte count` holds for the successfully processed subset
only. -/
theorem C9_round_trip :
    (∀ (env : Env) (fs : Fs) (src root : List String) (strategy : Strategy),
      fs.cleanNamesB = true → (∀ s ∈ root, cleanCompB s = true) → fs.nodupKeys →
      totalSize ((organize_files_by_strategy env fs src root strategy).2.1.entries) =
        totalSize fs.entries ∧
      (organize_files_by_strategy env fs src root strategy).2.1.nodupKeys) ∧
    (∀ (env : Env) (fs : Fs) (src tgt : List String),
      fs.cleanNamesB = true → (∀ s ∈ tgt, cleanCompB s = true) → fs.nodupKeys →
      totalSize ((unorganize_directory env fs src tgt).2.2.1.entries) =
        totalSize fs.entries ∧
      (unorganize_directory env fs src tgt).2.2.1.nodupKeys) ∧
    ((scan_directory scenFs ["data", "src"]).length = 3 ∧
     ((organize_files_by_strategy scenEnv scenFs ["data", "src"] ["data", "dst"]
         .smartS).1.map (fun p => (p.successful_files, p.failed_files))) =
       some (2, 1) ∧
     ((unorganize_directory scenEnv
         (organize_files_by_strategy scenEnv scenFs ["data", "src"] ["data", "dst"]
           .smartS).2.1 ["data", "dst"] ["data", "flat"]).2.2.1.entries) =
       [(["data"], FsNode.dir),
        (["data", "src"], FsNode.dir),
        (["data", "dst"], FsNode.dir),
        (["data", "src", "c.exe"], FsNode.file 30 3 ⟨2025, 1, 1⟩),
        (["data", "dst", "2025", "10"], FsNode.dir),
        (["data", "dst", "2025"], FsNode.dir),
        (["data", "dst", "2025", "07", "Documents"], FsNode.dir),
        (["data", "dst", "2025", "07"], FsNode.dir),
        (["data", "flat"], FsNode.dir),
        (["data", "flat", "a.jpg"], FsNode.file 10 1 ⟨2025, 10, 5⟩),
        (["data", "flat", "b.pdf"], FsNode.file 20 2 ⟨2025, 7, 14⟩)] ∧
     (Fs.filesUnder ⟨["w"], [],
        [(["data"], FsNode.dir),
         (["data", "src"], FsNode.dir),
         (["data", "dst"], FsNode.dir),
         (["data", "src", "c.exe"], FsNode.file 30 3 ⟨2025, 1, 1⟩),
         (["data", "dst", "2025", "10"], FsNode.dir),
         (["data", "dst", "2025"], FsNode.dir),
         (["data", "dst", "2025", "07", "Documents"], FsNode.dir),
         (["data", "dst", "2025", "07"], FsNode.dir),
         (["data", "flat"], FsNode.dir),
         (["data", "flat", "a.jpg"], FsNode.file 10 1 ⟨2025, 10, 5⟩),
         (["data", "flat", "b.pdf"], FsNode.file 20 2 ⟨2025, 7, 14⟩)]⟩
        ["data", "flat"]) =
       [(["data", "flat", "a.jpg"], FsNode.file 10 1 ⟨2025, 10, 5⟩),
        (["data", "flat", "b.pdf"], FsNode.file 20 2 ⟨2025, 7, 14⟩)] ∧
     totalSize [(["data", "flat", "a.jpg"], FsNode.file 10 1 (⟨2025, 10, 5⟩ : CivilDate)),
        (["data", "flat", "b.pdf"], FsNode.file 20 2 ⟨2025, 7, 14⟩)] = 30 ∧
     totalSize (scenFs.filesUnder ["data", "src"]) = 60) := by
  refine ⟨?_, ?_, by decide, by decide, by decide, by decide, by decide, by decide⟩
  · intro env fs src root strategy hclean hroot hnd
    obtain ⟨h1, h2⟩ := organize_preserve env fs src root strategy hclean hroot hnd
    exact ⟨h2, h1⟩
  · intro env fs src tgt hclean htgt hnd
    obtain ⟨h1, h2⟩ := unorganize_preserve env fs src tgt hclean htgt hnd
    exact ⟨h2, h1⟩

/-- C9 witness: the preservation statements instantiated on the concrete
scenario — the Smart organize batch over `/data/src` into `/data/dst` keeps
the filesystem at 60 bytes with unique keys, and so does the subsequent
unorganize into `/data/flat`. -/
theorem C9_round_trip_witness :
    scenFs.cleanNamesB = true ∧
    (∀ s ∈ (["data", "dst"] : List String), cleanCompB s = true) ∧
    scenFs.nodupKeys ∧
    (totalSize ((organize_files_by_strategy scenEnv scenFs ["data", "src"]
        ["data", "dst"] .smartS).2.1.entries) = totalSize scenFs.entries ∧
     (organize_files_by_strategy scenEnv scenFs ["data", "src"] ["data", "dst"]
        .smartS).2.1.nodupKeys) :=
  ⟨by decide, by decide, by decide,
   C9_round_trip.1 scenEnv scenFs ["data", "src"] ["data", "dst"] .smartS
     (by decide) (by decide) (by decide)⟩

end FileOrg
